import Mathlib

/-!
# Verification of the Adaptive Ride-Share (carpool) simulator core

Shallow embedding, in Lean 4, of the core data model and algorithms of the
carpool matching simulator (src/core/entities.py, src/algorithms/*.py,
src/simulation/*.py, src/utils/osrm_interface.py), together with theorems
settling the specification claims about them.

Modelling conventions:
* python floats are modelled as exact rationals (`ℚ`);
* the external map oracle (`OSRMClient.get_duration`) is a parameter
  `dur : Loc → Loc → ℚ`; external numeric kernels (haversine, `np.power`)
  are likewise parameters;
* fallible code (exceptions) is modelled with `Option` / `Except`;
* stateful code is modelled by explicit state passing.
-/

set_option linter.unusedVariables false

namespace RideShare

/-- `Location` from src/core/entities.py: a geodetic (lat, lon) pair. -/
structure Loc where
  lat : ℚ
  lon : ℚ
deriving DecidableEq, Repr

/-- The map oracle duration query `OSRMClient.get_duration` (seconds),
an external service, modelled as a parameter. -/
abbrev Dur := Loc → Loc → ℚ

/-- Python `abs` on a rational, written as an `if` so that concrete
instances reduce by `decide`. -/
def pyabs (x : ℚ) : ℚ := if x < 0 then -x else x

/-- Python `max` on two rationals. -/
def pymax (a b : ℚ) : ℚ := if a ≤ b then b else a

/-- Python `min` on two rationals. -/
def pymin (a b : ℚ) : ℚ := if a ≤ b then a else b

/-- `RoutingEngine._compute_route_cost` / the fallback multi-waypoint route
duration: the sum of consecutive segment durations along a route. -/
def route_cost (dur : Dur) : List Loc → ℚ
  | [] => 0
  | [_] => 0
  | a :: b :: rest => dur a b + route_cost dur (b :: rest)

/-- A ride request as far as the routing layer needs it
(src/core/entities.py `Request`): identity, origin, destination, and the
`cost_share` attribute read by `try_insert_request`
(`p.cost_share or 0`). -/
structure Req where
  rid : String
  origin : Loc
  destination : Loc
  cost_share : Option ℚ
deriving DecidableEq, Repr

/-! ## Cost splitting (`RoutingEngine.split_costs_by_detour`) -/

/-- `RoutingEngine.split_costs_by_detour` (src/algorithms/routing.py):
splits `total_route_cost` among passengers proportionally to their detour
ratios; equal split when the ratios sum to zero.  The python dict
`passenger_id -> detour_ratio` is modelled as an association list. -/
def split_costs_by_detour (total_route_cost : ℚ)
    (detours : List (String × ℚ)) : List (String × ℚ) :=
  let total_detour_weight := (detours.map (·.2)).sum
  if total_detour_weight = 0 then
    detours.map (fun pr => (pr.1, total_route_cost / detours.length))
  else
    detours.map (fun pr => (pr.1, total_route_cost * (pr.2 / total_detour_weight)))

/-! ## Detour ratios (`RoutingEngine.compute_detour_ratios`) -/

/-- Coordinate match with tolerance 1e-4 degrees, as in
`compute_detour_ratios`: `abs(loc.lat - origin.lat) < 0.0001` and same
for `lon`. -/
def coord_match (a b : Loc) : Bool :=
  decide (pyabs (a.lat - b.lat) < 1/10000) && decide (pyabs (a.lon - b.lon) < 1/10000)

/-- One iteration of the per-passenger loop of `compute_detour_ratios`:
find the passenger's pickup index in `route[:-1]` (falling back to the
positional index `i`), take the sub-route from there, and divide the
actual duration by the solo duration.  The division `actual / solo` is
written exactly as in the source; a zero solo duration raises
`ZeroDivisionError` in python, modelled by `none`. -/
def detour_of_passenger (dur : Dur) (route : List Loc) (i : ℕ) (p : Req) :
    Option ℚ :=
  let pickup_idx := match route.dropLast.findIdx? (fun loc => coord_match loc p.origin) with
    | some j => j
    | none => i
  let sub_route := route.drop pickup_idx
  let actual_time := route_cost dur sub_route
  let solo_time := dur p.origin p.destination
  if solo_time = 0 then none else some (actual_time / solo_time)

/-- Auxiliary recursion for `compute_detour_ratios`: passengers are
processed in order with their positional index; the first zero solo
duration aborts the whole computation (the python exception). -/
def detours_from (dur : Dur) (route : List Loc) : ℕ → List Req →
    Option (List (String × ℚ))
  | _, [] => some []
  | i, p :: ps =>
    match detour_of_passenger dur route i p with
    | none => none
    | some d =>
      match detours_from dur route (i + 1) ps with
      | none => none
      | some rest => some ((p.rid, d) :: rest)

/-- `RoutingEngine.compute_detour_ratios` (src/algorithms/routing.py):
for each passenger, detour ratio = actual sub-route duration from their
pickup index to the end, divided by the solo duration
`dur origin destination`.  Returns `none` when the unguarded division
hits a zero solo duration (python raises `ZeroDivisionError`). -/
def compute_detour_ratios (dur : Dur) (route : List Loc)
    (passengers : List Req) : Option (List (String × ℚ)) :=
  detours_from dur route 0 passengers

/-! ## Threshold policy (src/algorithms/threshold_policy.py) -/

/-- `DriverType` (src/core/entities.py): immutable driver category. -/
structure DriverType where
  tid : ℤ
  base_cost : ℚ
  arrival_rate : ℚ
  speed_multiplier : ℚ
deriving DecidableEq, Repr

/-- `np.clip(x, lo, hi)`. -/
def clip (x lo hi : ℚ) : ℚ := pymin (pymax x lo) hi

/-- `ThresholdPolicy._compute_base_threshold`:
inverts the Weibull hazard rate `q(T) = (k/λ)(T/λ)^(k−1)` for the
required right-hand side, then clips to [1, 600] seconds.
`powf` is the external numeric kernel `np.power` (only consulted when
the shape `k ≠ 1`), and `driver_types` is the policy's list already
sorted by `base_cost` (done in `ThresholdPolicy.__init__`). -/
def compute_base_threshold (powf : ℚ → ℚ → ℚ) (driver_types : List DriverType)
    (quit_penalty : ℚ) (shape scale : ℚ) (dt : DriverType) : ℚ :=
  let k := shape
  let lam := scale
  let rhs :=
    if driver_types.length < 2 then
      1 / (quit_penalty - dt.base_cost)
    else
      match driver_types with
      | _ :: next_type :: _ =>
        let lambda_sum := ((driver_types.filter
            (fun t => t.base_cost < next_type.base_cost)).map
            (fun t => t.arrival_rate * (next_type.base_cost - t.base_cost))).sum
        max 0 ((lambda_sum - 1) / (quit_penalty - next_type.base_cost))
      | _ => 0
  let threshold :=
    if k = 1 then lam * rhs
    else if rhs ≤ 0 then 0
    else lam * powf (rhs * lam / k) (1 / (k - 1))
  clip threshold 1 600

/-- `ThresholdPolicy.compute_threshold`: base threshold for the cheapest
driver type, multiplied by the pooling factor
`1 − α · min(n, K)/K`, then forced positive by `max(1.0, ·)`.
`none` models the `IndexError` on an empty driver-type list. -/
def compute_threshold (powf : ℚ → ℚ → ℚ) (driver_types : List DriverType)
    (quit_penalty alpha : ℚ) (shape scale : ℚ)
    (current_pool_size capacity : ℕ) : Option ℚ :=
  match driver_types with
  | [] => none
  | cheapest :: _ =>
    let base_threshold :=
      compute_base_threshold powf driver_types quit_penalty shape scale cheapest
    let pooling_factor :=
      1 - alpha * ((min current_pool_size capacity : ℕ) : ℚ) / (capacity : ℚ)
    some (pymax 1 (base_threshold * pooling_factor))

/-- The value the claim says `compute_threshold` returns: the clamped base
threshold times the pooling factor, with no further adjustment.
(Modelled from the spec sentence "Pooling adjustment:
`T' = T · (1 − α · min(n, K)/K)`" for the refinement comparison.) -/
def claimed_threshold (powf : ℚ → ℚ → ℚ) (driver_types : List DriverType)
    (quit_penalty alpha : ℚ) (shape scale : ℚ)
    (current_pool_size capacity : ℕ) : Option ℚ :=
  match driver_types with
  | [] => none
  | cheapest :: _ =>
    let base_threshold :=
      compute_base_threshold powf driver_types quit_penalty shape scale cheapest
    let pooling_factor :=
      1 - alpha * ((min current_pool_size capacity : ℕ) : ℚ) / (capacity : ℚ)
    some (base_threshold * pooling_factor)

/-! ## Map oracle client (src/utils/osrm_interface.py) -/

/-- Result dict of `OSRMClient.get_route` / `OSRMClient._fallback_route`:
`{'duration': ..., 'distance': ..., 'geometry': ...}`; the geometry is
kept abstract as a flag (fallback results carry `None`). -/
structure RouteResult where
  duration : ℚ
  distance : ℚ
  has_geometry : Bool
deriving DecidableEq, Repr

/-- One `routes[0]` entry of an OSRM JSON response. -/
structure OSRMRoute where
  duration : ℚ
  distance : ℚ
  has_geometry : Bool
deriving DecidableEq, Repr

/-- Outcome of the HTTP transaction inside `OSRMClient.get_route`:
either a transport failure (`requests.exceptions.RequestException`:
timeout, connection error, or `raise_for_status`), or a parsed JSON body
with its `code` field and `routes` array. -/
inductive CallOutcome where
  | transportFailure
  | response (code : String) (routes : List OSRMRoute)
deriving DecidableEq, Repr

/-- `OSRMClient._fallback_route`: haversine distances summed over
consecutive waypoints, converted to a duration at the configured average
speed of 40 km/h (11.11 m/s).  `hav` is the external numeric haversine
kernel (metres); the fallback is marked by carrying no geometry. -/
def fallback_route (hav : Loc → Loc → ℚ) (coordinates : List Loc) : RouteResult :=
  let total_distance := route_cost hav coordinates
  let avg_speed_mps : ℚ := 40 * 1000 / 3600
  { duration := total_distance / avg_speed_mps
    distance := total_distance
    has_geometry := false }

/-- `OSRMClient.get_route` (src/utils/osrm_interface.py): on a transport
failure (`except requests.exceptions.RequestException`) it degrades to
`_fallback_route`; on a parsed response it checks `data['code'] != 'Ok'`
and in that case executes `raise Exception(...)` — which is *not* a
`RequestException`, so it escapes the handler and propagates to the
caller (modelled by `.error`).  An empty `routes` array likewise raises
(`IndexError` on `data['routes'][0]`). -/
def get_route (hav : Loc → Loc → ℚ) (outcome : CallOutcome)
    (coordinates : List Loc) : Except String RouteResult :=
  match outcome with
  | .transportFailure => .ok (fallback_route hav coordinates)
  | .response code routes =>
    if code ≠ "Ok" then
      .error "OSRM error"
    else
      match routes with
      | [] => .error "IndexError"
      | r :: _ => .ok { duration := r.duration, distance := r.distance,
                        has_geometry := r.has_geometry }

/-! ## TSP for pickups (src/algorithms/routing.py) -/

/-- Loop body of `RoutingEngine._brute_force_tsp`: keep the first strictly
cheaper permutation route (`if cost < min_cost`); the python initial
state `best_route = None, min_cost = inf` is the `none` accumulator. -/
def bf_step (dur : Dur) (start destination : Loc)
    (acc : Option (List Loc × ℚ)) (perm : List Loc) : Option (List Loc × ℚ) :=
  let route := start :: (perm ++ [destination])
  let cost := route_cost dur route
  match acc with
  | none => some (perm ++ [destination], cost)
  | some pr => if cost < pr.2 then some (perm ++ [destination], cost) else acc

/-- `RoutingEngine._brute_force_tsp`: try all permutations of the pickups
and return the best route `perm ++ [destination]` with its cost. -/
def brute_force_tsp (dur : Dur) (start : Loc) (pickups : List Loc)
    (destination : Loc) : Option (List Loc × ℚ) :=
  pickups.permutations.foldl (bf_step dur start destination) none

/-- Python `min(iterable, key=f)`: the first element attaining the
minimal key (used by `_nearest_neighbor_tsp` to pick the nearest
unvisited pickup). -/
def min_by (f : Loc → ℚ) (l : List Loc) : Option Loc :=
  l.foldl (fun acc x =>
    match acc with
    | none => some x
    | some m => if f x < f m then some x else acc) none

/-- The `while unvisited:` loop of `RoutingEngine._nearest_neighbor_tsp`:
repeatedly pick the nearest unvisited pickup and move there.  The loop
consumes one element of `unvisited` per iteration, so running it with
fuel `unvisited.length` is exact. -/
def nn_visit (dur : Dur) : ℕ → Loc → List Loc → List Loc
  | 0, _, _ => []
  | fuel + 1, current, unvisited =>
    match min_by (fun p => dur current p) unvisited with
    | none => []
    | some nearest =>
      nearest :: nn_visit dur fuel nearest (unvisited.erase nearest)

/-- `RoutingEngine._nearest_neighbor_tsp`: python puts the pickups in a
`set` (which collapses duplicate locations, modelled by `dedup`), walks
them nearest-first, appends the destination, and prices the route from
`start`. -/
def nearest_neighbor_tsp (dur : Dur) (start : Loc) (pickups : List Loc)
    (destination : Loc) : List Loc × ℚ :=
  let visited := nn_visit dur pickups.dedup.length start pickups.dedup
  let route := visited ++ [destination]
  (route, route_cost dur (start :: route))

/-- `RoutingEngine.solve_tsp_pickups`: brute force for at most three
pickups, nearest-neighbor heuristic otherwise.  The TSP cache is a pure
memo of this value and is omitted. -/
def solve_tsp_pickups (dur : Dur) (driver_location : Loc)
    (pickup_locations : List Loc) (destination : Loc) :
    Option (List Loc × ℚ) :=
  if pickup_locations.length ≤ 3 then
    brute_force_tsp dur driver_location pickup_locations destination
  else
    some (nearest_neighbor_tsp dur driver_location pickup_locations destination)

/-! ## Entities (src/core/entities.py) and dynamic insertion
(src/algorithms/routing.py `try_insert_request`,
src/simulation/simulator.py `_try_dynamic_insertion`) -/

/-- `RequestStatus` (src/core/entities.py). -/
inductive RequestStatus where
  | waiting | matched | in_transit | completed | quit
deriving DecidableEq, Repr

/-- `DriverStatus` (src/core/entities.py). -/
inductive DriverStatus where
  | available | en_route_pickup | in_trip
deriving DecidableEq, Repr

/-- `Driver` (src/core/entities.py).  The driver type reference is kept
by id. -/
structure DriverE where
  did : String
  type_id : ℤ
  location : Loc
  status : DriverStatus
  available_since : ℚ
deriving DecidableEq, Repr

/-- `Trip` (src/core/entities.py).  The owning driver object is embedded
by value: while a trip is active its driver belongs to no other registry,
so python's object aliasing is ownership transfer here. -/
structure Trip where
  tid : String
  driver : DriverE
  passengers : List Req
  route : List Loc
  destination : Loc
  capacity : ℕ
  start_time : ℚ
  current_position_index : ℕ
  pickups_completed : List String
  total_route_cost : ℚ
  individual_costs : List (String × ℚ)
  detour_ratios : List (String × ℚ)
deriving DecidableEq, Repr

/-- `Trip.capacity_available`. -/
def Trip.capacity_available (t : Trip) : ℕ := t.capacity - t.passengers.length

/-- `Trip.add_passenger` (src/core/entities.py lines 158-166): appends the
passenger and replaces route, cost map and detour map.  It does NOT touch
`total_route_cost`.  (The request-side mutations set `trip_id` and the
`Matched` status; they are not represented on the routing-level `Req`.) -/
def Trip.add_passenger (t : Trip) (request : Req) (new_route : List Loc)
    (new_costs new_detours : List (String × ℚ)) : Trip :=
  { t with passengers := t.passengers ++ [request]
           route := new_route
           individual_costs := new_costs
           detour_ratios := new_detours }

/-- `Trip.complete_pickup`. -/
def Trip.complete_pickup (t : Trip) (request_id : String) : Trip :=
  { t with pickups_completed := t.pickups_completed ++ [request_id]
           current_position_index := t.current_position_index + 1 }

/-- `Trip.all_pickups_complete`. -/
def Trip.all_pickups_complete (t : Trip) : Bool :=
  t.pickups_completed.length = t.passengers.length

/-- Python list slicing insertion
`l[:i] + [x] + l[i:]` used by `try_insert_request`. -/
def insert_at {α : Type} (l : List α) (i : ℕ) (x : α) : List α :=
  l.take i ++ [x] ++ l.drop i

/-- One candidate insertion position of `RoutingEngine.try_insert_request`:
re-solve the TSP with the new pickup at `insert_pos`, recompute detours,
drop the candidate if any detour exceeds the cap, otherwise keep it when
its total-allocated-cost increase strictly beats the best so far.
`.error` models exceptions escaping the loop (a `ZeroDivisionError` from
`compute_detour_ratios`). -/
def tir_step (dur : Dur) (max_detour : ℚ) (driver_location destination : Loc)
    (current_pickups : List Loc) (passengers : List Req) (new_request : Req)
    (original_cost : ℚ)
    (acc : Except Unit
      (Option ((List Loc × List (String × ℚ) × List (String × ℚ)) × ℚ)))
    (insert_pos : ℕ) :
    Except Unit
      (Option ((List Loc × List (String × ℚ) × List (String × ℚ)) × ℚ)) :=
  match acc with
  | .error e => .error e
  | .ok acc =>
    let test_pickups := insert_at current_pickups insert_pos new_request.origin
    let test_passengers := insert_at passengers insert_pos new_request
    match solve_tsp_pickups dur driver_location test_pickups destination with
    | none => .error ()
    | some (test_route, test_cost) =>
      match compute_detour_ratios dur test_route test_passengers with
      | none => .error ()
      | some test_detours =>
        if test_detours.any (fun pr => decide (max_detour < pr.2)) then .ok acc
        else
          let test_costs := split_costs_by_detour test_cost test_detours
          let cost_increase := (test_costs.map (·.2)).sum - original_cost
          match acc with
          | none => .ok (some ((test_route, test_costs, test_detours), cost_increase))
          | some best =>
            if cost_increase < best.2 then
              .ok (some ((test_route, test_costs, test_detours), cost_increase))
            else .ok (some best)

/-- `RoutingEngine.try_insert_request` (src/algorithms/routing.py): try the
new pickup at each of the |P|+1 positions and return the best candidate
(route, cost map, detour map), or `none`.  An empty route raises
`IndexError` on `route[-1]`. -/
def try_insert_request (dur : Dur) (capacity : ℕ) (route : List Loc)
    (passengers : List Req) (new_request : Req) (driver_location : Loc)
    (max_detour : ℚ) :
    Except Unit (Option (List Loc × List (String × ℚ) × List (String × ℚ))) :=
  if passengers.length ≥ capacity then .ok none
  else
    match route.getLast? with
    | none => .error ()
    | some destination =>
      let current_pickups := passengers.map (·.origin)
      let original_cost := (passengers.map (fun p => p.cost_share.getD 0)).sum
      match (List.range (current_pickups.length + 1)).foldl
          (tir_step dur max_detour driver_location destination current_pickups
            passengers new_request original_cost) (.ok none) with
      | .error e => .error e
      | .ok none => .ok none
      | .ok (some best) => .ok (some best.1)

/-- `DestinationClusterer.are_destinations_compatible`
(src/algorithms/clustering.py): the two destinations are within
`eps_degrees`; `distdeg` is the external numeric kernel
`_haversine_distance` (which in this code is the planar
`sqrt(dlat² + dlon²)` in degrees). -/
def are_destinations_compatible (distdeg : Loc → Loc → ℚ) (eps_degrees : ℚ)
    (req1 req2 : Req) : Bool :=
  distdeg req1.destination req2.destination ≤ eps_degrees

/-- One trip considered by `CarpoolSimulator._try_dynamic_insertion`:
skip full or destination-incompatible trips, otherwise evaluate
`try_insert_request` and keep the trip with the smallest increase of
summed cost shares.  `trip.passengers[0]` on an empty passenger list
raises `IndexError`. -/
def tdi_step (dur : Dur) (distdeg : Loc → Loc → ℚ) (eps_degrees : ℚ)
    (capacity : ℕ) (max_detour : ℚ) (request : Req)
    (acc : Except Unit (Option (Trip ×
      (List Loc × List (String × ℚ) × List (String × ℚ)) × ℚ)))
    (trip : Trip) :
    Except Unit (Option (Trip ×
      (List Loc × List (String × ℚ) × List (String × ℚ)) × ℚ)) :=
  match acc with
  | .error e => .error e
  | .ok acc =>
    if trip.capacity_available = 0 then .ok acc
    else
      match trip.passengers with
      | [] => .error ()
      | p0 :: _ =>
        if ¬ are_destinations_compatible distdeg eps_degrees request p0 then
          .ok acc
        else
          match try_insert_request dur capacity trip.route trip.passengers
              request trip.driver.location max_detour with
          | .error e => .error e
          | .ok none => .ok acc
          | .ok (some ins) =>
            let current_cost := (trip.individual_costs.map (·.2)).sum
            let new_total_cost := ((ins.2.1).map (·.2)).sum
            let cost_increase := new_total_cost - current_cost
            match acc with
            | none => .ok (some (trip, ins, cost_increase))
            | some best =>
              if cost_increase < best.2.2 then .ok (some (trip, ins, cost_increase))
              else .ok (some best)

/-- `CarpoolSimulator._try_dynamic_insertion` (src/simulation/simulator.py
lines 281-327): pick the best feasible insertion over the active trips and
perform it via `Trip.add_passenger`; returns the updated trip, or `none`
when no insertion is feasible (the python method then returns False). -/
def try_dynamic_insertion (dur : Dur) (distdeg : Loc → Loc → ℚ)
    (eps_degrees : ℚ) (capacity : ℕ) (max_detour : ℚ)
    (active_trips : List Trip) (request : Req) : Except Unit (Option Trip) :=
  match active_trips.foldl
      (tdi_step dur distdeg eps_degrees capacity max_detour request)
      (.ok none) with
  | .error e => .error e
  | .ok none => .ok none
  | .ok (some (best_trip, ins, _)) =>
    .ok (some (best_trip.add_passenger request ins.1 ins.2.1 ins.2.2))

/-- The trip-record construction of `CarpoolSimulator._create_trip`
(src/simulation/simulator.py lines 464-508): destination is `route[-1]`
(`none` models the `IndexError` on an empty route) and
`total_route_cost = sum(costs.values())`.  Registry updates, request
mutations and the first-pickup event are handled by the caller in this
embedding. -/
def create_trip (now : ℚ) (capacity : ℕ) (tid : String) (driver : DriverE)
    (requests : List Req) (route : List Loc)
    (costs detours : List (String × ℚ)) : Option Trip :=
  match route.getLast? with
  | none => none
  | some dest =>
    some { tid := tid
           driver := { driver with status := DriverStatus.en_route_pickup }
           passengers := requests
           route := route
           destination := dest
           capacity := capacity
           start_time := now
           current_position_index := 0
           pickups_completed := []
           total_route_cost := (costs.map (·.2)).sum
           individual_costs := costs
           detour_ratios := detours }

/-- An event scheduled by a pickup-complete handler. -/
inductive SchedEvent where
  | pickupComplete (time : ℚ) (trip_id : String) (request_id : String)
  | tripComplete (time : ℚ) (trip_id : String)
deriving DecidableEq, Repr

/-- `_on_pickup_complete`, identical in
`CarpoolSimulator` (src/simulation/simulator.py lines 396-420) and
`FCFSSimulator` (src/simulation/fcfs_simulator.py lines 281-305):
advance the pickup cursor, then schedule either the trip completion
(travel from `trip.driver.location` to the destination) or the next
pickup (travel from `trip.driver.location` to `route[cursor]`).
Out-of-range indexing raises, modelled by `.error`.  (The request-side
status/pickup-time mutations are carried by the full FCFS machine
below.) -/
def on_pickup_complete (dur : Dur) (now : ℚ) (trip : Trip) (request : Req) :
    Except Unit (Trip × SchedEvent) :=
  let trip1 := trip.complete_pickup request.rid
  if trip1.all_pickups_complete then
    let travel_time := dur trip1.driver.location trip1.destination
    .ok (trip1, .tripComplete (now + travel_time) trip1.tid)
  else
    match trip1.route.get? trip1.current_position_index,
        trip1.passengers.get? trip1.current_position_index with
    | some next_pickup, some next_request =>
      let travel_time := dur trip1.driver.location next_pickup
      .ok (trip1, .pickupComplete (now + travel_time) trip1.tid next_request.rid)
    | _, _ => .error ()

/-- A concrete instantiation of the external map oracle used for closed
counterexamples: Manhattan distance on the coordinate plane. -/
def durM : Dur := fun u v => pyabs (u.lat - v.lat) + pyabs (u.lon - v.lon)

/-! ## Feasible-group enumeration
(src/algorithms/assignment_p1_carpool.py) -/

/-- A feasible group dict produced by `AssignmentSolver._evaluate_group`:
driver, requests, optimal route and its cost, the pickup-leg cost, their
sum, detour ratios and per-passenger costs. -/
structure Group where
  driver : DriverE
  requests : List Req
  route : List Loc
  route_cost : ℚ
  pickup_cost : ℚ
  total_cost : ℚ
  detours : List (String × ℚ)
  individual_costs : List (String × ℚ)
deriving DecidableEq, Repr

/-- `AssignmentSolver._are_close`: every ordered pair `i < j` of locations
is within `radius_km`; `distkm` is the external haversine kernel (km). -/
def are_close (distkm : Loc → Loc → ℚ) (radius_km : ℚ) :
    List Loc → Bool
  | [] => true
  | a :: rest =>
    rest.all (fun b => decide (distkm a b ≤ radius_km)) &&
      are_close distkm radius_km rest

/-- `AssignmentSolver._evaluate_group` (lines 95-147): defensive
closeness re-check at 1.0 km, TSP route via the routing engine, detour
cap check, proportional cost split, and
`total_cost = pickup_cost + route_cost`.  `.ok none` is an infeasible
group (python `return None`); `.error` is an exception that escapes the
method (the only `try` wraps the TSP call): a `ZeroDivisionError` from
`compute_detour_ratios`, or indexing an empty request list
(`destinations[0]`, unreachable from the enumerator). -/
def evaluate_group (dur : Dur) (distkm : Loc → Loc → ℚ) (driver : DriverE)
    (requests : List Req) (max_detour : ℚ) : Except Unit (Option Group) :=
  let destinations := requests.map (·.destination)
  if ¬ are_close distkm 1 destinations then .ok none
  else
    match destinations with
    | [] => .error ()
    | common_dest :: _ =>
      let pickups := requests.map (·.origin)
      match solve_tsp_pickups dur driver.location pickups common_dest with
      | none => .ok none
      | some (route, rcost) =>
        match compute_detour_ratios dur route requests with
        | none => .error ()
        | some detours =>
          if detours.any (fun pr => decide (max_detour < pr.2)) then .ok none
          else
            let individual_costs := split_costs_by_detour rcost detours
            match route with
            | [] => .error ()
            | r0 :: _ =>
              let pickup_cost := dur driver.location r0
              let total_cost := pickup_cost + rcost
              .ok (some ⟨driver, requests, route, rcost, pickup_cost,
                total_cost, detours, individual_costs⟩)

/-- The `group_cache` of `AssignmentSolver`, keyed by
`(driver.id, tuple(r.id for r in combo))`, as an association list. -/
abbrev GroupCache := List ((String × List String) × Group)

/-- One candidate combination inside
`AssignmentSolver._generate_feasible_groups`: serve a cache hit, or
evaluate the group, memoise and append it when feasible. -/
def gen_combo_step (dur : Dur) (distkm : Loc → Loc → ℚ) (max_detour : ℚ)
    (driver : DriverE) (st : GroupCache × List Group) (combo : List Req) :
    Except Unit (GroupCache × List Group) :=
  let key := (driver.did, combo.map (·.rid))
  match st.1.lookup key with
  | some g => .ok (st.1, st.2 ++ [g])
  | none =>
    match evaluate_group dur distkm driver combo max_detour with
    | .error e => .error e
    | .ok none => .ok st
    | .ok (some g) => .ok (st.1 ++ [(key, g)], st.2 ++ [g])

/-- Loop over the size-`k` combinations of one cluster. -/
def gen_over_combos (dur : Dur) (distkm : Loc → Loc → ℚ) (max_detour : ℚ)
    (driver : DriverE) : List (List Req) → GroupCache × List Group →
    Except Unit (GroupCache × List Group)
  | [], st => .ok st
  | combo :: rest, st =>
    match gen_combo_step dur distkm max_detour driver st combo with
    | .error e => .error e
    | .ok st2 => gen_over_combos dur distkm max_detour driver rest st2

/-- Python `range(m, 0, -1)`: `[m, m-1, …, 1]`. -/
def down_range (m : ℕ) : List ℕ := (List.range m).reverse.map (· + 1)

/-- Loop `for k in range(min(len(cluster), capacity), 0, -1)` over one
cluster, enumerating `combinations(cluster_requests, k)`. -/
def gen_over_sizes (dur : Dur) (distkm : Loc → Loc → ℚ) (max_detour : ℚ)
    (driver : DriverE) (cluster_requests : List Req) :
    List ℕ → GroupCache × List Group → Except Unit (GroupCache × List Group)
  | [], st => .ok st
  | k :: rest, st =>
    match gen_over_combos dur distkm max_detour driver
        (List.sublistsLen k cluster_requests) st with
    | .error e => .error e
    | .ok st2 => gen_over_sizes dur distkm max_detour driver cluster_requests rest st2

/-- Loop over the clusters for one driver. -/
def gen_over_clusters (dur : Dur) (distkm : Loc → Loc → ℚ) (max_detour : ℚ)
    (capacity : ℕ) (driver : DriverE) :
    List (ℤ × List Req) → GroupCache × List Group →
    Except Unit (GroupCache × List Group)
  | [], st => .ok st
  | cl :: rest, st =>
    match gen_over_sizes dur distkm max_detour driver cl.2
        (down_range (min cl.2.length capacity)) st with
    | .error e => .error e
    | .ok st2 => gen_over_clusters dur distkm max_detour capacity driver rest st2

/-- `AssignmentSolver._generate_feasible_groups` (lines 54-93): nested
loops over drivers, clusters, group sizes from `min(|cluster|, capacity)`
down to 1, and combinations, with the memoising cache threaded
through. -/
def generate_feasible_groups (dur : Dur) (distkm : Loc → Loc → ℚ)
    (max_detour : ℚ) (capacity : ℕ) (clusters : List (ℤ × List Req)) :
    List DriverE → GroupCache × List Group →
    Except Unit (GroupCache × List Group)
  | [], st => .ok st
  | driver :: rest, st =>
    match gen_over_clusters dur distkm max_detour capacity driver clusters st with
    | .error e => .error e
    | .ok st2 => generate_feasible_groups dur distkm max_detour capacity clusters rest st2

/-! ## The event priority queue
(`heapq` as used by src/simulation/simulator.py and
src/simulation/fcfs_simulator.py, with `Event.__lt__` comparing times
only).

The CPython `heapq` functions `_siftdown`, `_siftup`, `heappush` and
`heappop` are embedded generically over an element type with a time key
(the simulators store `Event` objects whose `__lt__` is
`self.time < other.time`).  The while-loops carry explicit fuel; the
callers pass enough fuel for the loops to run to completion (`_siftdown`
moves its index strictly down towards 0, `_siftup` moves it strictly up
towards the end). -/

/-- `Event` of src/simulation/simulator.py as far as the queue is
concerned: the time (the only field `__lt__` compares) and a tag standing
for the (event_type, data) payload. -/
structure QEvent where
  time : ℚ
  tag : ℕ
deriving DecidableEq, Repr

/-- `j` is a heap child of `i` in the array layout. -/
def is_child (i j : ℕ) : Prop := j = 2 * i + 1 ∨ j = 2 * i + 2

/-- CPython `heapq._siftdown(heap, startpos, pos)`: bubble the new item
up from `pos` towards `startpos`, shifting parents down until the parent
is not larger.  `newitem` is passed explicitly (the python code reads it
from `heap[pos]` before the loop and only writes below it). -/
def siftdown {α : Type} (key : α → ℚ) (startpos : ℕ) :
    ℕ → List α → α → ℕ → List α
  | 0, heap, newitem, pos => heap.set pos newitem
  | fuel + 1, heap, newitem, pos =>
    if startpos < pos then
      let parentpos := (pos - 1) / 2
      match heap.get? parentpos with
      | none => heap.set pos newitem
      | some parent =>
        if key newitem < key parent then
          siftdown key startpos fuel (heap.set pos parent) newitem parentpos
        else heap.set pos newitem
    else heap.set pos newitem

/-- `heapq.heappush`: append, then sift down from the last index with
`startpos = 0`. -/
def heappush {α : Type} (key : α → ℚ) (heap : List α) (item : α) : List α :=
  siftdown key 0 heap.length (heap ++ [item]) item heap.length

/-- The while-loop of CPython `heapq._siftup`: walk the hole at `pos`
down, always promoting the smaller child, until a position with no left
child is reached; returns the array and the final hole position. -/
def siftup_loop {α : Type} (key : α → ℚ) :
    ℕ → List α → ℕ → List α × ℕ
  | 0, heap, pos => (heap, pos)
  | fuel + 1, heap, pos =>
    let endpos := heap.length
    let childpos := 2 * pos + 1
    if childpos < endpos then
      let rightpos := childpos + 1
      let childpos2 :=
        if rightpos < endpos then
          match heap.get? childpos, heap.get? rightpos with
          | some cl, some cr => if ¬ key cl < key cr then rightpos else childpos
          | _, _ => childpos
        else childpos
      match heap.get? childpos2 with
      | none => (heap, pos)
      | some child => siftup_loop key fuel (heap.set pos child) childpos2
    else (heap, pos)

/-- CPython `heapq._siftup(heap, pos)`: run the hole to the bottom, place
the displaced item there, then `_siftdown` it back up towards `pos`. -/
def siftup {α : Type} (key : α → ℚ) (heap : List α) (pos : ℕ) : List α :=
  match heap.get? pos with
  | none => heap
  | some newitem =>
    let lp := siftup_loop key heap.length heap pos
    siftdown key pos lp.2 lp.1 newitem lp.2

/-- `heapq.heappop`: pop the last element; if the heap is still
non-empty, move it to the root and sift up; `none` models the
`IndexError` on an empty heap. -/
def heappop {α : Type} (key : α → ℚ) (heap : List α) :
    Option (α × List α) :=
  match heap.getLast? with
  | none => none
  | some lastelt =>
    let rest := heap.dropLast
    if rest.isEmpty then some (lastelt, [])
    else
      match rest.get? 0 with
      | none => none
      | some returnitem => some (returnitem, siftup key (rest.set 0 lastelt) 0)

/-- The binary-heap invariant: along every parent/child edge the parent's
key is not larger. -/
def heap_inv {α : Type} (key : α → ℚ) (l : List α) : Prop :=
  ∀ i j x y, is_child i j → l.get? i = some x → l.get? j = some y →
    key x ≤ key y

/-- The event-loop consumption order: successive `heappop` results. -/
def pop_all {α : Type} (key : α → ℚ) : ℕ → List α → List α
  | 0, _ => []
  | fuel + 1, heap =>
    match heappop key heap with
    | none => []
    | some (x, rest) => x :: pop_all key fuel rest

/-- Successive `heappush`s (`CarpoolSimulator._add_event`). -/
def push_all {α : Type} (key : α → ℚ) (heap : List α) (items : List α) :
    List α :=
  items.foldl (heappush key) heap

/-- A group admissible for some (driver, cluster) pair of the enumeration:
its requests are a combination of between 1 and `min(|cluster|, capacity)`
requests of that cluster, and the group is the successful evaluation of
that combination. -/
def good_group (dur : Dur) (distkm : Loc → Loc → ℚ) (max_detour : ℚ)
    (capacity : ℕ) (drivers : List DriverE) (clusters : List (ℤ × List Req))
    (g : Group) : Prop :=
  ∃ driver ∈ drivers, ∃ cl ∈ clusters, ∃ combo : List Req,
    combo.Sublist cl.2 ∧ 1 ≤ combo.length ∧
    combo.length ≤ min cl.2.length capacity ∧
    evaluate_group dur distkm driver combo max_detour = .ok (some g)

/-! ## The FCFS simulator (src/simulation/fcfs_simulator.py,
src/algorithms/fcfs_matcher.py)

The FCFS stack is embedded as a deterministic state machine in the
pre-generated-events mode (an `events` dict is passed to
`FCFSSimulator.__init__`): the randomness-only code paths
(`_initialize_drivers`' random placement, `_schedule_arrivals`, the
`if not self.pre_generated_events` rescheduling at the end of
`_on_request_arrival` / `_on_driver_arrival`, random request/driver
field generation) are never taken in this mode; the initial driver list
and the pre-generated event lists are parameters.

Python mutates `Request` and `Driver` objects that are shared between
`active_requests`, `available_drivers`, trip passenger lists and event
payloads.  Object identity of a request is its unique id, so `status`
(the only mutable request field the claim mentions) lives in a registry
keyed by request id, and `list.remove(request)` / `list.remove(driver)`
(removal of the first occurrence of the very object) is removal of the
first entry with the same id.  Of the `MetricsTracker` only
`total_quits` is carried: `MetricsTracker.record_quit`
(src/utils/metrics_carpool.py) is its sole writer, and the FCFS
handlers' `record_request_arrival` / `record_dynamic_insertion` /
`record_match` / `record_trip_complete` / `snapshot_state` calls do not
touch it.  `generate_trip_id` (a fresh uuid per call) is modelled by a
counter-indexed injective id generator. -/

/-- Python dict assignment `m[k] = v` on a dict modelled as an
association list: replace the entry if the key is present, else append. -/
def dict_set {β : Type} (m : List (String × β)) (k : String) (v : β) :
    List (String × β) :=
  if (m.lookup k).isSome then
    m.map (fun p => if p.1 = k then (k, v) else p)
  else m ++ [(k, v)]

/-- Python `list.insert(-1, x)`: insert before the last element (at the
front when the list is empty). -/
def insert_before_last {α : Type} (l : List α) (x : α) : List α :=
  l.dropLast ++ [x] ++ l.drop (l.length - 1)

/-- `FCFSMatcher._compute_simple_route_cost`: 0 for routes shorter than
two stops, else the sum of consecutive segment durations. -/
def compute_simple_route_cost (dur : Dur) (route : List Loc) : ℚ :=
  if route.length < 2 then 0 else route_cost dur route

/-- `FCFSMatcher._compute_simple_detours`: for each passenger, find the
pickup index in the route by coordinate match (tolerance 0.0001), set the
detour ratio to (time from pickup to end) / (solo time) when the solo
time is positive, else 1; 1 when the pickup is not found.  The
per-request mirror fields (`solo_trip_duration`, `actual_trip_duration`,
`detour_ratio`) are write-only for the FCFS stack and are not carried. -/
def compute_simple_detours (dur : Dur) (t : Trip) : Trip :=
  { t with detour_ratios := t.passengers.foldl (fun m p =>
      let solo := dur p.origin p.destination
      match t.route.findIdx? (fun loc => coord_match loc p.origin) with
      | some i =>
        let actual := compute_simple_route_cost dur (t.route.drop i)
        dict_set m p.rid (if 0 < solo then actual / solo else 1)
      | none => dict_set m p.rid 1) t.detour_ratios }

/-- `FCFSMatcher._can_add_to_trip`: destinations within 5 km. -/
def can_add_to_trip (dist : Loc → Loc → ℚ) (t : Trip) (request : Req) :
    Bool :=
  decide (dist t.destination request.destination < 5000)

/-- `FCFSMatcher._add_to_trip_fcfs`: append the pickup before the
destination, append the passenger, recompute the shared route cost
(which becomes `total_route_cost` — the already-paid pickup leg is not
re-added), split it equally (each passenger's `cost_share` is set), and
recompute the detour ratios. -/
def add_to_trip_fcfs (dur : Dur) (t : Trip) (request : Req) : Trip :=
  let route' := insert_before_last t.route request.origin
  let passengers0 := t.passengers ++ [request]
  let rcost := compute_simple_route_cost dur route'
  let cost_per := rcost / passengers0.length
  let passengers' := passengers0.map (fun p => { p with cost_share := some cost_per })
  compute_simple_detours dur
    { t with
      route := route'
      passengers := passengers'
      total_route_cost := rcost
      individual_costs :=
        passengers0.foldl (fun m p => dict_set m p.rid cost_per) t.individual_costs }

/-- `FCFSMatcher._create_trip_fcfs`: a fresh trip with the single
passenger, route pickup → destination, `total_route_cost` = pickup leg +
route cost, the passenger charged the route cost and given detour ratio
1.  (`start_time` is 0 until the simulator sets it; the dynamic
`pickup_cost` / `route_cost` attributes python also sets are not
dataclass fields and are read nowhere.) -/
def create_trip_fcfs (dur : Dur) (tid : String) (driver : DriverE)
    (request : Req) (capacity : ℕ) : Trip :=
  let route := [request.origin, request.destination]
  let pickup_cost := dur driver.location request.origin
  let rcost := compute_simple_route_cost dur route
  ⟨tid, driver, [{ request with cost_share := some rcost }], route,
    request.destination, capacity, 0, 0, [], pickup_cost + rcost,
    [(request.rid, rcost)], [(request.rid, 1)]⟩

/-- The `for trip in active_trips` loop of `FCFSMatcher.match_request`:
the first trip with spare capacity that passes `_can_add_to_trip`
receives the request (in place); returns that trip and the updated
list. -/
def mr_scan (dur : Dur) (dist : Loc → Loc → ℚ) (request : Req) :
    List Trip → Option (Trip × List Trip)
  | [] => none
  | t :: rest =>
    if 0 < t.capacity_available ∧ can_add_to_trip dist t request then
      let t' := add_to_trip_fcfs dur t request
      some (t', t' :: rest)
    else
      match mr_scan dur dist request rest with
      | some (t', rest') => some (t', t :: rest')
      | none => none

/-- `FCFSMatcher.match_request`: try to join an existing trip first;
otherwise create a new trip for the first driver after the stable sort
by `available_since` (`or 0` only maps the value 0.0 to 0).  Returns the
matched trip, the updated active-trip list and the matcher's own
driver-id → trip-id dict (whose values are never read, so trip ids
suffice). -/
def fcfs_match_request (dur : Dur) (dist : Loc → Loc → ℚ) (tid : String)
    (request : Req) (available_drivers : List DriverE) (capacity : ℕ)
    (active_trips : List Trip) (matcher_trips : List (String × String)) :
    Option Trip × List Trip × List (String × String) :=
  let sorted_drivers := available_drivers.mergeSort
    (fun a b => decide (a.available_since ≤ b.available_since))
  match mr_scan dur dist request active_trips with
  | some (t', trips') => (some t', trips', matcher_trips)
  | none =>
    match sorted_drivers with
    | [] => (none, active_trips, matcher_trips)
    | d :: _ =>
      let nt := create_trip_fcfs dur tid d request capacity
      (some nt, active_trips, dict_set matcher_trips d.did nt.tid)

/-- The event payloads the FCFS simulator's queue can carry
(`EventType` of src/simulation/simulator.py plus the data dict):
pre-generated request/driver records, and the trip/request references of
the progress events (by id, the python objects' identity). -/
inductive FData where
  | request_arrival (rid : String) (origin destination : Loc)
  | driver_arrival (did : String) (type_id : ℤ) (location : Loc)
  | request_quit (rid : String)
  | threshold_reached (rid : String)
  | pickup_complete (tid : String) (rid : String)
  | trip_complete (tid : String)
deriving DecidableEq, Repr

/-- The two event kinds the FCFS stack is claimed never to schedule. -/
def FData.is_quit_or_threshold : FData → Bool
  | .request_quit _ => true
  | .threshold_reached _ => true
  | _ => false

/-- An `Event` as stored in the FCFS queue: `Event.__lt__` compares
times only. -/
structure FEvent where
  time : ℚ
  data : FData
deriving DecidableEq, Repr

/-- `FCFSSimulator` state: simulation clock, event queue,
active requests, available drivers, active and completed trips, the
matcher's driver→trip dict, the request-status registry, the metrics'
quit counter, and the trip-id generator counter. -/
structure FState where
  time : ℚ
  queue : List FEvent
  active_requests : List Req
  available_drivers : List DriverE
  active_trips : List Trip
  completed_trips : List Trip
  matcher_trips : List (String × String)
  statuses : List (String × RequestStatus)
  total_quits : ℕ
  next_trip : ℕ

/-- `FCFSSimulator._add_event`: `heapq.heappush` on the queue. -/
def fcfs_add_event (s : FState) (time : ℚ) (data : FData) : FState :=
  { s with queue := heappush FEvent.time s.queue ⟨time, data⟩ }

/-- `generate_trip_id`: an injective id per counter value. -/
def gen_tid (n : ℕ) : String := String.mk ('t' :: List.replicate n 'i')

/-- `FCFSSimulator._start_trip`: stamp the start time, mark the driver
en-route, mark every passenger matched and drop it from the active set,
remove the driver from the pool, activate the trip and schedule the
first pickup from the driver's location (route and passenger lists are
non-empty for every matcher-built trip, so the python indexings
`trip.route[0]` / `trip.passengers[0]` cannot fail there). -/
def fcfs_start_trip (dur : Dur) (s : FState) (trip : Trip) : FState :=
  let trip' := { trip with
    start_time := s.time
    driver := { trip.driver with status := DriverStatus.en_route_pickup } }
  let s' := { s with
    statuses := trip'.passengers.foldl
      (fun m p => dict_set m p.rid RequestStatus.matched) s.statuses
    active_requests := trip'.passengers.foldl
      (fun l p => l.eraseP (fun r => r.rid == p.rid)) s.active_requests
    available_drivers :=
      s.available_drivers.eraseP (fun d => d.did == trip.driver.did)
    active_trips := s.active_trips ++ [trip'] }
  match trip'.route, trip'.passengers with
  | fp :: _, p0 :: _ =>
    fcfs_add_event s' (s.time + dur trip'.driver.location fp)
      (FData.pickup_complete trip'.tid p0.rid)
  | _, _ => s'

/-- `FCFSSimulator._on_request_arrival` (pre-generated branch): register
the request as waiting and append it to the active set, run the FCFS
matcher, then either start the returned trip (when its id is new) or —
dynamic insertion — drop the request from the active set. -/
def fcfs_on_request_arrival (dur : Dur) (dist : Loc → Loc → ℚ)
    (capacity : ℕ) (s : FState) (rid : String)
    (origin destination : Loc) : FState :=
  let request : Req := ⟨rid, origin, destination, none⟩
  let s1 := { s with
    active_requests := s.active_requests ++ [request]
    statuses := dict_set s.statuses rid RequestStatus.waiting
    next_trip := s.next_trip + 1 }
  match fcfs_match_request dur dist (gen_tid s.next_trip) request
      s1.available_drivers capacity s1.active_trips s1.matcher_trips with
  | (some trip, trips', mtrips') =>
    let s2 := { s1 with active_trips := trips', matcher_trips := mtrips' }
    if (s2.active_trips.map Trip.tid).contains trip.tid then
      { s2 with
        active_requests := s2.active_requests.eraseP
          (fun r => r.rid == request.rid) }
    else
      fcfs_start_trip dur s2 trip
  | (none, trips', mtrips') =>
    { s1 with active_trips := trips', matcher_trips := mtrips' }

/-- `FCFSSimulator._on_driver_arrival` (pre-generated branch): add the
driver to the pool; if some request is waiting, offer the first one to
the matcher with just this driver, and start the trip only when its id
is new (a dynamic insertion leaves the active set untouched here). -/
def fcfs_on_driver_arrival (dur : Dur) (dist : Loc → Loc → ℚ)
    (capacity : ℕ) (s : FState) (did : String) (type_id : ℤ)
    (location : Loc) : FState :=
  let driver : DriverE :=
    ⟨did, type_id, location, DriverStatus.available, s.time⟩
  let s1 := { s with
    available_drivers := s.available_drivers ++ [driver] }
  match s1.active_requests with
  | [] => s1
  | request :: _ =>
    let s2 := { s1 with next_trip := s1.next_trip + 1 }
    match fcfs_match_request dur dist (gen_tid s1.next_trip) request
        [driver] capacity s2.active_trips s2.matcher_trips with
    | (some trip, trips', mtrips') =>
      let s3 := { s2 with active_trips := trips', matcher_trips := mtrips' }
      if (s3.active_trips.map Trip.tid).contains trip.tid then s3
      else fcfs_start_trip dur s3 trip
    | (none, trips', mtrips') =>
      { s2 with active_trips := trips', matcher_trips := mtrips' }

/-- `FCFSSimulator._on_pickup_complete`: advance the trip's pickup
cursor, mark the rider in transit, then head to the destination when all
pickups are done, else to the next pickup — in both cases from the
driver's (stale) recorded location.  The trip object of the event is the
one in `active_trips` (a pickup event always precedes the trip's
completion, so the id lookup is total in a run); the `route` /
`passengers` indexings cannot fail for matcher-built trips. -/
def fcfs_on_pickup_complete (dur : Dur) (s : FState) (tid rid : String) :
    FState :=
  match s.active_trips.find? (fun t => t.tid == tid) with
  | none => s
  | some trip =>
    let trip' := trip.complete_pickup rid
    let s1 := { s with
      active_trips := s.active_trips.map
        (fun t => if t.tid == tid then trip' else t)
      statuses := dict_set s.statuses rid RequestStatus.in_transit }
    if trip'.all_pickups_complete then
      fcfs_add_event s1 (s.time + dur trip'.driver.location trip'.destination)
        (FData.trip_complete trip'.tid)
    else
      match trip'.route.get? trip'.current_position_index,
          trip'.passengers.get? trip'.current_position_index with
      | some next_pickup, some next_request =>
        fcfs_add_event s1 (s.time + dur trip'.driver.location next_pickup)
          (FData.pickup_complete trip'.tid next_request.rid)
      | _, _ => s1

/-- `FCFSSimulator._on_trip_complete`: mark all passengers completed,
return the driver to the pool at the destination, move the trip to the
completed list and clear the matcher's dict entry. -/
def fcfs_on_trip_complete (s : FState) (tid : String) : FState :=
  match s.active_trips.find? (fun t => t.tid == tid) with
  | none => s
  | some trip =>
    let driver' := { trip.driver with
      status := DriverStatus.available
      location := trip.destination
      available_since := s.time }
    { s with
      statuses := trip.passengers.foldl
        (fun m p => dict_set m p.rid RequestStatus.completed) s.statuses
      available_drivers := s.available_drivers ++ [driver']
      active_trips := s.active_trips.eraseP (fun t => t.tid == tid)
      completed_trips := s.completed_trips ++ [{ trip with driver := driver' }]
      matcher_trips :=
        s.matcher_trips.eraseP (fun p => p.1 == trip.driver.did) }

/-- `FCFSSimulator._handle_event`: the if/elif dispatch handles exactly
four kinds; a `REQUEST_QUIT` or `THRESHOLD_REACHED` event would fall
through every branch and leave the state unchanged. -/
def fcfs_handle_event (dur : Dur) (dist : Loc → Loc → ℚ) (capacity : ℕ)
    (s : FState) : FData → FState
  | .request_arrival rid origin destination =>
    fcfs_on_request_arrival dur dist capacity s rid origin destination
  | .driver_arrival did type_id location =>
    fcfs_on_driver_arrival dur dist capacity s did type_id location
  | .pickup_complete tid rid => fcfs_on_pickup_complete dur s tid rid
  | .trip_complete tid => fcfs_on_trip_complete s tid
  | .request_quit _ => s
  | .threshold_reached _ => s

/-- The `while self.event_queue and self.time < duration` loop of
`FCFSSimulator.run`: pop the earliest event, advance the clock to it and
dispatch (the metrics snapshot after each event does not change the
state carried here); fuel bounds the number of iterations. -/
def fcfs_run (dur : Dur) (dist : Loc → Loc → ℚ) (capacity : ℕ)
    (duration : ℚ) : ℕ → FState → FState
  | 0, s => s
  | fuel + 1, s =>
    if s.time < duration then
      match heappop FEvent.time s.queue with
      | none => s
      | some (e, rest) =>
        fcfs_run dur dist capacity duration fuel
          (fcfs_handle_event dur dist capacity
            { s with time := e.time, queue := rest } e.data)
    else s

/-- `FCFSSimulator._schedule_from_events`: push every pre-generated
request event, then every pre-generated driver event. -/
def fcfs_schedule_from_events (req_events : List (ℚ × String × Loc × Loc))
    (drv_events : List (ℚ × String × ℤ × Loc)) : List FEvent :=
  let q1 := req_events.foldl (fun q e =>
    heappush FEvent.time q ⟨e.1, FData.request_arrival e.2.1 e.2.2.1 e.2.2.2⟩) []
  drv_events.foldl (fun q e =>
    heappush FEvent.time q ⟨e.1, FData.driver_arrival e.2.1 e.2.2.1 e.2.2.2⟩) q1

/-- `FCFSSimulator.__init__` in pre-generated mode: clock 0, the
pre-generated events queued, the initial drivers available, everything
else empty. -/
def fcfs_init (init_drivers : List DriverE)
    (req_events : List (ℚ × String × Loc × Loc))
    (drv_events : List (ℚ × String × ℤ × Loc)) : FState :=
  ⟨0, fcfs_schedule_from_events req_events drv_events, [], init_drivers,
    [], [], [], [], 0, 0⟩

/-- Some trip of the list carries a passenger with this request id. -/
def in_trips (rid : String) (ts : List Trip) : Prop :=
  ∃ t ∈ ts, ∃ q ∈ t.passengers, q.rid = rid

/-- The C10 property of an FCFS simulator state: no quit or threshold
event is pending, no request has the quit status, the quit counter is 0,
and every request ever seen is still in the active set or riding in some
(active or completed) trip. -/
def fcfs_invariant (s : FState) : Prop :=
  (∀ e ∈ s.queue, e.data.is_quit_or_threshold = false) ∧
  (∀ p ∈ s.statuses, p.2 ≠ RequestStatus.quit) ∧
  s.total_quits = 0 ∧
  (∀ p ∈ s.statuses,
    (∃ r ∈ s.active_requests, r.rid = p.1) ∨
    in_trips p.1 (s.active_trips ++ s.completed_trips))

/-- The inductive strengthening of `fcfs_invariant` closed under the
FCFS handlers: additionally, every pending pickup event names a rider
already on some trip, and every trip id came from the generator at a
counter value below the current one. -/
def fcfs_inv (s : FState) : Prop :=
  fcfs_invariant s ∧
  (∀ e ∈ s.queue, ∀ tid rid, e.data = FData.pickup_complete tid rid →
    in_trips rid (s.active_trips ++ s.completed_trips)) ∧
  (∀ t ∈ s.active_trips ++ s.completed_trips,
    ∃ k, k < s.next_trip ∧ t.tid = gen_tid k) ∧
  (s.active_trips.map Trip.tid).Pairwise (fun a b => a ≠ b)

/-! ## Theorems: claims C4, C5, C7, C9 -/

theorem pyabs_eq_abs (x : ℚ) : pyabs x = |x| := by
  rw [pyabs]
  by_cases h : x < 0
  · rw [if_pos h, abs_of_neg h]
  · rw [if_neg h, abs_of_nonneg (not_lt.mp h)]

theorem pymax_eq_max (a b : ℚ) : pymax a b = max a b := by
  rw [pymax, max_def]

theorem pymin_eq_min (a b : ℚ) : pymin a b = min a b := by
  rw [pymin, min_def]

/-- Helper: summing a list mapped to a constant. -/
theorem sum_map_fixed {α : Type} (l : List α) (c : ℚ) :
    (l.map (fun _ => c)).sum = l.length * c := by
  induction l with
  | nil => simp
  | cons a as ih => simp [ih]; ring

/-- Helper: the values of a share list built by pairing each key with a
function of the entry. -/
theorem shares_sum (l : List (String × ℚ)) (g : String × ℚ → ℚ) :
    ((l.map (fun pr => (pr.1, g pr))).map (·.2)).sum = (l.map g).sum := by
  have hcomp : ((fun pr : String × ℚ => pr.2) ∘ fun pr : String × ℚ =>
      (pr.1, g pr)) = g := rfl
  rw [List.map_map, hcomp]

/-- C7: for every total route cost and every non-empty detour-ratio map,
the shares returned by `split_costs_by_detour` sum to the total; when the
ratios sum to zero the split is equal (each share is total/n); and when
all detour ratios are equal every passenger receives the same share
total/n. -/
theorem split_costs_correct (total : ℚ) (detours : List (String × ℚ))
    (hne : detours ≠ []) :
    ((split_costs_by_detour total detours).map (·.2)).sum = total ∧
    ((detours.map (·.2)).sum = 0 →
      ∀ pr ∈ split_costs_by_detour total detours, pr.2 = total / detours.length) ∧
    (∀ c, (∀ pr ∈ detours, pr.2 = c) →
      ∀ pr ∈ split_costs_by_detour total detours, pr.2 = total / detours.length) := by
  have hlen0 : detours.length ≠ 0 := fun h => hne (List.length_eq_zero.mp h)
  have hlen : (detours.length : ℚ) ≠ 0 := Nat.cast_ne_zero.mpr hlen0
  by_cases hS : (detours.map (·.2)).sum = 0
  · have heq : split_costs_by_detour total detours =
        detours.map (fun pr => (pr.1, total / detours.length)) := by
      simp [split_costs_by_detour, hS]
    refine ⟨?_, ?_, ?_⟩
    · rw [heq, shares_sum, sum_map_fixed, mul_div_cancel₀ _ hlen]
    · intro _ pr hpr
      rw [heq] at hpr
      rcases List.mem_map.mp hpr with ⟨q, _, hq⟩
      rw [← hq]
    · intro c _ pr hpr
      rw [heq] at hpr
      rcases List.mem_map.mp hpr with ⟨q, _, hq⟩
      rw [← hq]
  · have heq : split_costs_by_detour total detours =
        detours.map (fun pr =>
          (pr.1, total * (pr.2 / (detours.map (·.2)).sum))) := by
      simp [split_costs_by_detour, hS]
    refine ⟨?_, fun h => absurd h hS, ?_⟩
    · rw [heq, shares_sum]
      have hfun : (fun pr : String × ℚ =>
          total * (pr.2 / (detours.map (·.2)).sum)) =
          fun pr : String × ℚ =>
            (total / (detours.map (·.2)).sum) * pr.2 := by
        funext pr; ring
      rw [hfun, List.sum_map_mul_left, div_mul_cancel₀ _ hS]
    · intro c hc pr hpr
      rw [heq] at hpr
      rcases List.mem_map.mp hpr with ⟨q, hq_mem, hq⟩
      have hqc : q.2 = c := hc q hq_mem
      have hSc : (detours.map (·.2)).sum = detours.length * c := by
        rw [List.sum_eq_card_nsmul _ c]
        · simp [nsmul_eq_mul]
        · intro x hx
          rcases List.mem_map.mp hx with ⟨r, hr_mem, hr⟩
          rw [← hr]; exact hc r hr_mem
      have hc0 : c ≠ 0 := by
        intro h0
        exact hS (by rw [hSc, h0, mul_zero])
      rw [← hq]
      show total * (q.2 / (detours.map (·.2)).sum) = total / detours.length
      rw [hqc, hSc]
      field_simp
      ring

/-- Closed witness for `split_costs_correct` at a concrete instance. -/
theorem split_costs_correct_witness :
    ((split_costs_by_detour 10 [("a", 1), ("b", 1)]).map (·.2)).sum = 10 ∧
    (([("a", (1:ℚ)), ("b", 1)].map (·.2)).sum = 0 →
      ∀ pr ∈ split_costs_by_detour 10 [("a", 1), ("b", 1)],
        pr.2 = 10 / ([("a", (1:ℚ)), ("b", 1)] : List (String × ℚ)).length) ∧
    (∀ c, (∀ pr ∈ ([("a", (1:ℚ)), ("b", 1)] : List (String × ℚ)), pr.2 = c) →
      ∀ pr ∈ split_costs_by_detour 10 [("a", 1), ("b", 1)],
        pr.2 = 10 / ([("a", (1:ℚ)), ("b", 1)] : List (String × ℚ)).length) :=
  split_costs_correct 10 [("a", 1), ("b", 1)] (by decide)

/-- C9 (corrected): `compute_threshold` does not return the clamped base
threshold times the pooling factor: it returns that product re-clamped
below at 1 by the final `max(1.0, adjusted_threshold)`. -/
theorem compute_threshold_amended (powf : ℚ → ℚ → ℚ)
    (driver_types : List DriverType) (quit_penalty alpha shape scale : ℚ)
    (n K : ℕ) :
    compute_threshold powf driver_types quit_penalty alpha shape scale n K =
      (claimed_threshold powf driver_types quit_penalty alpha shape scale n K).map
        (fun t => pymax 1 t) := by
  cases driver_types with
  | nil => rfl
  | cons cheapest rest => rfl

/-- C9 counterexample: with one driver type of base cost 1, quit penalty 2,
α = 0.3, Weibull shape 1 and scale 0.5, pool size 3 and capacity 3, the
clamped base threshold is 1 and the pooling factor is 0.7, so the claimed
value is 0.7 — but `compute_threshold` returns 1. -/
theorem compute_threshold_counterexample :
    compute_threshold (fun _ _ => 0) [⟨1, 1, 1, 1⟩] 2 (3/10) 1 (1/2) 3 3 =
      some 1 ∧
    claimed_threshold (fun _ _ => 0) [⟨1, 1, 1, 1⟩] 2 (3/10) 1 (1/2) 3 3 =
      some (7/10) ∧
    compute_threshold (fun _ _ => 0) [⟨1, 1, 1, 1⟩] 2 (3/10) 1 (1/2) 3 3 ≠
      claimed_threshold (fun _ _ => 0) [⟨1, 1, 1, 1⟩] 2 (3/10) 1 (1/2) 3 3 := by
  have hbase : compute_base_threshold (fun _ _ => (0:ℚ)) [⟨1, 1, 1, 1⟩] 2 1 (1/2)
      ⟨1, 1, 1, 1⟩ = 1 := by
    delta compute_base_threshold
    norm_num [clip, pymin, pymax]
  have hc : compute_threshold (fun _ _ => (0:ℚ)) [⟨1, 1, 1, 1⟩] 2 (3/10) 1 (1/2) 3 3 =
      some 1 := by
    delta compute_threshold
    norm_num [hbase, pymax]
  have hd : claimed_threshold (fun _ _ => (0:ℚ)) [⟨1, 1, 1, 1⟩] 2 (3/10) 1 (1/2) 3 3 =
      some (7/10) := by
    delta claimed_threshold
    norm_num [hbase]
  refine ⟨hc, hd, ?_⟩
  rw [hc, hd]
  intro h
  exact absurd (Option.some.inj h) (by norm_num)

/-- C4 counterexample: a passenger whose origin equals their destination
has solo duration 0 under the (concrete) map oracle, and
`compute_detour_ratios` hits the unguarded division `actual / solo`:
python raises `ZeroDivisionError`, modelled here by `none`. -/
theorem compute_detour_ratios_counterexample :
    compute_detour_ratios
      (fun a b => pyabs (a.lat - b.lat) + pyabs (a.lon - b.lon))
      [⟨0, 0⟩, ⟨0, 0⟩] [⟨"p1", ⟨0, 0⟩, ⟨0, 0⟩, none⟩] = none := by
  simp [compute_detour_ratios, detours_from, detour_of_passenger, pyabs]

/-- C4 (amended): the division in `compute_detour_ratios` is not guarded;
it is well-defined exactly on inputs where every passenger's solo
duration is nonzero, in which case it returns a ratio list covering all
passengers. -/
theorem compute_detour_ratios_amended (dur : Dur) (route : List Loc)
    (passengers : List Req)
    (h : ∀ p ∈ passengers, dur p.origin p.destination ≠ 0) :
    ∃ ds, compute_detour_ratios dur route passengers = some ds ∧
      ds.length = passengers.length := by
  unfold compute_detour_ratios
  suffices hgen : ∀ i, ∃ ds, detours_from dur route i passengers = some ds ∧
      ds.length = passengers.length from hgen 0
  induction passengers with
  | nil => intro i; exact ⟨[], rfl, rfl⟩
  | cons p ps ih =>
    intro i
    have hp : dur p.origin p.destination ≠ 0 := h p (by simp)
    have ihp : ∀ q ∈ ps, dur q.origin q.destination ≠ 0 :=
      fun q hq => h q (by simp [hq])
    rcases ih ihp (i + 1) with ⟨ds, hds, hlen⟩
    obtain ⟨d, hd⟩ : ∃ d, detour_of_passenger dur route i p = some d := by
      simp only [detour_of_passenger]
      rw [if_neg hp]
      exact ⟨_, rfl⟩
    refine ⟨(p.rid, d) :: ds, ?_, by simp [hlen]⟩
    unfold detours_from
    rw [hd, hds]

/-- Closed witness for `compute_detour_ratios_amended`. -/
theorem compute_detour_ratios_amended_witness :
    ∃ ds, compute_detour_ratios (fun _ _ => 1)
      [⟨0, 0⟩, ⟨1, 1⟩] [⟨"p1", ⟨0, 0⟩, ⟨1, 1⟩, none⟩] = some ds ∧
      ds.length = ([⟨"p1", ⟨0, 0⟩, ⟨1, 1⟩, none⟩] : List Req).length :=
  compute_detour_ratios_amended _ _ _ (by decide)

/-- C5 counterexample: a response with a non-"Ok" code makes `get_route`
raise (`raise Exception(...)` is not caught by the
`except requests.exceptions.RequestException` clause), so the error
propagates to the caller instead of degrading to the fallback. -/
theorem get_route_counterexample :
    get_route (fun _ _ => 0) (CallOutcome.response "NoRoute" [])
      [⟨0, 0⟩, ⟨1, 1⟩] = .error "OSRM error" := by
  rfl

/-- C5 (amended): a transport failure (network error / HTTP error status)
degrades to the haversine fallback at the configured 40 km/h and returns
a result; but a non-"Ok" response code raises an exception that
propagates to the caller. -/
theorem get_route_amended (hav : Loc → Loc → ℚ) (coordinates : List Loc)
    (code : String) (routes : List OSRMRoute) (hcode : code ≠ "Ok") :
    get_route hav CallOutcome.transportFailure coordinates =
      .ok (fallback_route hav coordinates) ∧
    get_route hav (CallOutcome.response code routes) coordinates =
      .error "OSRM error" := by
  constructor
  · rfl
  · simp [get_route, hcode]

/-- Closed witness for `get_route_amended`. -/
theorem get_route_amended_witness :
    get_route (fun _ _ => 1) CallOutcome.transportFailure [⟨0, 0⟩, ⟨1, 1⟩] =
      .ok (fallback_route (fun _ _ => 1) [⟨0, 0⟩, ⟨1, 1⟩]) ∧
    get_route (fun _ _ => 1) (CallOutcome.response "InvalidUrl" [])
      [⟨0, 0⟩, ⟨1, 1⟩] = .error "OSRM error" :=
  get_route_amended (fun _ _ => 1) [⟨0, 0⟩, ⟨1, 1⟩] "InvalidUrl" [] (by decide)

/-! ## Theorems: claim C6 (TSP) -/

theorem min_by_fold_mem (f : Loc → ℚ) (l : List Loc) :
    ∀ acc m, (l.foldl (fun acc x =>
      match acc with
      | none => some x
      | some m => if f x < f m then some x else acc) acc) = some m →
      m ∈ l ∨ acc = some m := by
  induction l with
  | nil => intro acc m h; exact Or.inr h
  | cons a as ih =>
    intro acc m h
    rcases ih _ m h with hmem | hacc
    · exact Or.inl (List.mem_cons_of_mem _ hmem)
    · match acc with
      | none =>
        exact Or.inl (by rw [← Option.some.inj hacc]; exact List.mem_cons_self a as)
      | some m0 =>
        simp only [] at hacc
        by_cases hlt : f a < f m0
        · rw [if_pos hlt] at hacc
          exact Or.inl (by rw [← Option.some.inj hacc]; exact List.mem_cons_self a as)
        · rw [if_neg hlt] at hacc
          exact Or.inr hacc

theorem min_by_mem {f : Loc → ℚ} {l : List Loc} {m : Loc}
    (h : min_by f l = some m) : m ∈ l := by
  rcases min_by_fold_mem f l none m h with hmem | habs
  · exact hmem
  · exact absurd habs (by simp)

theorem min_by_fold_isSome (f : Loc → ℚ) (l : List Loc) :
    ∀ acc : Option Loc, acc.isSome →
      (l.foldl (fun acc x =>
        match acc with
        | none => some x
        | some m => if f x < f m then some x else acc) acc).isSome := by
  induction l with
  | nil => intro acc h; exact h
  | cons a as ih =>
    intro acc h
    match acc with
    | some m0 =>
      apply ih
      simp only []
      split <;> rfl

theorem min_by_isSome {f : Loc → ℚ} {l : List Loc} (h : l ≠ []) :
    (min_by f l).isSome := by
  match l with
  | a :: as =>
    show (List.foldl _ (some a) as).isSome
    exact min_by_fold_isSome f as (some a) rfl

/-- The nearest-neighbor walk visits exactly the unvisited pickups, in
some order, when given enough fuel. -/
theorem nn_visit_perm (dur : Dur) :
    ∀ (fuel : ℕ) (current : Loc) (l : List Loc), l.length ≤ fuel →
      (nn_visit dur fuel current l).Perm l := by
  intro fuel
  induction fuel with
  | zero =>
    intro current l hl
    rw [List.length_eq_zero.mp (Nat.le_zero.mp hl)]
    exact List.Perm.refl _
  | succ n ih =>
    intro current l hl
    show (nn_visit dur (n + 1) current l).Perm l
    rw [nn_visit]
    cases hmin : min_by (fun p => dur current p) l with
    | none =>
      have hnil : l = [] := by
        by_contra hne
        have hs : (min_by (fun p => dur current p) l).isSome :=
          min_by_isSome hne
        rw [hmin] at hs
        simp at hs
      rw [hnil]
    | some nearest =>
      have hmem := min_by_mem hmin
      have hne : l ≠ [] := by
        intro hnil; rw [hnil] at hmem; exact absurd hmem (List.not_mem_nil _)
      have hlen : (l.erase nearest).length ≤ n := by
        rw [List.length_erase_of_mem hmem]
        omega
      exact ((ih nearest (l.erase nearest) hlen).cons nearest).trans
        (List.perm_cons_erase hmem).symm

theorem bf_step_isSome (dur : Dur) (s d : Loc)
    (acc : Option (List Loc × ℚ)) (q : List Loc) :
    (bf_step dur s d acc q).isSome := by
  match acc with
  | none => rfl
  | some pr =>
    show (if route_cost dur (s :: (q ++ [d])) < pr.2 then _ else _ :
      Option (List Loc × ℚ)).isSome
    by_cases hlt : route_cost dur (s :: (q ++ [d])) < pr.2
    · rw [if_pos hlt]; rfl
    · rw [if_neg hlt]; rfl

theorem bf_fold_isSome (dur : Dur) (s d : Loc) (perms : List (List Loc)) :
    ∀ acc, acc.isSome ∨ perms ≠ [] →
      (perms.foldl (bf_step dur s d) acc).isSome := by
  induction perms with
  | nil =>
    intro acc h
    exact h.elim id (fun hc => absurd rfl hc)
  | cons q rest ih =>
    intro acc _
    exact ih (bf_step dur s d acc q) (Or.inl (bf_step_isSome dur s d acc q))

theorem bf_fold_le (dur : Dur) (s d : Loc) (perms : List (List Loc)) :
    ∀ acc r c, perms.foldl (bf_step dur s d) acc = some (r, c) →
      (∀ q ∈ perms, c ≤ route_cost dur (s :: (q ++ [d]))) ∧
      (∀ pr, acc = some pr → c ≤ pr.2) := by
  induction perms with
  | nil =>
    intro acc r c h
    refine ⟨fun q hq => absurd hq (List.not_mem_nil _), fun pr hpr => ?_⟩
    rw [hpr] at h
    rw [Option.some.inj h]
  | cons q rest ih =>
    intro acc r c h
    have hstep : ∀ pr, bf_step dur s d acc q = some pr →
        pr.2 ≤ route_cost dur (s :: (q ++ [d])) ∧
        (∀ pr0, acc = some pr0 → pr.2 ≤ pr0.2) := by
      intro pr hpr
      match acc with
      | none =>
        refine ⟨le_of_eq (congrArg Prod.snd (Option.some.inj hpr)).symm, ?_⟩
        intro pr0 hpr0
        exact absurd hpr0 (by simp)
      | some pr1 =>
        show _ ∧ ∀ pr0, some pr1 = some pr0 → _
        by_cases hlt : route_cost dur (s :: (q ++ [d])) < pr1.2
        · rw [bf_step, if_pos hlt] at hpr
          have hpr2 : pr.2 = route_cost dur (s :: (q ++ [d])) :=
            (congrArg Prod.snd (Option.some.inj hpr)).symm
          refine ⟨le_of_eq hpr2, fun pr0 hpr0 => ?_⟩
          rw [← Option.some.inj hpr0, hpr2]
          exact le_of_lt hlt
        · rw [bf_step, if_neg hlt] at hpr
          have hpr1 : pr = pr1 := (Option.some.inj hpr).symm
          refine ⟨by rw [hpr1]; exact not_lt.mp hlt, fun pr0 hpr0 => ?_⟩
          rw [← Option.some.inj hpr0, hpr1]
    rcases ih (bf_step dur s d acc q) r c h with ⟨hrest, hacc⟩
    obtain ⟨prs, hprs⟩ := Option.isSome_iff_exists.mp (bf_step_isSome dur s d acc q)
    rcases hstep prs hprs with ⟨hle, hprev⟩
    have hc : c ≤ prs.2 := hacc prs hprs
    refine ⟨?_, fun pr0 hpr0 => le_trans hc (hprev pr0 hpr0)⟩
    intro q0 hq0
    rcases List.mem_cons.mp hq0 with hq0 | hq0
    · rw [hq0]; exact le_trans hc hle
    · exact hrest q0 hq0

theorem bf_fold_src (dur : Dur) (s d : Loc) (perms : List (List Loc)) :
    ∀ acc r c, perms.foldl (bf_step dur s d) acc = some (r, c) →
      (∃ q ∈ perms, r = q ++ [d] ∧ c = route_cost dur (s :: (q ++ [d]))) ∨
      acc = some (r, c) := by
  induction perms with
  | nil =>
    intro acc r c h
    exact Or.inr h
  | cons q rest ih =>
    intro acc r c h
    rcases ih (bf_step dur s d acc q) r c h with hsrc | hstep
    · rcases hsrc with ⟨q0, hq0, hr, hc⟩
      exact Or.inl ⟨q0, List.mem_cons_of_mem _ hq0, hr, hc⟩
    · match acc with
      | none =>
        have := Option.some.inj hstep
        exact Or.inl ⟨q, List.mem_cons_self _ _,
          (congrArg Prod.fst this).symm, (congrArg Prod.snd this).symm⟩
      | some pr1 =>
        by_cases hlt : route_cost dur (s :: (q ++ [d])) < pr1.2
        · rw [bf_step, if_pos hlt] at hstep
          have := Option.some.inj hstep
          exact Or.inl ⟨q, List.mem_cons_self _ _,
            (congrArg Prod.fst this).symm, (congrArg Prod.snd this).symm⟩
        · rw [bf_step, if_neg hlt] at hstep
          exact Or.inr hstep

/-- Unfolding equation of `route_cost` on two leading stops. -/
theorem route_cost_cc (dur : Dur) (a b : Loc) (rest : List Loc) :
    route_cost dur (a :: b :: rest) = dur a b + route_cost dur (b :: rest) := rfl

/-- Inserting a duplicate stop right after its twin does not change the
route cost, provided the oracle gives zero duration from a point to
itself. -/
theorem route_cost_dup (dur : Dur) (x : Loc) (hx : dur x x = 0) :
    ∀ (u v : List Loc),
      route_cost dur (u ++ x :: x :: v) = route_cost dur (u ++ x :: v) := by
  intro u
  induction u with
  | nil =>
    intro v
    show route_cost dur (x :: x :: v) = route_cost dur (x :: v)
    rw [route_cost_cc, hx, zero_add]
  | cons a u' ih =>
    intro v
    match u' with
    | [] =>
      show route_cost dur (a :: x :: x :: v) = route_cost dur (a :: x :: v)
      rw [route_cost_cc, route_cost_cc dur a x v]
      have h0 := ih v
      simp only [List.nil_append] at h0
      rw [h0]
    | b :: u'' =>
      show route_cost dur (a :: b :: (u'' ++ x :: x :: v)) =
        route_cost dur (a :: b :: (u'' ++ x :: v))
      rw [route_cost_cc, route_cost_cc dur a b (u'' ++ x :: v)]
      have h0 := ih v
      simp only [List.cons_append] at h0
      rw [h0]

/-- Any walk of the deduplicated pickups extends to a full permutation of
the pickups with the same route cost (duplicates are inserted next to
their twins at zero marginal cost). -/
theorem extend_with_dups (dur : Dur) (s d : Loc) (hrefl : ∀ x, dur x x = 0) :
    ∀ (extras q : List Loc), (∀ x ∈ extras, x ∈ q) →
      ∃ q2, q2.Perm (q ++ extras) ∧
        route_cost dur (s :: (q2 ++ [d])) = route_cost dur (s :: (q ++ [d])) := by
  intro extras
  induction extras with
  | nil =>
    intro q _
    exact ⟨q, by simp, rfl⟩
  | cons x xs ih =>
    intro q hmem
    have hx : x ∈ q := hmem x (List.mem_cons_self _ _)
    obtain ⟨q1, q2, rfl⟩ := List.append_of_mem hx
    have hcost : route_cost dur (s :: ((q1 ++ x :: x :: q2) ++ [d])) =
        route_cost dur (s :: ((q1 ++ x :: q2) ++ [d])) := by
      have h := route_cost_dup dur x (hrefl x) (s :: q1) (q2 ++ [d])
      simp only [List.cons_append, List.append_assoc] at h ⊢
      exact h
    have hmem2 : ∀ y ∈ xs, y ∈ q1 ++ x :: x :: q2 := by
      intro y hy
      have h := hmem y (List.mem_cons_of_mem _ hy)
      rcases List.mem_append.mp h with h1 | h1
      · exact List.mem_append.mpr (Or.inl h1)
      · rcases List.mem_cons.mp h1 with h2 | h2
        · exact List.mem_append.mpr (Or.inr (by rw [h2]; exact List.mem_cons_self _ _))
        · exact List.mem_append.mpr (Or.inr
            (List.mem_cons_of_mem _ (List.mem_cons_of_mem _ h2)))
    obtain ⟨q3, hperm, hc⟩ := ih (q1 ++ x :: x :: q2) hmem2
    refine ⟨q3, ?_, by rw [hc, hcost]⟩
    have h1 : (q1 ++ x :: x :: q2).Perm (x :: (q1 ++ x :: q2)) :=
      @List.perm_middle _ x q1 (x :: q2)
    have h2 : ((q1 ++ x :: x :: q2) ++ xs).Perm ((q1 ++ x :: q2) ++ x :: xs) := by
      refine (h1.append_right xs).trans ?_
      show (x :: ((q1 ++ x :: q2) ++ xs)).Perm _
      exact (@List.perm_middle _ x (q1 ++ x :: q2) xs).symm
    exact hperm.trans h2

/-- Every list is a permutation of its deduplication plus leftovers that
are themselves among the deduplicated elements. -/
theorem dedup_decomp (P : List Loc) :
    ∃ extras, P.Perm (P.dedup ++ extras) ∧ ∀ x ∈ extras, x ∈ P.dedup := by
  induction P with
  | nil => exact ⟨[], by simp, by simp⟩
  | cons a P' ih =>
    obtain ⟨ex, hperm, hmem⟩ := ih
    by_cases ha : a ∈ P'
    · refine ⟨a :: ex, ?_, ?_⟩
      · rw [List.dedup_cons_of_mem ha]
        exact (hperm.cons a).trans (@List.perm_middle _ a P'.dedup ex).symm
      · intro x hx
        rw [List.dedup_cons_of_mem ha]
        rcases List.mem_cons.mp hx with h1 | h1
        · rw [h1]; exact List.mem_dedup.mpr ha
        · exact hmem x h1
    · refine ⟨ex, ?_, ?_⟩
      · rw [List.dedup_cons_of_not_mem ha]
        exact (hperm.cons a).trans (by rw [List.cons_append])
      · intro x hx
        rw [List.dedup_cons_of_not_mem ha]
        exact List.mem_cons_of_mem _ (hmem x hx)

/-- C6: for every driver location, non-empty pickup list of at most three
locations, and destination, `solve_tsp_pickups` brute-forces all
permutations and returns a minimum-cost route; in particular its cost is
at most the cost of the nearest-neighbor heuristic route for the same
inputs.  The hypothesis `dur x x = 0` states that the map oracle reports
a zero duration from a point to itself (true of both OSRM and the
haversine fallback). -/
theorem solve_tsp_optimal (dur : Dur) (s d : Loc) (P : List Loc)
    (hne : P ≠ []) (hlen : P.length ≤ 3) (hrefl : ∀ x, dur x x = 0) :
    ∃ r c, solve_tsp_pickups dur s P d = some (r, c) ∧
      (∃ q, q.Perm P ∧ r = q ++ [d] ∧ c = route_cost dur (s :: (q ++ [d]))) ∧
      (∀ q, q.Perm P → c ≤ route_cost dur (s :: (q ++ [d]))) ∧
      c ≤ (nearest_neighbor_tsp dur s P d).2 := by
  have hsolve : solve_tsp_pickups dur s P d = brute_force_tsp dur s P d := by
    rw [solve_tsp_pickups, if_pos hlen]
  have hperms_ne : P.permutations ≠ [] := by
    intro h
    have : P ∈ P.permutations := List.mem_permutations.mpr (List.Perm.refl P)
    rw [h] at this
    exact absurd this (List.not_mem_nil _)
  obtain ⟨pr, hpr⟩ := Option.isSome_iff_exists.mp
    (bf_fold_isSome dur s d P.permutations none (Or.inr hperms_ne))
  obtain ⟨r, c⟩ := pr
  have hle := (bf_fold_le dur s d P.permutations none r c hpr).1
  have hsrc := bf_fold_src dur s d P.permutations none r c hpr
  have hsrc2 : ∃ q ∈ P.permutations, r = q ++ [d] ∧
      c = route_cost dur (s :: (q ++ [d])) := by
    rcases hsrc with h | h
    · exact h
    · exact absurd h (by simp)
  refine ⟨r, c, by rw [hsolve]; exact hpr, ?_, ?_, ?_⟩
  · rcases hsrc2 with ⟨q, hq, hr, hc⟩
    exact ⟨q, List.mem_permutations.mp hq, hr, hc⟩
  · intro q hq
    exact hle q (List.mem_permutations.mpr hq)
  · obtain ⟨extras, hPperm, hextras⟩ := dedup_decomp P
    have hnnperm : (nn_visit dur P.dedup.length s P.dedup).Perm P.dedup :=
      nn_visit_perm dur P.dedup.length s P.dedup (le_refl _)
    have hex2 : ∀ x ∈ extras, x ∈ nn_visit dur P.dedup.length s P.dedup :=
      fun x hx => hnnperm.mem_iff.mpr (hextras x hx)
    obtain ⟨q3, hq3perm, hq3cost⟩ := extend_with_dups dur s d hrefl extras
      (nn_visit dur P.dedup.length s P.dedup) hex2
    have hq3P : q3.Perm P := by
      refine hq3perm.trans (.trans ?_ hPperm.symm)
      exact (hnnperm.append_right extras)
    have hnn : (nearest_neighbor_tsp dur s P d).2 =
        route_cost dur (s :: (nn_visit dur P.dedup.length s P.dedup ++ [d])) := rfl
    rw [hnn, ← hq3cost]
    exact hle q3 (List.mem_permutations.mpr hq3P)

/-- Closed witness for `solve_tsp_optimal`. -/
theorem solve_tsp_optimal_witness :
    ∃ r c, solve_tsp_pickups (fun _ _ => 0) ⟨0, 0⟩ [⟨1, 1⟩] ⟨2, 2⟩ =
        some (r, c) ∧
      (∃ q, q.Perm [(⟨1, 1⟩ : Loc)] ∧ r = q ++ [⟨2, 2⟩] ∧
        c = route_cost (fun _ _ => 0) (⟨0, 0⟩ :: (q ++ [⟨2, 2⟩]))) ∧
      (∀ q, q.Perm [(⟨1, 1⟩ : Loc)] →
        c ≤ route_cost (fun _ _ => 0) (⟨0, 0⟩ :: (q ++ [⟨2, 2⟩]))) ∧
      c ≤ (nearest_neighbor_tsp (fun _ _ => 0) ⟨0, 0⟩ [⟨1, 1⟩] ⟨2, 2⟩).2 :=
  solve_tsp_optimal (fun _ _ => 0) ⟨0, 0⟩ ⟨2, 2⟩ [⟨1, 1⟩]
    (by decide) (by decide) (fun _ => rfl)

/-! ## Theorems: claims C1 and C3 (dynamic insertion, pickup complete) -/

/-- Helper: full characterisation of `brute_force_tsp` on a non-empty
pickup list. -/
theorem brute_force_spec (dur : Dur) (s d : Loc) (P : List Loc)
    (hne : P ≠ []) :
    ∃ q, q.Perm P ∧
      brute_force_tsp dur s P d =
        some (q ++ [d], route_cost dur (s :: (q ++ [d]))) ∧
      ∀ q2, q2.Perm P →
        route_cost dur (s :: (q ++ [d])) ≤ route_cost dur (s :: (q2 ++ [d])) := by
  have hperms_ne : P.permutations ≠ [] := by
    intro h
    have : P ∈ P.permutations := List.mem_permutations.mpr (List.Perm.refl P)
    rw [h] at this
    exact absurd this (List.not_mem_nil _)
  obtain ⟨pr, hpr⟩ := Option.isSome_iff_exists.mp
    (bf_fold_isSome dur s d P.permutations none (Or.inr hperms_ne))
  obtain ⟨r, c⟩ := pr
  have hle := (bf_fold_le dur s d P.permutations none r c hpr).1
  have hsrc2 : ∃ q ∈ P.permutations, r = q ++ [d] ∧
      c = route_cost dur (s :: (q ++ [d])) := by
    rcases bf_fold_src dur s d P.permutations none r c hpr with h | h
    · exact h
    · exact absurd h (by simp)
  rcases hsrc2 with ⟨q, hq, hr, hc⟩
  refine ⟨q, List.mem_permutations.mp hq, ?_, ?_⟩
  · show P.permutations.foldl (bf_step dur s d) none = _
    rw [hpr, hr, hc]
  · intro q2 hq2
    rw [← hc]
    exact hle q2 (List.mem_permutations.mpr hq2)

/-- Helper: the permutations of a two-element list. -/
theorem perm_pair {x y : Loc} {q : List Loc} (h : q.Perm [x, y]) :
    q = [x, y] ∨ q = [y, x] := by
  match q, h.length_eq with
  | [u, v], _ =>
    have hu : u ∈ [x, y] := h.mem_iff.mp (List.mem_cons_self _ _)
    rcases List.mem_cons.mp hu with hux | huy
    · subst hux
      have hv : [v].Perm [y] := h.cons_inv
      exact Or.inl (by rw [List.perm_singleton.mp hv])
    · have huy2 : u = y := by simpa using huy
      subst huy2
      have h2 : ([u, v] : List Loc).Perm [u, x] :=
        h.trans (List.Perm.swap u x [])
      have hv : [v].Perm [x] := h2.cons_inv
      exact Or.inr (by rw [List.perm_singleton.mp hv])

/-- C1 failing input: a trip with one passenger (driver at (0,0), pickup
(1,0), destination (6,0), creation cost map {p1: 6}) receives a second
request with pickup (2,1) and the same destination by dynamic insertion.
The updated route's TSP cost is 8 and the pickup leg costs 1, so the
claim requires `total_route_cost = 9`; but `Trip.add_passenger` never
touches `total_route_cost`, which stays at its creation value 6.  (The
spec flags exactly this: the implementation does not re-add the pickup
leg — indeed it does not recompute the total at all.) -/
theorem insertion_total_route_cost_stale :
    ∃ T0 T1 : Trip,
      create_trip 0 3 "t1" ⟨"d1", 1, ⟨0, 0⟩, DriverStatus.available, 0⟩
        [⟨"p1", ⟨1, 0⟩, ⟨6, 0⟩, some 6⟩] [⟨1, 0⟩, ⟨6, 0⟩]
        [("p1", 6)] [("p1", 1)] = some T0 ∧
      try_dynamic_insertion durM (fun _ _ => 0) (1/111) 3 (3/2) [T0]
        ⟨"r2", ⟨2, 1⟩, ⟨6, 0⟩, none⟩ = .ok (some T1) ∧
      T1.total_route_cost = 6 ∧
      T1.route = [⟨1, 0⟩, ⟨2, 1⟩, ⟨6, 0⟩] ∧
      solve_tsp_pickups durM T1.driver.location (T1.passengers.map (·.origin))
        T1.destination = some (T1.route, 8) ∧
      durM T1.driver.location ⟨1, 0⟩ = 1 ∧
      (6 : ℚ) ≠ 1 + 8 := by
  have hsolve_ba : solve_tsp_pickups durM ⟨0, 0⟩ [⟨2, 1⟩, ⟨1, 0⟩] ⟨6, 0⟩ =
      some ([⟨1, 0⟩, ⟨2, 1⟩, ⟨6, 0⟩], 8) := by
    obtain ⟨q, hq, hbf, hmin⟩ :=
      brute_force_spec durM ⟨0, 0⟩ ⟨6, 0⟩ [⟨2, 1⟩, ⟨1, 0⟩] (by decide)
    have hc_ab : route_cost durM [⟨0, 0⟩, ⟨1, 0⟩, ⟨2, 1⟩, ⟨6, 0⟩] = 8 := by
      norm_num [route_cost, durM, pyabs]
    have hc_ba : route_cost durM [⟨0, 0⟩, ⟨2, 1⟩, ⟨1, 0⟩, ⟨6, 0⟩] = 10 := by
      norm_num [route_cost, durM, pyabs]
    rcases perm_pair hq with h1 | h1
    · exfalso
      subst h1
      have := hmin [⟨1, 0⟩, ⟨2, 1⟩] (List.Perm.swap (⟨2, 1⟩ : Loc) ⟨1, 0⟩ [])
      simp only [List.cons_append, List.nil_append] at this hc_ab hc_ba
      rw [hc_ab, hc_ba] at this
      norm_num at this
    · subst h1
      rw [solve_tsp_pickups, if_pos (by decide), hbf]
      simp only [List.cons_append, List.nil_append] at hc_ab ⊢
      rw [hc_ab]
  have hsolve_ab : solve_tsp_pickups durM ⟨0, 0⟩ [⟨1, 0⟩, ⟨2, 1⟩] ⟨6, 0⟩ =
      some ([⟨1, 0⟩, ⟨2, 1⟩, ⟨6, 0⟩], 8) := by
    obtain ⟨q, hq, hbf, hmin⟩ :=
      brute_force_spec durM ⟨0, 0⟩ ⟨6, 0⟩ [⟨1, 0⟩, ⟨2, 1⟩] (by decide)
    have hc_ab : route_cost durM [⟨0, 0⟩, ⟨1, 0⟩, ⟨2, 1⟩, ⟨6, 0⟩] = 8 := by
      norm_num [route_cost, durM, pyabs]
    have hc_ba : route_cost durM [⟨0, 0⟩, ⟨2, 1⟩, ⟨1, 0⟩, ⟨6, 0⟩] = 10 := by
      norm_num [route_cost, durM, pyabs]
    rcases perm_pair hq with h1 | h1
    · subst h1
      rw [solve_tsp_pickups, if_pos (by decide), hbf]
      simp only [List.cons_append, List.nil_append] at hc_ab ⊢
      rw [hc_ab]
    · exfalso
      subst h1
      have := hmin [⟨1, 0⟩, ⟨2, 1⟩] (List.Perm.refl _)
      simp only [List.cons_append, List.nil_append] at this hc_ab hc_ba
      rw [hc_ab, hc_ba] at this
      norm_num at this
  have hcm_ab : coord_match ⟨1, 0⟩ ⟨2, 1⟩ = false := by
    norm_num [coord_match, pyabs]
  have hcm_bb : coord_match ⟨2, 1⟩ ⟨2, 1⟩ = true := by
    norm_num [coord_match, pyabs]
  have hcm_aa : coord_match ⟨1, 0⟩ ⟨1, 0⟩ = true := by
    norm_num [coord_match, pyabs]
  have hcm_ba : coord_match ⟨2, 1⟩ ⟨1, 0⟩ = false := by
    norm_num [coord_match, pyabs]
  have hdet0 : compute_detour_ratios durM [⟨1, 0⟩, ⟨2, 1⟩, ⟨6, 0⟩]
      [⟨"r2", ⟨2, 1⟩, ⟨6, 0⟩, none⟩, ⟨"p1", ⟨1, 0⟩, ⟨6, 0⟩, some 6⟩] =
      some [("r2", 1), ("p1", 7/5)] := by
    norm_num [compute_detour_ratios, detours_from, detour_of_passenger,
      hcm_ab, hcm_bb, hcm_aa, route_cost, durM, pyabs]
  have hdet1 : compute_detour_ratios durM [⟨1, 0⟩, ⟨2, 1⟩, ⟨6, 0⟩]
      [⟨"p1", ⟨1, 0⟩, ⟨6, 0⟩, some 6⟩, ⟨"r2", ⟨2, 1⟩, ⟨6, 0⟩, none⟩] =
      some [("p1", 7/5), ("r2", 1)] := by
    norm_num [compute_detour_ratios, detours_from, detour_of_passenger,
      hcm_ab, hcm_bb, hcm_aa, route_cost, durM, pyabs]
  have hins : try_insert_request durM 3 [⟨1, 0⟩, ⟨6, 0⟩]
      [⟨"p1", ⟨1, 0⟩, ⟨6, 0⟩, some 6⟩] ⟨"r2", ⟨2, 1⟩, ⟨6, 0⟩, none⟩ ⟨0, 0⟩
      (3/2) = .ok (some ([⟨1, 0⟩, ⟨2, 1⟩, ⟨6, 0⟩],
        [("r2", 10/3), ("p1", 14/3)], [("r2", 1), ("p1", 7/5)])) := by
    have hrange : List.range 2 = [0, 1] := rfl
    norm_num [try_insert_request, hrange, tir_step, insert_at, hsolve_ba,
      hsolve_ab, hdet0, hdet1, split_costs_by_detour]
  refine ⟨⟨"t1", ⟨"d1", 1, ⟨0, 0⟩, DriverStatus.en_route_pickup, 0⟩,
      [⟨"p1", ⟨1, 0⟩, ⟨6, 0⟩, some 6⟩], [⟨1, 0⟩, ⟨6, 0⟩], ⟨6, 0⟩, 3, 0, 0, [],
      6, [("p1", 6)], [("p1", 1)]⟩,
    ⟨"t1", ⟨"d1", 1, ⟨0, 0⟩, DriverStatus.en_route_pickup, 0⟩,
      [⟨"p1", ⟨1, 0⟩, ⟨6, 0⟩, some 6⟩, ⟨"r2", ⟨2, 1⟩, ⟨6, 0⟩, none⟩],
      [⟨1, 0⟩, ⟨2, 1⟩, ⟨6, 0⟩], ⟨6, 0⟩, 3, 0, 0, [],
      6, [("r2", 10/3), ("p1", 14/3)], [("r2", 1), ("p1", 7/5)]⟩,
    ?_, ?_, rfl, rfl, ?_, by norm_num [durM, pyabs], by norm_num⟩
  · norm_num [create_trip]
  · norm_num [try_dynamic_insertion, tdi_step, Trip.capacity_available,
      are_destinations_compatible, hins, Trip.add_passenger]
  · simpa using hsolve_ab

/-- C3 counterexample: driver at (0,0), route [(1,0), (2,1), (6,0)] with
two passengers.  Handling `PickupComplete` for the first passenger at
time 0 schedules the next pickup at `0 + durM (0,0) (2,1) = 3`, i.e. the
travel time is computed from the driver's unchanged location (0,0), not
from the just-reached waypoint (1,0) (which would give
`durM (1,0) (2,1) = 2`); and the driver's location is not advanced. -/
theorem on_pickup_complete_counterexample :
    ∃ trip2 t, on_pickup_complete durM 0
      ⟨"t1", ⟨"d1", 1, ⟨0, 0⟩, DriverStatus.en_route_pickup, 0⟩,
        [⟨"p1", ⟨1, 0⟩, ⟨6, 0⟩, none⟩, ⟨"p2", ⟨2, 1⟩, ⟨6, 0⟩, none⟩],
        [⟨1, 0⟩, ⟨2, 1⟩, ⟨6, 0⟩], ⟨6, 0⟩, 3, 0, 0, [], 6, [], []⟩
      ⟨"p1", ⟨1, 0⟩, ⟨6, 0⟩, none⟩ =
      .ok (trip2, SchedEvent.pickupComplete t "t1" "p2") ∧
    trip2.driver.location = ⟨0, 0⟩ ∧
    trip2.driver.location ≠ ⟨1, 0⟩ ∧
    t = 3 ∧
    durM ⟨1, 0⟩ ⟨2, 1⟩ = 2 ∧
    (3 : ℚ) ≠ 0 + durM ⟨1, 0⟩ ⟨2, 1⟩ := by
  refine ⟨⟨"t1", ⟨"d1", 1, ⟨0, 0⟩, DriverStatus.en_route_pickup, 0⟩,
      [⟨"p1", ⟨1, 0⟩, ⟨6, 0⟩, none⟩, ⟨"p2", ⟨2, 1⟩, ⟨6, 0⟩, none⟩],
      [⟨1, 0⟩, ⟨2, 1⟩, ⟨6, 0⟩], ⟨6, 0⟩, 3, 0, 1, ["p1"], 6, [], []⟩, 3,
    ?_, rfl, by decide, rfl, by norm_num [durM, pyabs],
    by norm_num [durM, pyabs]⟩
  norm_num [on_pickup_complete, Trip.complete_pickup, Trip.all_pickups_complete,
    durM, pyabs]

/-- C3 (amended): at `PickupComplete` the driver record (and in
particular its location) is left unchanged; the travel time to the next
pickup — or to the destination when all pickups are done — is computed
from the driver's previous location `trip.driver.location`, not from the
just-reached waypoint.  (The location is only set to the destination at
`TripComplete`.) -/
theorem on_pickup_complete_amended (dur : Dur) (now : ℚ) (trip : Trip)
    (request : Req) (trip2 : Trip) (ev : SchedEvent)
    (h : on_pickup_complete dur now trip request = .ok (trip2, ev)) :
    trip2.driver = trip.driver ∧
    (∀ t tid rid, ev = SchedEvent.pickupComplete t tid rid →
      ∃ np, trip2.route.get? trip2.current_position_index = some np ∧
        t = now + dur trip.driver.location np) ∧
    (∀ t tid, ev = SchedEvent.tripComplete t tid →
      t = now + dur trip.driver.location trip.destination) := by
  have hdrv : (trip.complete_pickup request.rid).driver = trip.driver := rfl
  have hdst : (trip.complete_pickup request.rid).destination =
    trip.destination := rfl
  rw [on_pickup_complete] at h
  by_cases hall : (trip.complete_pickup request.rid).all_pickups_complete
  · rw [if_pos hall] at h
    obtain ⟨h1, h2⟩ := Prod.mk.injEq .. ▸ Except.ok.inj h
    refine ⟨by rw [← h1, hdrv], ?_, ?_⟩
    · intro t tid rid hev
      rw [← h2] at hev
      exact absurd hev (by simp)
    · intro t tid hev
      rw [← h2] at hev
      have ht := (SchedEvent.tripComplete.injEq .. ▸ hev).1
      rw [← ht, hdrv, hdst]
  · rw [if_neg hall] at h
    cases hroute : (trip.complete_pickup request.rid).route.get?
        (trip.complete_pickup request.rid).current_position_index with
    | none =>
      rw [hroute] at h
      exact absurd h (by simp)
    | some np =>
      cases hpass : (trip.complete_pickup request.rid).passengers.get?
          (trip.complete_pickup request.rid).current_position_index with
      | none =>
        rw [hroute, hpass] at h
        exact absurd h (by simp)
      | some nr =>
        rw [hroute, hpass] at h
        obtain ⟨h1, h2⟩ := Prod.mk.injEq .. ▸ Except.ok.inj h
        refine ⟨by rw [← h1, hdrv], ?_, ?_⟩
        · intro t tid rid hev
          rw [← h2] at hev
          have hts := SchedEvent.pickupComplete.injEq .. ▸ hev
          refine ⟨np, ?_, ?_⟩
          · rw [← h1]
            exact hroute
          · rw [← hts.1, hdrv]
        · intro t tid hev
          rw [← h2] at hev
          exact absurd hev (by simp)

/-- Closed witness for `on_pickup_complete_amended`. -/
theorem on_pickup_complete_amended_witness :
    (⟨"t1", ⟨"d1", 1, ⟨0, 0⟩, DriverStatus.en_route_pickup, 0⟩,
        [⟨"p1", ⟨1, 0⟩, ⟨6, 0⟩, none⟩, ⟨"p2", ⟨2, 1⟩, ⟨6, 0⟩, none⟩],
        [⟨1, 0⟩, ⟨2, 1⟩, ⟨6, 0⟩], ⟨6, 0⟩, 3, 0, 1, ["p1"], 6, [], []⟩ :
      Trip).driver =
      (⟨"t1", ⟨"d1", 1, ⟨0, 0⟩, DriverStatus.en_route_pickup, 0⟩,
        [⟨"p1", ⟨1, 0⟩, ⟨6, 0⟩, none⟩, ⟨"p2", ⟨2, 1⟩, ⟨6, 0⟩, none⟩],
        [⟨1, 0⟩, ⟨2, 1⟩, ⟨6, 0⟩], ⟨6, 0⟩, 3, 0, 0, [], 6, [], []⟩ : Trip).driver ∧
    (∀ t tid rid, SchedEvent.pickupComplete (0 + durM ⟨0, 0⟩ ⟨2, 1⟩) "t1" "p2" =
        SchedEvent.pickupComplete t tid rid →
      ∃ np, (⟨"t1", ⟨"d1", 1, ⟨0, 0⟩, DriverStatus.en_route_pickup, 0⟩,
          [⟨"p1", ⟨1, 0⟩, ⟨6, 0⟩, none⟩, ⟨"p2", ⟨2, 1⟩, ⟨6, 0⟩, none⟩],
          [⟨1, 0⟩, ⟨2, 1⟩, ⟨6, 0⟩], ⟨6, 0⟩, 3, 0, 1, ["p1"], 6, [], []⟩ :
        Trip).route.get? 1 = some np ∧
        t = 0 + durM ⟨0, 0⟩ np) ∧
    (∀ t tid, SchedEvent.pickupComplete (0 + durM ⟨0, 0⟩ ⟨2, 1⟩) "t1" "p2" =
        SchedEvent.tripComplete t tid →
      t = 0 + durM ⟨0, 0⟩ ⟨6, 0⟩) :=
  on_pickup_complete_amended durM 0
    ⟨"t1", ⟨"d1", 1, ⟨0, 0⟩, DriverStatus.en_route_pickup, 0⟩,
      [⟨"p1", ⟨1, 0⟩, ⟨6, 0⟩, none⟩, ⟨"p2", ⟨2, 1⟩, ⟨6, 0⟩, none⟩],
      [⟨1, 0⟩, ⟨2, 1⟩, ⟨6, 0⟩], ⟨6, 0⟩, 3, 0, 0, [], 6, [], []⟩
    ⟨"p1", ⟨1, 0⟩, ⟨6, 0⟩, none⟩
    ⟨"t1", ⟨"d1", 1, ⟨0, 0⟩, DriverStatus.en_route_pickup, 0⟩,
      [⟨"p1", ⟨1, 0⟩, ⟨6, 0⟩, none⟩, ⟨"p2", ⟨2, 1⟩, ⟨6, 0⟩, none⟩],
      [⟨1, 0⟩, ⟨2, 1⟩, ⟨6, 0⟩], ⟨6, 0⟩, 3, 0, 1, ["p1"], 6, [], []⟩
    (SchedEvent.pickupComplete (0 + durM ⟨0, 0⟩ ⟨2, 1⟩) "t1" "p2") rfl

/-! ## Theorems: claim C8 (feasible-group enumeration) -/

/-- Helper: a successful association-list lookup exposes a member. -/
theorem lookup_mem {key : String × List String} {cache : GroupCache}
    {g : Group} (h : cache.lookup key = some g) : (key, g) ∈ cache := by
  induction cache with
  | nil => simp [List.lookup] at h
  | cons kv rest ih =>
    match kv with
    | (k, b) =>
      rw [List.lookup] at h
      cases hbeq : key == k with
      | true =>
        rw [hbeq] at h
        have hkey : key = k := by simpa using hbeq
        have hg : b = g := by simpa using h
        rw [hkey, ← hg]
        exact List.mem_cons_self _ _
      | false =>
        rw [hbeq] at h
        simp only [] at h
        exact List.mem_cons_of_mem _ (ih h)

/-- Helper: structural properties of a successfully evaluated group. -/
theorem evaluate_group_props (dur : Dur) (distkm : Loc → Loc → ℚ)
    (driver : DriverE) (requests : List Req) (max_detour : ℚ) (g : Group)
    (h : evaluate_group dur distkm driver requests max_detour = .ok (some g)) :
    g.driver = driver ∧ g.requests = requests ∧
    are_close distkm 1 (requests.map (·.destination)) = true ∧
    (∀ pr ∈ g.detours, pr.2 ≤ max_detour) ∧
    g.total_cost = g.pickup_cost + g.route_cost := by
  unfold evaluate_group at h
  simp only [] at h
  by_cases hclose : are_close distkm 1 (requests.map (·.destination)) = true
  · rw [if_neg (not_not_intro hclose)] at h
    cases hdest : requests.map (fun x => x.destination) with
    | nil => rw [hdest] at h; simp at h
    | cons common_dest rest =>
      rw [hdest] at h
      simp only [] at h
      cases hsolve : solve_tsp_pickups dur driver.location
          (requests.map (fun x => x.origin)) common_dest with
      | none => rw [hsolve] at h; simp at h
      | some pr0 =>
        obtain ⟨route, rcost⟩ := pr0
        rw [hsolve] at h
        simp only [] at h
        cases hdet : compute_detour_ratios dur route requests with
        | none => rw [hdet] at h; simp at h
        | some detours =>
          rw [hdet] at h
          simp only [] at h
          by_cases hany : (detours.any fun pr => decide (max_detour < pr.2)) = true
          · rw [if_pos hany] at h
            simp at h
          · rw [if_neg hany] at h
            cases hroute : route with
            | nil => rw [hroute] at h; simp at h
            | cons r0 rest0 =>
              rw [hroute] at h
              simp only [] at h
              have hg := Option.some.inj (Except.ok.inj h)
              rw [← hg]
              refine ⟨rfl, rfl, by rw [← hdest]; exact hclose, ?_, rfl⟩
              intro pr hpr
              rw [List.any_eq_true] at hany
              push_neg at hany
              have h2 := hany pr hpr
              simpa using h2
  · rw [if_pos hclose] at h
    simp at h

/-- Helper: membership in `down_range m`. -/
theorem mem_down_range {k m : ℕ} : k ∈ down_range m ↔ 1 ≤ k ∧ k ≤ m := by
  simp only [down_range, List.mem_map, List.mem_reverse, List.mem_range]
  constructor
  · rintro ⟨j, hj, rfl⟩
    omega
  · rintro ⟨h1, h2⟩
    exact ⟨k - 1, by omega, by omega⟩

/-- Invariant of the state (cache, feasible list): everything in it is a
good group. -/
theorem gen_combo_step_inv (dur : Dur) (distkm : Loc → Loc → ℚ)
    (max_detour : ℚ) (capacity : ℕ) (drivers : List DriverE)
    (clusters : List (ℤ × List Req)) (driver : DriverE) (cl : ℤ × List Req)
    (hdriver : driver ∈ drivers) (hcl : cl ∈ clusters)
    (combo : List Req) (hsub : combo.Sublist cl.2) (h1 : 1 ≤ combo.length)
    (h2 : combo.length ≤ min cl.2.length capacity)
    (st st2 : GroupCache × List Group)
    (hinv : (∀ kv ∈ st.1, good_group dur distkm max_detour capacity drivers
        clusters kv.2) ∧
      (∀ g ∈ st.2, good_group dur distkm max_detour capacity drivers clusters g))
    (h : gen_combo_step dur distkm max_detour driver st combo = .ok st2) :
    (∀ kv ∈ st2.1, good_group dur distkm max_detour capacity drivers
        clusters kv.2) ∧
    (∀ g ∈ st2.2, good_group dur distkm max_detour capacity drivers
        clusters g) := by
  unfold gen_combo_step at h
  simp only [] at h
  cases hlook : List.lookup (driver.did, combo.map (·.rid)) st.1 with
  | some g0 =>
    rw [hlook] at h
    simp only [] at h
    have hgood := hinv.1 _ (lookup_mem hlook)
    have hst2 := Except.ok.inj h
    rw [← hst2]
    refine ⟨hinv.1, ?_⟩
    intro g hg
    rcases List.mem_append.mp hg with hg | hg
    · exact hinv.2 g hg
    · rw [List.mem_singleton.mp hg]
      exact hgood
  | none =>
    rw [hlook] at h
    simp only [] at h
    cases heval : evaluate_group dur distkm driver combo max_detour with
    | error e => rw [heval] at h; simp at h
    | ok o =>
      rw [heval] at h
      cases o with
      | none =>
        simp only [] at h
        have hst2 := Except.ok.inj h
        rw [← hst2]
        exact hinv
      | some g0 =>
        simp only [] at h
        have hst2 := Except.ok.inj h
        rw [← hst2]
        have hgood : good_group dur distkm max_detour capacity drivers
            clusters g0 :=
          ⟨driver, hdriver, cl, hcl, combo, hsub, h1, h2, heval⟩
        constructor
        · intro kv hkv
          rcases List.mem_append.mp hkv with hkv | hkv
          · exact hinv.1 kv hkv
          · rw [List.mem_singleton.mp hkv]
            exact hgood
        · intro g hg
          rcases List.mem_append.mp hg with hg | hg
          · exact hinv.2 g hg
          · rw [List.mem_singleton.mp hg]
            exact hgood

theorem gen_over_combos_inv (dur : Dur) (distkm : Loc → Loc → ℚ)
    (max_detour : ℚ) (capacity : ℕ) (drivers : List DriverE)
    (clusters : List (ℤ × List Req)) (driver : DriverE) (cl : ℤ × List Req)
    (hdriver : driver ∈ drivers) (hcl : cl ∈ clusters) :
    ∀ (combos : List (List Req)),
      (∀ combo ∈ combos, combo.Sublist cl.2 ∧ 1 ≤ combo.length ∧
        combo.length ≤ min cl.2.length capacity) →
      ∀ st st2,
      (∀ kv ∈ st.1, good_group dur distkm max_detour capacity drivers
          clusters kv.2) ∧
      (∀ g ∈ st.2, good_group dur distkm max_detour capacity drivers clusters g) →
      gen_over_combos dur distkm max_detour driver combos st = .ok st2 →
      (∀ kv ∈ st2.1, good_group dur distkm max_detour capacity drivers
          clusters kv.2) ∧
      (∀ g ∈ st2.2, good_group dur distkm max_detour capacity drivers
          clusters g) := by
  intro combos
  induction combos with
  | nil =>
    intro _ st st2 hinv h
    rw [gen_over_combos] at h
    rw [← Except.ok.inj h]
    exact hinv
  | cons combo rest ih =>
    intro hcombos st st2 hinv h
    rw [gen_over_combos] at h
    split at h
    · simp at h
    · rename_i stmid hstep
      obtain ⟨hs, hl1, hl2⟩ := hcombos combo (List.mem_cons_self _ _)
      have hinv2 := gen_combo_step_inv dur distkm max_detour capacity drivers
        clusters driver cl hdriver hcl combo hs hl1 hl2 st stmid hinv hstep
      exact ih (fun c hc => hcombos c (List.mem_cons_of_mem _ hc)) stmid st2
        hinv2 h

theorem gen_over_sizes_inv (dur : Dur) (distkm : Loc → Loc → ℚ)
    (max_detour : ℚ) (capacity : ℕ) (drivers : List DriverE)
    (clusters : List (ℤ × List Req)) (driver : DriverE) (cl : ℤ × List Req)
    (hdriver : driver ∈ drivers) (hcl : cl ∈ clusters) :
    ∀ (ks : List ℕ), (∀ k ∈ ks, 1 ≤ k ∧ k ≤ min cl.2.length capacity) →
      ∀ st st2,
      (∀ kv ∈ st.1, good_group dur distkm max_detour capacity drivers
          clusters kv.2) ∧
      (∀ g ∈ st.2, good_group dur distkm max_detour capacity drivers clusters g) →
      gen_over_sizes dur distkm max_detour driver cl.2 ks st = .ok st2 →
      (∀ kv ∈ st2.1, good_group dur distkm max_detour capacity drivers
          clusters kv.2) ∧
      (∀ g ∈ st2.2, good_group dur distkm max_detour capacity drivers
          clusters g) := by
  intro ks
  induction ks with
  | nil =>
    intro _ st st2 hinv h
    rw [gen_over_sizes] at h
    rw [← Except.ok.inj h]
    exact hinv
  | cons k rest ih =>
    intro hks st st2 hinv h
    rw [gen_over_sizes] at h
    split at h
    · simp at h
    · rename_i stmid hstep
      obtain ⟨hk1, hk2⟩ := hks k (List.mem_cons_self _ _)
      have hcombos : ∀ combo ∈ List.sublistsLen k cl.2,
          combo.Sublist cl.2 ∧ 1 ≤ combo.length ∧
          combo.length ≤ min cl.2.length capacity := by
        intro combo hc
        obtain ⟨hsub, hlen⟩ := List.mem_sublistsLen.mp hc
        exact ⟨hsub, by omega, by omega⟩
      have hinv2 := gen_over_combos_inv dur distkm max_detour capacity drivers
        clusters driver cl hdriver hcl (List.sublistsLen k cl.2) hcombos st
        stmid hinv hstep
      exact ih (fun k2 hk => hks k2 (List.mem_cons_of_mem _ hk)) stmid st2
        hinv2 h

theorem gen_over_clusters_inv (dur : Dur) (distkm : Loc → Loc → ℚ)
    (max_detour : ℚ) (capacity : ℕ) (drivers : List DriverE)
    (clusters : List (ℤ × List Req)) (driver : DriverE)
    (hdriver : driver ∈ drivers) :
    ∀ (cls : List (ℤ × List Req)), (∀ cl ∈ cls, cl ∈ clusters) →
      ∀ st st2,
      (∀ kv ∈ st.1, good_group dur distkm max_detour capacity drivers
          clusters kv.2) ∧
      (∀ g ∈ st.2, good_group dur distkm max_detour capacity drivers clusters g) →
      gen_over_clusters dur distkm max_detour capacity driver cls st = .ok st2 →
      (∀ kv ∈ st2.1, good_group dur distkm max_detour capacity drivers
          clusters kv.2) ∧
      (∀ g ∈ st2.2, good_group dur distkm max_detour capacity drivers
          clusters g) := by
  intro cls
  induction cls with
  | nil =>
    intro _ st st2 hinv h
    rw [gen_over_clusters] at h
    rw [← Except.ok.inj h]
    exact hinv
  | cons cl rest ih =>
    intro hcls st st2 hinv h
    rw [gen_over_clusters] at h
    split at h
    · simp at h
    · rename_i stmid hstep
      have hks : ∀ k ∈ down_range (min cl.2.length capacity),
          1 ≤ k ∧ k ≤ min cl.2.length capacity := fun k hk =>
        mem_down_range.mp hk
      have hinv2 := gen_over_sizes_inv dur distkm max_detour capacity drivers
        clusters driver cl hdriver (hcls cl (List.mem_cons_self _ _))
        (down_range (min cl.2.length capacity)) hks st stmid hinv hstep
      exact ih (fun c hc => hcls c (List.mem_cons_of_mem _ hc)) stmid st2
        hinv2 h

theorem generate_feasible_groups_inv (dur : Dur) (distkm : Loc → Loc → ℚ)
    (max_detour : ℚ) (capacity : ℕ) (drivers : List DriverE)
    (clusters : List (ℤ × List Req)) :
    ∀ (drvs : List DriverE), (∀ d ∈ drvs, d ∈ drivers) →
      ∀ st st2,
      (∀ kv ∈ st.1, good_group dur distkm max_detour capacity drivers
          clusters kv.2) ∧
      (∀ g ∈ st.2, good_group dur distkm max_detour capacity drivers clusters g) →
      generate_feasible_groups dur distkm max_detour capacity clusters drvs st =
        .ok st2 →
      (∀ kv ∈ st2.1, good_group dur distkm max_detour capacity drivers
          clusters kv.2) ∧
      (∀ g ∈ st2.2, good_group dur distkm max_detour capacity drivers
          clusters g) := by
  intro drvs
  induction drvs with
  | nil =>
    intro _ st st2 hinv h
    rw [generate_feasible_groups] at h
    rw [← Except.ok.inj h]
    exact hinv
  | cons d rest ih =>
    intro hds st st2 hinv h
    rw [generate_feasible_groups] at h
    split at h
    · simp at h
    · rename_i stmid hstep
      have hinv2 := gen_over_clusters_inv dur distkm max_detour capacity drivers
        clusters d (hds d (List.mem_cons_self _ _)) clusters (fun c hc => hc)
        st stmid hinv hstep
      exact ih (fun d2 hd => hds d2 (List.mem_cons_of_mem _ hd)) stmid st2
        hinv2 h

/-- C8: every feasible group produced by the enumerator (started with an
empty cache) belongs to some (driver, cluster) pair; its requests are a
combination of between 1 and `min(|cluster|, capacity)` requests drawn
from that cluster, whose destinations are pairwise within the 1 km
re-check radius; every detour ratio is at most `max_detour`; and the
reported total cost is exactly the pickup-leg cost plus the TSP route
cost. -/
theorem generate_feasible_groups_sound (dur : Dur)
    (distkm : Loc → Loc → ℚ) (max_detour : ℚ) (capacity : ℕ)
    (drivers : List DriverE) (clusters : List (ℤ × List Req))
    (cache2 : GroupCache) (groups : List Group)
    (h : generate_feasible_groups dur distkm max_detour capacity clusters
      drivers ([], []) = .ok (cache2, groups)) :
    ∀ g ∈ groups, ∃ driver ∈ drivers, ∃ cl ∈ clusters,
      g.driver = driver ∧
      g.requests.Sublist cl.2 ∧ 1 ≤ g.requests.length ∧
      g.requests.length ≤ min cl.2.length capacity ∧
      are_close distkm 1 (g.requests.map (·.destination)) = true ∧
      (∀ pr ∈ g.detours, pr.2 ≤ max_detour) ∧
      g.total_cost = g.pickup_cost + g.route_cost := by
  intro g hg
  have hinv0 : (∀ kv ∈ (([], []) : GroupCache × List Group).1,
      good_group dur distkm max_detour capacity drivers clusters kv.2) ∧
      (∀ g2 ∈ (([], []) : GroupCache × List Group).2,
      good_group dur distkm max_detour capacity drivers clusters g2) := by
    constructor <;> intro x hx <;> exact absurd hx (List.not_mem_nil _)
  have hfin := generate_feasible_groups_inv dur distkm max_detour capacity
    drivers clusters drivers (fun d hd => hd) ([], []) (cache2, groups) hinv0 h
  obtain ⟨driver, hdriver, cl, hcl, combo, hsub, h1, h2, heval⟩ :=
    hfin.2 g hg
  obtain ⟨hgd, hgr, hclose, hdet, htot⟩ :=
    evaluate_group_props dur distkm driver combo max_detour g heval
  exact ⟨driver, hdriver, cl, hcl, hgd, by rw [hgr]; exact hsub,
    by rw [hgr]; exact h1, by rw [hgr]; exact h2, by rw [hgr]; exact hclose,
    hdet, htot⟩

/-- Helper: concrete evaluation of the enumerator on one driver and one
singleton cluster, used by the witness below. -/
theorem generate_feasible_groups_eval :
    generate_feasible_groups durM (fun _ _ => 0) (3/2) 1
      [(0, [⟨"p1", ⟨1, 0⟩, ⟨6, 0⟩, none⟩])]
      [⟨"d1", 1, ⟨0, 0⟩, DriverStatus.available, 0⟩] ([], []) =
      .ok ([(("d1", ["p1"]),
          ⟨⟨"d1", 1, ⟨0, 0⟩, DriverStatus.available, 0⟩,
            [⟨"p1", ⟨1, 0⟩, ⟨6, 0⟩, none⟩], [⟨1, 0⟩, ⟨6, 0⟩], 6, 1, 7,
            [("p1", 1)], [("p1", 6)]⟩)],
        [⟨⟨"d1", 1, ⟨0, 0⟩, DriverStatus.available, 0⟩,
          [⟨"p1", ⟨1, 0⟩, ⟨6, 0⟩, none⟩], [⟨1, 0⟩, ⟨6, 0⟩], 6, 1, 7,
          [("p1", 1)], [("p1", 6)]⟩]) := by
  have hsolve : solve_tsp_pickups durM ⟨0, 0⟩ [⟨1, 0⟩] ⟨6, 0⟩ =
      some ([⟨1, 0⟩, ⟨6, 0⟩], 6) := by
    rw [solve_tsp_pickups, if_pos (by decide)]
    rw [brute_force_tsp]
    norm_num [List.permutations, List.permutationsAux_cons,
      List.permutationsAux_nil, List.permutationsAux2, bf_step, route_cost,
      durM, pyabs]
  have hdet : compute_detour_ratios durM [⟨1, 0⟩, ⟨6, 0⟩]
      [⟨"p1", ⟨1, 0⟩, ⟨6, 0⟩, none⟩] = some [("p1", 1)] := by
    norm_num [compute_detour_ratios, detours_from, detour_of_passenger,
      coord_match, route_cost, durM, pyabs]
  have heval : evaluate_group durM (fun _ _ => 0)
      ⟨"d1", 1, ⟨0, 0⟩, DriverStatus.available, 0⟩
      [⟨"p1", ⟨1, 0⟩, ⟨6, 0⟩, none⟩] (3/2) =
      .ok (some ⟨⟨"d1", 1, ⟨0, 0⟩, DriverStatus.available, 0⟩,
        [⟨"p1", ⟨1, 0⟩, ⟨6, 0⟩, none⟩], [⟨1, 0⟩, ⟨6, 0⟩], 6, 1, 7,
        [("p1", 1)], [("p1", 6)]⟩) := by
    norm_num [evaluate_group, are_close, hsolve, hdet,
      split_costs_by_detour, durM, pyabs]
  have hrange : down_range 1 = [1] := rfl
  have hsub : List.sublistsLen 1 [(⟨"p1", ⟨1, 0⟩, ⟨6, 0⟩, none⟩ : Req)] =
      [[⟨"p1", ⟨1, 0⟩, ⟨6, 0⟩, none⟩]] := by
    norm_num [List.sublistsLen_succ_cons]
  norm_num [generate_feasible_groups, gen_over_clusters, gen_over_sizes,
    gen_over_combos, gen_combo_step, hrange, hsub, heval, List.lookup]

/-- Closed witness for `generate_feasible_groups_sound`, instantiated at
the single group the enumerator produces on the concrete input. -/
theorem generate_feasible_groups_sound_witness :
    ∃ driver ∈ [(⟨"d1", 1, ⟨0, 0⟩, DriverStatus.available, 0⟩ : DriverE)],
    ∃ cl ∈ [((0 : ℤ), [(⟨"p1", ⟨1, 0⟩, ⟨6, 0⟩, none⟩ : Req)])],
    (⟨⟨"d1", 1, ⟨0, 0⟩, DriverStatus.available, 0⟩,
      [⟨"p1", ⟨1, 0⟩, ⟨6, 0⟩, none⟩], [⟨1, 0⟩, ⟨6, 0⟩], 6, 1, 7,
      [("p1", 1)], [("p1", 6)]⟩ : Group).driver = driver ∧
    (⟨⟨"d1", 1, ⟨0, 0⟩, DriverStatus.available, 0⟩,
      [⟨"p1", ⟨1, 0⟩, ⟨6, 0⟩, none⟩], [⟨1, 0⟩, ⟨6, 0⟩], 6, 1, 7,
      [("p1", 1)], [("p1", 6)]⟩ : Group).requests.Sublist cl.2 ∧
    1 ≤ (⟨⟨"d1", 1, ⟨0, 0⟩, DriverStatus.available, 0⟩,
      [⟨"p1", ⟨1, 0⟩, ⟨6, 0⟩, none⟩], [⟨1, 0⟩, ⟨6, 0⟩], 6, 1, 7,
      [("p1", 1)], [("p1", 6)]⟩ : Group).requests.length ∧
    (⟨⟨"d1", 1, ⟨0, 0⟩, DriverStatus.available, 0⟩,
      [⟨"p1", ⟨1, 0⟩, ⟨6, 0⟩, none⟩], [⟨1, 0⟩, ⟨6, 0⟩], 6, 1, 7,
      [("p1", 1)], [("p1", 6)]⟩ : Group).requests.length ≤
      min cl.2.length 1 ∧
    are_close (fun _ _ => 0) 1
      ((⟨⟨"d1", 1, ⟨0, 0⟩, DriverStatus.available, 0⟩,
        [⟨"p1", ⟨1, 0⟩, ⟨6, 0⟩, none⟩], [⟨1, 0⟩, ⟨6, 0⟩], 6, 1, 7,
        [("p1", 1)], [("p1", 6)]⟩ : Group).requests.map (·.destination)) =
      true ∧
    (∀ pr ∈ (⟨⟨"d1", 1, ⟨0, 0⟩, DriverStatus.available, 0⟩,
      [⟨"p1", ⟨1, 0⟩, ⟨6, 0⟩, none⟩], [⟨1, 0⟩, ⟨6, 0⟩], 6, 1, 7,
      [("p1", 1)], [("p1", 6)]⟩ : Group).detours, pr.2 ≤ (3/2 : ℚ)) ∧
    (⟨⟨"d1", 1, ⟨0, 0⟩, DriverStatus.available, 0⟩,
      [⟨"p1", ⟨1, 0⟩, ⟨6, 0⟩, none⟩], [⟨1, 0⟩, ⟨6, 0⟩], 6, 1, 7,
      [("p1", 1)], [("p1", 6)]⟩ : Group).total_cost =
    (⟨⟨"d1", 1, ⟨0, 0⟩, DriverStatus.available, 0⟩,
      [⟨"p1", ⟨1, 0⟩, ⟨6, 0⟩, none⟩], [⟨1, 0⟩, ⟨6, 0⟩], 6, 1, 7,
      [("p1", 1)], [("p1", 6)]⟩ : Group).pickup_cost +
    (⟨⟨"d1", 1, ⟨0, 0⟩, DriverStatus.available, 0⟩,
      [⟨"p1", ⟨1, 0⟩, ⟨6, 0⟩, none⟩], [⟨1, 0⟩, ⟨6, 0⟩], 6, 1, 7,
      [("p1", 1)], [("p1", 6)]⟩ : Group).route_cost :=
  generate_feasible_groups_sound durM (fun _ _ => 0) (3/2) 1
    [⟨"d1", 1, ⟨0, 0⟩, DriverStatus.available, 0⟩]
    [(0, [⟨"p1", ⟨1, 0⟩, ⟨6, 0⟩, none⟩])]
    [(("d1", ["p1"]),
      ⟨⟨"d1", 1, ⟨0, 0⟩, DriverStatus.available, 0⟩,
        [⟨"p1", ⟨1, 0⟩, ⟨6, 0⟩, none⟩], [⟨1, 0⟩, ⟨6, 0⟩], 6, 1, 7,
        [("p1", 1)], [("p1", 6)]⟩)]
    [⟨⟨"d1", 1, ⟨0, 0⟩, DriverStatus.available, 0⟩,
      [⟨"p1", ⟨1, 0⟩, ⟨6, 0⟩, none⟩], [⟨1, 0⟩, ⟨6, 0⟩], 6, 1, 7,
      [("p1", 1)], [("p1", 6)]⟩]
    generate_feasible_groups_eval
    ⟨⟨"d1", 1, ⟨0, 0⟩, DriverStatus.available, 0⟩,
      [⟨"p1", ⟨1, 0⟩, ⟨6, 0⟩, none⟩], [⟨1, 0⟩, ⟨6, 0⟩], 6, 1, 7,
      [("p1", 1)], [("p1", 6)]⟩
    (List.mem_singleton_self _)

/-! ## Theorems: claim C2 (event queue ordering) -/

theorem is_child_lt {i j : ℕ} (h : is_child i j) : i < j := by
  rcases h with h | h <;> omega

theorem is_child_pos {i j : ℕ} (h : is_child i j) : 0 < j := by
  rcases h with h | h <;> omega

theorem is_child_parent {j : ℕ} (h : 0 < j) : is_child ((j - 1) / 2) j := by
  rw [is_child]
  omega

theorem is_child_parent_eq {i j : ℕ} (h : is_child i j) : i = (j - 1) / 2 := by
  rw [is_child] at h
  omega

theorem set_get?_self {α : Type} {l : List α} {p : ℕ} {x b : α}
    (h : (l.set p x).get? p = some b) : b = x := by
  rw [List.get?_set_eq] at h
  cases hl : l.get? p with
  | none => rw [hl] at h; simp at h
  | some c => rw [hl] at h; simpa using h.symm

/-- Placing the pending item into the hole yields a heap, given the heap
property away from the hole, below the hole, and above the hole. -/
theorem place_inv {α : Type} (key : α → ℚ) (l : List α) (x : α) (pos : ℕ)
    (H1 : ∀ i j a b, is_child i j → j ≠ pos → l.get? i = some a →
      l.get? j = some b → key a ≤ key b)
    (H2 : ∀ j b, is_child pos j → l.get? j = some b → key x ≤ key b)
    (Hpar : ∀ i a, is_child i pos → l.get? i = some a → key a ≤ key x) :
    heap_inv key (l.set pos x) := by
  intro i j a b hij hgi hgj
  by_cases hj : j = pos
  · subst hj
    have hb : b = x := set_get?_self hgj
    have hi_ne : j ≠ i := (Nat.ne_of_lt (is_child_lt hij)).symm
    rw [List.get?_set_ne x l hi_ne] at hgi
    rw [hb]
    exact Hpar i a hij hgi
  · by_cases hi : i = pos
    · subst hi
      have ha : a = x := set_get?_self hgi
      rw [List.get?_set_ne x l (Ne.symm hj)] at hgj
      rw [ha]
      exact H2 j b hij hgj
    · rw [List.get?_set_ne x l (Ne.symm hi)] at hgi
      rw [List.get?_set_ne x l (Ne.symm hj)] at hgj
      exact H1 i j a b hij hj hgi hgj

/-- `_siftdown` establishes the heap invariant, given it away from the
hole (`H1`), the pending item below the hole (`H2`), and the bridge over
the hole (`H3`). -/
theorem siftdown_inv {α : Type} (key : α → ℚ) :
    ∀ (fuel : ℕ) (pos : ℕ) (l : List α) (x : α),
      pos ≤ fuel → pos < l.length →
      (∀ i j a b, is_child i j → j ≠ pos → l.get? i = some a →
        l.get? j = some b → key a ≤ key b) →
      (∀ j b, is_child pos j → l.get? j = some b → key x ≤ key b) →
      (0 < pos → ∀ j b, is_child pos j → l.get? j = some b →
        ∀ p, l.get? ((pos - 1) / 2) = some p → key p ≤ key b) →
      heap_inv key (siftdown key 0 fuel l x pos) := by
  intro fuel
  induction fuel with
  | zero =>
    intro pos l x hfuel hlen H1 H2 H3
    have hpos : pos = 0 := Nat.le_zero.mp hfuel
    rw [siftdown]
    refine place_inv key l x pos H1 H2 ?_
    intro i a hic _
    exact absurd (is_child_pos hic) (by omega)
  | succ fuel ih =>
    intro pos l x hfuel hlen H1 H2 H3
    rw [siftdown]
    by_cases hpos : 0 < pos
    · rw [if_pos hpos]
      have hpar_lt : (pos - 1) / 2 < l.length := by omega
      obtain ⟨parent, hparent⟩ : ∃ p, l.get? ((pos - 1) / 2) = some p := by
        cases hp : l.get? ((pos - 1) / 2) with
        | none => exact absurd (List.get?_eq_none.mp hp) (by omega)
        | some p => exact ⟨p, rfl⟩
      simp only []
      rw [hparent]
      simp only []
      by_cases hlt : key x < key parent
      · rw [if_pos hlt]
        refine ih ((pos - 1) / 2) (l.set pos parent) x (by omega)
          (by rw [List.length_set]; omega) ?_ ?_ ?_
        · intro i j a b hij hjne hgi hgj
          by_cases hjp : j = pos
          · have hb : b = parent := set_get?_self (hjp ▸ hgj)
            have hieq : i = (pos - 1) / 2 := by
              have h := is_child_parent_eq (hjp ▸ hij)
              exact h
            have hgi2 : l.get? i = some a := by
              rw [List.get?_set_ne parent l (by omega : pos ≠ i)] at hgi
              exact hgi
            rw [hieq, hparent] at hgi2
            rw [hb, (Option.some.inj hgi2)]
          · by_cases hip : i = pos
            · have ha : a = parent := set_get?_self (hip ▸ hgi)
              have hgj2 : l.get? j = some b := by
                rw [List.get?_set_ne parent l (Ne.symm hjp)] at hgj
                exact hgj
              rw [ha]
              exact H3 hpos j b (hip ▸ hij) hgj2 parent hparent
            · have hgi2 : l.get? i = some a := by
                rw [List.get?_set_ne parent l (Ne.symm hip)] at hgi
                exact hgi
              have hgj2 : l.get? j = some b := by
                rw [List.get?_set_ne parent l (Ne.symm hjp)] at hgj
                exact hgj
              exact H1 i j a b hij hjp hgi2 hgj2
        · intro j b hij hgj
          by_cases hjp : j = pos
          · have hb : b = parent := set_get?_self (hjp ▸ hgj)
            rw [hb]
            exact le_of_lt hlt
          · have hgj2 : l.get? j = some b := by
              rw [List.get?_set_ne parent l (Ne.symm hjp)] at hgj
              exact hgj
            exact le_trans (le_of_lt hlt) (H1 _ j parent b hij hjp hparent hgj2)
        · intro hpp j b hij hgj gp hgp
          have hgplt : ((pos - 1) / 2 - 1) / 2 < pos := by omega
          have hgp2 : l.get? (((pos - 1) / 2 - 1) / 2) = some gp := by
            rw [List.get?_set_ne parent l (by omega)] at hgp
            exact hgp
          have hgpar : key gp ≤ key parent := by
            refine H1 _ _ gp parent (is_child_parent hpp) (by omega) hgp2 hparent
          by_cases hjp : j = pos
          · have hb : b = parent := set_get?_self (hjp ▸ hgj)
            rw [hb]
            exact hgpar
          · have hgj2 : l.get? j = some b := by
              rw [List.get?_set_ne parent l (Ne.symm hjp)] at hgj
              exact hgj
            exact le_trans hgpar (H1 _ j parent b hij hjp hparent hgj2)
      · rw [if_neg hlt]
        refine place_inv key l x pos H1 H2 ?_
        intro i a hic hgi
        rw [is_child_parent_eq hic, hparent] at hgi
        rw [(Option.some.inj hgi).symm]
        exact not_lt.mp hlt
    · rw [if_neg hpos]
      refine place_inv key l x pos H1 H2 ?_
      intro i a hic _
      have := is_child_pos hic
      omega

/-- `_siftdown` only rearranges: every element of the result was in the
array or is the pending item. -/
theorem siftdown_mem {α : Type} (key : α → ℚ) (startpos : ℕ) :
    ∀ (fuel pos : ℕ) (l : List α) (x y : α),
      y ∈ siftdown key startpos fuel l x pos → y ∈ l ∨ y = x := by
  intro fuel
  induction fuel with
  | zero =>
    intro pos l x y hy
    rw [siftdown] at hy
    exact List.mem_or_eq_of_mem_set hy
  | succ fuel ih =>
    intro pos l x y hy
    rw [siftdown] at hy
    by_cases hpos : startpos < pos
    · rw [if_pos hpos] at hy
      simp only [] at hy
      cases hp : l.get? ((pos - 1) / 2) with
      | none =>
        rw [hp] at hy
        exact List.mem_or_eq_of_mem_set hy
      | some parent =>
        rw [hp] at hy
        simp only [] at hy
        by_cases hlt : key x < key parent
        · rw [if_pos hlt] at hy
          rcases ih _ _ _ _ hy with hy2 | hy2
          · rcases List.mem_or_eq_of_mem_set hy2 with hy3 | hy3
            · exact Or.inl hy3
            · exact Or.inl (hy3 ▸ List.get?_mem hp)
          · exact Or.inr hy2
        · rw [if_neg hlt] at hy
          exact List.mem_or_eq_of_mem_set hy
    · rw [if_neg hpos] at hy
      exact List.mem_or_eq_of_mem_set hy

/-- `heappush` preserves the heap invariant. -/
theorem heappush_inv {α : Type} (key : α → ℚ) (l : List α) (x : α)
    (h : heap_inv key l) : heap_inv key (heappush key l x) := by
  rw [heappush]
  refine siftdown_inv key l.length l.length (l ++ [x]) x (le_refl _)
    (by simp) ?_ ?_ ?_
  · intro i j a b hij hjne hgi hgj
    have hjlen : j < (l ++ [x]).length := (List.get?_eq_some.mp hgj).1
    have hj2 : j < l.length := by
      simp only [List.length_append, List.length_singleton] at hjlen
      omega
    have hi2 : i < l.length := lt_trans (is_child_lt hij) hj2
    rw [List.get?_append hi2] at hgi
    rw [List.get?_append hj2] at hgj
    exact h i j a b hij hgi hgj
  · intro j b hij hgj
    have : (l ++ [x]).get? j = none := by
      refine List.get?_eq_none.mpr ?_
      simp only [List.length_append, List.length_singleton]
      rcases hij with h2 | h2 <;> omega
    rw [this] at hgj
    simp at hgj
  · intro hpos j b hij hgj p hp
    have : (l ++ [x]).get? j = none := by
      refine List.get?_eq_none.mpr ?_
      simp only [List.length_append, List.length_singleton]
      rcases hij with h2 | h2 <;> omega
    rw [this] at hgj
    simp at hgj

/-- Pushing a whole stream of events preserves the heap invariant. -/
theorem push_all_inv {α : Type} (key : α → ℚ) :
    ∀ (items : List α) (heap : List α), heap_inv key heap →
      heap_inv key (push_all key heap items) := by
  intro items
  induction items with
  | nil => intro heap h; exact h
  | cons a rest ih =>
    intro heap h
    exact ih (heappush key heap a) (heappush_inv key heap a h)

/-- The empty queue is a heap. -/
theorem heap_inv_nil {α : Type} (key : α → ℚ) : heap_inv key ([] : List α) := by
  intro i j x y hij hgi hgj
  simp at hgi

/-- One promotion step of the `_siftup` loop: moving the smaller child
`child` from index `c2` into the hole at `pos` moves the hole to `c2`
and preserves the away-from-hole heap property and the bridge over the
hole. -/
theorem siftup_step_inv {α : Type} (key : α → ℚ) (l : List α)
    (pos c2 : ℕ) (child : α) (hc2 : is_child pos c2)
    (hchild : l.get? c2 = some child)
    (hmin : ∀ j b, is_child pos j → j ≠ c2 → l.get? j = some b →
      key child ≤ key b)
    (hS1 : ∀ i j a b, is_child i j → i ≠ pos → j ≠ pos → l.get? i = some a →
      l.get? j = some b → key a ≤ key b)
    (hS2 : 0 < pos → ∀ j b, is_child pos j → l.get? j = some b →
      ∀ p, l.get? ((pos - 1) / 2) = some p → key p ≤ key b) :
    (∀ i j a b, is_child i j → i ≠ c2 → j ≠ c2 →
      (l.set pos child).get? i = some a → (l.set pos child).get? j = some b →
      key a ≤ key b) ∧
    (0 < c2 → ∀ j b, is_child c2 j → (l.set pos child).get? j = some b →
      ∀ p, (l.set pos child).get? ((c2 - 1) / 2) = some p → key p ≤ key b) := by
  have hposc2 : pos < c2 := is_child_lt hc2
  constructor
  · intro i j a b hij hic2 hjc2 hgi hgj
    by_cases hjpos : j = pos
    · have hb : b = child := set_get?_self (hjpos ▸ hgj)
      have hpos0 : 0 < pos := hjpos ▸ is_child_pos hij
      have hine : i ≠ pos := Nat.ne_of_lt (hjpos ▸ is_child_lt hij)
      have hgi2 : l.get? i = some a := by
        rw [List.get?_set_ne child l (Ne.symm hine)] at hgi
        exact hgi
      have hieq : i = (pos - 1) / 2 := is_child_parent_eq (hjpos ▸ hij)
      rw [hb]
      exact hS2 hpos0 c2 child hc2 hchild a (hieq ▸ hgi2)
    · by_cases hipos : i = pos
      · have ha : a = child := set_get?_self (hipos ▸ hgi)
        have hgj2 : l.get? j = some b := by
          rw [List.get?_set_ne child l (Ne.symm hjpos)] at hgj
          exact hgj
        rw [ha]
        exact hmin j b (hipos ▸ hij) hjc2 hgj2
      · have hgi2 : l.get? i = some a := by
          rw [List.get?_set_ne child l (Ne.symm hipos)] at hgi
          exact hgi
        have hgj2 : l.get? j = some b := by
          rw [List.get?_set_ne child l (Ne.symm hjpos)] at hgj
          exact hgj
        exact hS1 i j a b hij hipos hjpos hgi2 hgj2
  · intro hc2pos j b hij hgj p hp
    have hparc2 : (c2 - 1) / 2 = pos := (is_child_parent_eq hc2).symm
    have hp2 : p = child := set_get?_self (hparc2 ▸ hp)
    have hjne_pos : j ≠ pos := Nat.ne_of_gt (lt_trans hposc2 (is_child_lt hij))
    have hjne_c2 : j ≠ c2 := Nat.ne_of_gt (is_child_lt hij)
    have hgj2 : l.get? j = some b := by
      rw [List.get?_set_ne child l (Ne.symm hjne_pos)] at hgj
      exact hgj
    rw [hp2]
    exact hS1 c2 j child b hij (Nat.ne_of_gt hposc2) hjne_pos hchild hgj2

/-- The `_siftup` loop: given the away-from-hole heap property and the
bridge over the hole, it ends with the hole at a position with no left
child, the heap property still holding away from the hole, and only
elements of the input array. -/
theorem siftup_loop_inv {α : Type} (key : α → ℚ) :
    ∀ (fuel : ℕ) (l : List α) (pos : ℕ),
      pos < l.length → l.length ≤ fuel + pos + 1 →
      (∀ i j a b, is_child i j → i ≠ pos → j ≠ pos → l.get? i = some a →
        l.get? j = some b → key a ≤ key b) →
      (0 < pos → ∀ j b, is_child pos j → l.get? j = some b →
        ∀ p, l.get? ((pos - 1) / 2) = some p → key p ≤ key b) →
      (siftup_loop key fuel l pos).1.length = l.length ∧
      (siftup_loop key fuel l pos).2 < l.length ∧
      l.length ≤ 2 * (siftup_loop key fuel l pos).2 + 1 ∧
      (∀ i j a b, is_child i j → i ≠ (siftup_loop key fuel l pos).2 →
        j ≠ (siftup_loop key fuel l pos).2 →
        (siftup_loop key fuel l pos).1.get? i = some a →
        (siftup_loop key fuel l pos).1.get? j = some b → key a ≤ key b) ∧
      (∀ y ∈ (siftup_loop key fuel l pos).1, y ∈ l) := by
  intro fuel
  induction fuel with
  | zero =>
    intro l pos hlen hfuel hS1 hS2
    rw [siftup_loop]
    exact ⟨rfl, hlen, by omega, hS1, fun y hy => hy⟩
  | succ fuel ih =>
    intro l pos hlen hfuel hS1 hS2
    rw [siftup_loop]
    simp only []
    by_cases hc : 2 * pos + 1 < l.length
    · rw [if_pos hc]
      obtain ⟨cl, hcl⟩ : ∃ c, l.get? (2 * pos + 1) = some c := by
        cases hx : l.get? (2 * pos + 1) with
        | none => exact absurd (List.get?_eq_none.mp hx) (by omega)
        | some c => exact ⟨c, rfl⟩
      by_cases hr : 2 * pos + 1 + 1 < l.length
      · obtain ⟨cr, hcr⟩ : ∃ c, l.get? (2 * pos + 1 + 1) = some c := by
          cases hx : l.get? (2 * pos + 1 + 1) with
          | none => exact absurd (List.get?_eq_none.mp hx) (by omega)
          | some c => exact ⟨c, rfl⟩
        rw [if_pos hr, hcl, hcr]
        simp only []
        by_cases hcmp : ¬ key cl < key cr
        · rw [if_pos hcmp, hcr]
          simp only []
          have hc2 : is_child pos (2 * pos + 1 + 1) := Or.inr (by omega)
          have hmin : ∀ j b, is_child pos j → j ≠ 2 * pos + 1 + 1 →
              l.get? j = some b → key cr ≤ key b := by
            intro j b hj hne hgj
            have hj1 : j = 2 * pos + 1 := by
              rcases hj with h2 | h2 <;> omega
            rw [hj1, hcl] at hgj
            rw [← Option.some.inj hgj]
            exact not_lt.mp hcmp
          obtain ⟨hS1n, hS2n⟩ := siftup_step_inv key l pos (2 * pos + 1 + 1)
            cr hc2 hcr hmin hS1 hS2
          have hres := ih (l.set pos cr) (2 * pos + 1 + 1)
            (by rw [List.length_set]; omega)
            (by rw [List.length_set]; omega)
            (by
              intro i j a b hij hi hj hgi hgj
              exact hS1n i j a b hij hi hj hgi hgj)
            (by
              intro hp j b hij hgj p hp2
              exact hS2n hp j b hij hgj p hp2)
          rw [List.length_set] at hres
          refine ⟨hres.1, hres.2.1, hres.2.2.1, hres.2.2.2.1, ?_⟩
          intro y hy
          rcases List.mem_or_eq_of_mem_set (hres.2.2.2.2 y hy) with hy2 | hy2
          · exact hy2
          · exact hy2 ▸ List.get?_mem hcr
        · rw [if_neg hcmp, hcl]
          simp only []
          have hc2 : is_child pos (2 * pos + 1) := Or.inl rfl
          have hmin : ∀ j b, is_child pos j → j ≠ 2 * pos + 1 →
              l.get? j = some b → key cl ≤ key b := by
            intro j b hj hne hgj
            have hj1 : j = 2 * pos + 1 + 1 := by
              rcases hj with h2 | h2 <;> omega
            rw [hj1, hcr] at hgj
            rw [← Option.some.inj hgj]
            exact le_of_lt (not_not.mp hcmp)
          obtain ⟨hS1n, hS2n⟩ := siftup_step_inv key l pos (2 * pos + 1)
            cl hc2 hcl hmin hS1 hS2
          have hres := ih (l.set pos cl) (2 * pos + 1)
            (by rw [List.length_set]; omega)
            (by rw [List.length_set]; omega)
            (by
              intro i j a b hij hi hj hgi hgj
              exact hS1n i j a b hij hi hj hgi hgj)
            (by
              intro hp j b hij hgj p hp2
              exact hS2n hp j b hij hgj p hp2)
          rw [List.length_set] at hres
          refine ⟨hres.1, hres.2.1, hres.2.2.1, hres.2.2.2.1, ?_⟩
          intro y hy
          rcases List.mem_or_eq_of_mem_set (hres.2.2.2.2 y hy) with hy2 | hy2
          · exact hy2
          · exact hy2 ▸ List.get?_mem hcl
      · rw [if_neg hr, hcl]
        simp only []
        have hc2 : is_child pos (2 * pos + 1) := Or.inl rfl
        have hmin : ∀ j b, is_child pos j → j ≠ 2 * pos + 1 →
            l.get? j = some b → key cl ≤ key b := by
          intro j b hj hne hgj
          have hj1 : j = 2 * pos + 1 + 1 := by
            rcases hj with h2 | h2 <;> omega
          have : l.get? j = none := List.get?_eq_none.mpr (by omega)
          rw [this] at hgj
          simp at hgj
        obtain ⟨hS1n, hS2n⟩ := siftup_step_inv key l pos (2 * pos + 1)
          cl hc2 hcl hmin hS1 hS2
        have hres := ih (l.set pos cl) (2 * pos + 1)
          (by rw [List.length_set]; omega)
          (by rw [List.length_set]; omega)
          (by
            intro i j a b hij hi hj hgi hgj
            exact hS1n i j a b hij hi hj hgi hgj)
          (by
            intro hp j b hij hgj p hp2
            exact hS2n hp j b hij hgj p hp2)
        rw [List.length_set] at hres
        refine ⟨hres.1, hres.2.1, hres.2.2.1, hres.2.2.2.1, ?_⟩
        intro y hy
        rcases List.mem_or_eq_of_mem_set (hres.2.2.2.2 y hy) with hy2 | hy2
        · exact hy2
        · exact hy2 ▸ List.get?_mem hcl
    · rw [if_neg hc]
      exact ⟨rfl, hlen, by omega, hS1, fun y hy => hy⟩

/-- `heapq._siftup` at the root: if the heap property holds everywhere
except possibly at index 0, sifting up restores the full invariant and
keeps only elements of the input array, preserving the length-charged
structure. -/
theorem siftup0_inv {α : Type} (key : α → ℚ) (l : List α) (hne : l ≠ [])
    (hS1 : ∀ i j a b, is_child i j → i ≠ 0 → j ≠ 0 → l.get? i = some a →
      l.get? j = some b → key a ≤ key b) :
    heap_inv key (siftup key l 0) ∧ ∀ y ∈ siftup key l 0, y ∈ l := by
  have hlen0 : 0 < l.length := List.length_pos.mpr hne
  obtain ⟨newitem, hget0⟩ : ∃ c, l.get? 0 = some c := by
    cases hx : l.get? 0 with
    | none => exact absurd (List.get?_eq_none.mp hx) (by omega)
    | some c => exact ⟨c, rfl⟩
  have hloop := siftup_loop_inv key l.length l 0 hlen0 (by omega) hS1
    (by intro h; exact absurd h (by omega))
  obtain ⟨hlp_len, hlp_pos, hlp_nochild, hlp_S1, hlp_mem⟩ := hloop
  rw [siftup, hget0]
  simp only []
  constructor
  · refine siftdown_inv key (siftup_loop key l.length l 0).2
      (siftup_loop key l.length l 0).2 (siftup_loop key l.length l 0).1
      newitem (le_refl _) (by rw [hlp_len]; exact hlp_pos) ?_ ?_ ?_
    · intro i j a b hij hjne hgi hgj
      by_cases hi : i = (siftup_loop key l.length l 0).2
      · exfalso
        have hjlen : j < (siftup_loop key l.length l 0).1.length :=
          (List.get?_eq_some.mp hgj).1
        rw [hlp_len] at hjlen
        rcases hij with h2 | h2 <;> omega
      · exact hlp_S1 i j a b hij hi hjne hgi hgj
    · intro j b hij hgj
      exfalso
      have hjlen : j < (siftup_loop key l.length l 0).1.length :=
        (List.get?_eq_some.mp hgj).1
      rw [hlp_len] at hjlen
      rcases hij with h2 | h2 <;> omega
    · intro _ j b hij hgj p hp
      exfalso
      have hjlen : j < (siftup_loop key l.length l 0).1.length :=
        (List.get?_eq_some.mp hgj).1
      rw [hlp_len] at hjlen
      rcases hij with h2 | h2 <;> omega
  · intro y hy
    rcases siftdown_mem key 0 (siftup_loop key l.length l 0).2
      (siftup_loop key l.length l 0).2 (siftup_loop key l.length l 0).1
      newitem y hy with hy2 | hy2
    · exact hlp_mem y hy2
    · exact hy2 ▸ List.get?_mem hget0

/-- In a heap the root key is minimal. -/
theorem heap_inv_root_le {α : Type} (key : α → ℚ) (l : List α)
    (h : heap_inv key l) (r : α) (hr : l.get? 0 = some r) :
    ∀ j y, l.get? j = some y → key r ≤ key y := by
  intro j
  induction j using Nat.strong_induction_on with
  | _ j ih =>
    intro y hy
    rcases Nat.eq_zero_or_pos j with hj | hj
    · rw [hj, hr] at hy
      rw [Option.some.inj hy]
    · have hpar : is_child ((j - 1) / 2) j := is_child_parent hj
      have hplt : (j - 1) / 2 < j := is_child_lt hpar
      have hjlen : j < l.length := (List.get?_eq_some.mp hy).1
      obtain ⟨p, hp⟩ : ∃ p, l.get? ((j - 1) / 2) = some p := by
        cases hx : l.get? ((j - 1) / 2) with
        | none => exact absurd (List.get?_eq_none.mp hx) (by omega)
        | some p => exact ⟨p, rfl⟩
      exact le_trans (ih ((j - 1) / 2) hplt p hp)
        (h ((j - 1) / 2) j p y hpar hp hy)

/-- `heapq.heappop` on a heap: the popped element belongs to the heap and
is not larger than anything in it, and what remains is again a heap made
only of the heap's elements. -/
theorem heappop_inv {α : Type} (key : α → ℚ) (heap : List α) (x : α)
    (rest : List α) (h : heap_inv key heap)
    (hp : heappop key heap = some (x, rest)) :
    x ∈ heap ∧ (∀ y ∈ heap, key x ≤ key y) ∧ heap_inv key rest ∧
      ∀ y ∈ rest, y ∈ heap := by
  rw [heappop] at hp
  cases hlast : heap.getLast? with
  | none => rw [hlast] at hp; exact absurd hp (by simp)
  | some lastelt =>
    rw [hlast] at hp
    simp only [] at hp
    have hne : heap ≠ [] := by
      intro hc
      rw [hc] at hlast
      exact absurd hlast (by simp)
    have hlaste : lastelt ∈ heap := by
      have := List.getLast?_eq_getLast heap hne
      rw [this] at hlast
      exact Option.some.inj hlast ▸ List.getLast_mem hne
    have hroot_le := heap_inv_root_le key heap h
    by_cases hempty : heap.dropLast.isEmpty
    · rw [if_pos hempty] at hp
      obtain ⟨hx, hrest⟩ : x = lastelt ∧ rest = [] := by
        have := Option.some.inj hp
        exact ⟨(congrArg Prod.fst this).symm, (congrArg Prod.snd this).symm⟩
      subst hx hrest
      refine ⟨hlaste, ?_, heap_inv_nil key, by simp⟩
      have hlen1 : heap.length = 1 := by
        have h0 := List.isEmpty_iff.mp hempty
        have := List.length_dropLast heap
        rw [h0] at this
        have hlp : 0 < heap.length := List.length_pos.mpr hne
        simp at this
        omega
      intro y hy
      obtain ⟨n, hn⟩ := List.mem_iff_get?.mp hy
      have hn0 : n = 0 := by
        have := (List.get?_eq_some.mp hn).1
        omega
      obtain ⟨m, hm⟩ := List.mem_iff_get?.mp hlaste
      have hm0 : m = 0 := by
        have := (List.get?_eq_some.mp hm).1
        omega
      rw [hn0] at hn
      rw [hm0] at hm
      rw [hn] at hm
      rw [Option.some.inj hm]
    · rw [if_neg hempty] at hp
      have hdne : heap.dropLast ≠ [] := by
        intro hc
        rw [hc] at hempty
        exact hempty rfl
      have hdlen : 0 < heap.dropLast.length := List.length_pos.mpr hdne
      obtain ⟨returnitem, hri⟩ : ∃ c, heap.dropLast.get? 0 = some c := by
        cases hx : heap.dropLast.get? 0 with
        | none => exact absurd (List.get?_eq_none.mp hx) (by omega)
        | some c => exact ⟨c, rfl⟩
      rw [hri] at hp
      simp only [] at hp
      obtain ⟨hx, hrest⟩ :
          x = returnitem ∧
            rest = siftup key (heap.dropLast.set 0 lastelt) 0 := by
        have := Option.some.inj hp
        exact ⟨(congrArg Prod.fst this).symm, (congrArg Prod.snd this).symm⟩
      have hd0 : heap.get? 0 = some returnitem := by
        have hlt : 0 < heap.length - 1 := by
          have := List.length_dropLast heap
          omega
        rw [List.dropLast_eq_take, List.get?_take hlt] at hri
        exact hri
      subst hx hrest
      have hxmem : x ∈ heap := List.get?_mem hd0
      have hxle : ∀ y ∈ heap, key x ≤ key y := by
        intro y hy
        obtain ⟨n, hn⟩ := List.mem_iff_get?.mp hy
        exact hroot_le x hd0 n y hn
      have hsetne : heap.dropLast.set 0 lastelt ≠ [] := by
        intro hc
        have h2 : (heap.dropLast.set 0 lastelt).length = 0 := by rw [hc]; rfl
        rw [List.length_set] at h2
        exact hdne (List.length_eq_zero.mp h2)
      have hS1 : ∀ i j a b, is_child i j → i ≠ 0 → j ≠ 0 →
          (heap.dropLast.set 0 lastelt).get? i = some a →
          (heap.dropLast.set 0 lastelt).get? j = some b → key a ≤ key b := by
        intro i j a b hij hi hj hgi hgj
        rw [List.get?_set_ne lastelt heap.dropLast (Ne.symm hi)] at hgi
        rw [List.get?_set_ne lastelt heap.dropLast (Ne.symm hj)] at hgj
        have hilen : i < heap.dropLast.length := (List.get?_eq_some.mp hgi).1
        have hjlen : j < heap.dropLast.length := (List.get?_eq_some.mp hgj).1
        rw [List.dropLast_eq_take] at hgi hgj
        rw [List.get?_take] at hgi hgj
        · exact h i j a b hij hgi hgj
        · rw [List.dropLast_eq_take] at hjlen
          have := List.length_take (heap.length - 1) heap
          omega
        · rw [List.dropLast_eq_take] at hilen
          have := List.length_take (heap.length - 1) heap
          omega
      obtain ⟨hinv2, hmem2⟩ :=
        siftup0_inv key (heap.dropLast.set 0 lastelt) hsetne hS1
      refine ⟨hxmem, hxle, hinv2, ?_⟩
      intro y hy
      rcases List.mem_or_eq_of_mem_set (hmem2 y hy) with hy2 | hy2
      · exact List.mem_of_mem_dropLast hy2
      · exact hy2 ▸ hlaste

/-- Everything consumed by the event loop comes from the queue. -/
theorem pop_all_mem {α : Type} (key : α → ℚ) :
    ∀ (fuel : ℕ) (heap : List α), heap_inv key heap →
      ∀ y ∈ pop_all key fuel heap, y ∈ heap := by
  intro fuel
  induction fuel with
  | zero => intro heap _ y hy; exact absurd hy (by simp [pop_all])
  | succ fuel ih =>
    intro heap h y hy
    rw [pop_all] at hy
    cases hp : heappop key heap with
    | none => rw [hp] at hy; exact absurd hy (by simp)
    | some xr =>
      rw [hp] at hy
      obtain ⟨hx, _, hinv, hsub⟩ := heappop_inv key heap xr.1 xr.2 h hp
      simp only [] at hy
      rcases List.mem_cons.mp hy with hy2 | hy2
      · exact hy2 ▸ hx
      · exact hsub y (ih xr.2 hinv y hy2)

/-- Consuming a heap with successive `heappop`s yields keys in
non-decreasing order. -/
theorem pop_all_sorted {α : Type} (key : α → ℚ) :
    ∀ (fuel : ℕ) (heap : List α), heap_inv key heap →
      (pop_all key fuel heap).Pairwise (fun a b => key a ≤ key b) := by
  intro fuel
  induction fuel with
  | zero => intro heap _; rw [pop_all]; exact List.Pairwise.nil
  | succ fuel ih =>
    intro heap h
    rw [pop_all]
    cases hp : heappop key heap with
    | none => exact List.Pairwise.nil
    | some xr =>
      simp only []
      obtain ⟨hx, hle, hinv, hsub⟩ := heappop_inv key heap xr.1 xr.2 h hp
      refine List.Pairwise.cons ?_ (ih xr.2 hinv)
      intro y hy
      exact hle y (hsub y (pop_all_mem key fuel xr.2 hinv y hy))

/-- C2 (amended): the simulation kernel consumes events in non-decreasing
time order — the event queue built by `_add_event`'s `heappush`es and
drained by the run loop's `heappop`s yields times sorted non-decreasingly.
The FIFO tie-breaking part of the claim is false (see the counterexample):
`Event.__lt__` compares times only and `heapq` is not stable, so
equal-time events are dispatched in heap order, not insertion order. -/
theorem event_queue_time_ordered (items : List QEvent) (fuel : ℕ) :
    (pop_all QEvent.time fuel (push_all QEvent.time [] items)).Pairwise
      (fun a b => a.time ≤ b.time) :=
  pop_all_sorted QEvent.time fuel (push_all QEvent.time [] items)
    (push_all_inv QEvent.time items [] (heap_inv_nil QEvent.time))

/-- C2 counterexample: four events with identical time 5, inserted with
tags 0, 1, 2, 3, are dispatched in order 0, 2, 1, 3 — not FIFO. -/
theorem equal_time_events_not_fifo :
    (pop_all QEvent.time 4 (push_all QEvent.time []
      [⟨5, 0⟩, ⟨5, 1⟩, ⟨5, 2⟩, ⟨5, 3⟩])).map QEvent.tag = [0, 2, 1, 3] ∧
    ([0, 2, 1, 3] : List ℕ) ≠ [0, 1, 2, 3] := by
  exact ⟨by decide, by decide⟩

/-! ## Theorems: claim C10 -/

/-- `heappush` adds no element beyond the pushed one. -/
theorem heappush_mem {α : Type} (key : α → ℚ) (l : List α) (x : α) (y : α)
    (hy : y ∈ heappush key l x) : y ∈ l ∨ y = x := by
  rw [heappush] at hy
  rcases siftdown_mem key 0 l.length l.length (l ++ [x]) x y hy with h2 | h2
  · rcases List.mem_append.mp h2 with h3 | h3
    · exact Or.inl h3
    · exact Or.inr (List.mem_singleton.mp h3)
  · exact Or.inr h2

/-- The `_siftup` walk keeps only elements of the array. -/
theorem siftup_loop_mem {α : Type} (key : α → ℚ) :
    ∀ (fuel : ℕ) (l : List α) (pos : ℕ) (y : α),
      y ∈ (siftup_loop key fuel l pos).1 → y ∈ l := by
  intro fuel
  induction fuel with
  | zero =>
    intro l pos y hy
    rw [siftup_loop] at hy
    exact hy
  | succ fuel ih =>
    intro l pos y hy
    rw [siftup_loop] at hy
    simp only [] at hy
    by_cases hc : 2 * pos + 1 < l.length
    · rw [if_pos hc] at hy
      by_cases hr : 2 * pos + 1 + 1 < l.length
      · rw [if_pos hr] at hy
        cases hcl : l.get? (2 * pos + 1) with
        | none =>
          rw [hcl] at hy
          cases hcr : l.get? (2 * pos + 1 + 1) with
          | none =>
            rw [hcr] at hy
            simp only [] at hy
            rw [hcl] at hy
            exact hy
          | some cr =>
            rw [hcr] at hy
            simp only [] at hy
            rw [hcl] at hy
            exact hy
        | some cl =>
          rw [hcl] at hy
          cases hcr : l.get? (2 * pos + 1 + 1) with
          | none =>
            rw [hcr] at hy
            simp only [] at hy
            rw [hcl] at hy
            simp only [] at hy
            rcases List.mem_or_eq_of_mem_set (ih _ _ y hy) with h2 | h2
            · exact h2
            · exact h2 ▸ List.get?_mem hcl
          | some cr =>
            rw [hcr] at hy
            simp only [] at hy
            by_cases hcmp : ¬ key cl < key cr
            · rw [if_pos hcmp, hcr] at hy
              simp only [] at hy
              rcases List.mem_or_eq_of_mem_set (ih _ _ y hy) with h2 | h2
              · exact h2
              · exact h2 ▸ List.get?_mem hcr
            · rw [if_neg hcmp, hcl] at hy
              simp only [] at hy
              rcases List.mem_or_eq_of_mem_set (ih _ _ y hy) with h2 | h2
              · exact h2
              · exact h2 ▸ List.get?_mem hcl
      · rw [if_neg hr] at hy
        cases hcl : l.get? (2 * pos + 1) with
        | none =>
          rw [hcl] at hy
          exact hy
        | some cl =>
          rw [hcl] at hy
          simp only [] at hy
          rcases List.mem_or_eq_of_mem_set (ih _ _ y hy) with h2 | h2
          · exact h2
          · exact h2 ▸ List.get?_mem hcl
    · rw [if_neg hc] at hy
      exact hy

/-- `_siftup` keeps only elements of the array. -/
theorem siftup_mem {α : Type} (key : α → ℚ) (l : List α) (pos : ℕ) (y : α)
    (hy : y ∈ siftup key l pos) : y ∈ l := by
  rw [siftup] at hy
  cases hget : l.get? pos with
  | none =>
    rw [hget] at hy
    exact hy
  | some newitem =>
    rw [hget] at hy
    simp only [] at hy
    rcases siftdown_mem key _ _ _ _ _ y hy with h2 | h2
    · exact siftup_loop_mem key l.length l pos y h2
    · exact h2 ▸ List.get?_mem hget

/-- `heappop` pops an element of the heap and keeps only heap elements. -/
theorem heappop_mem {α : Type} (key : α → ℚ) (heap : List α) (x : α)
    (rest : List α) (hp : heappop key heap = some (x, rest)) :
    x ∈ heap ∧ ∀ y ∈ rest, y ∈ heap := by
  rw [heappop] at hp
  cases hlast : heap.getLast? with
  | none => rw [hlast] at hp; exact absurd hp (by simp)
  | some lastelt =>
    rw [hlast] at hp
    simp only [] at hp
    have hne : heap ≠ [] := by
      intro hc
      rw [hc] at hlast
      exact absurd hlast (by simp)
    have hlaste : lastelt ∈ heap := by
      have := List.getLast?_eq_getLast heap hne
      rw [this] at hlast
      exact Option.some.inj hlast ▸ List.getLast_mem hne
    by_cases hempty : heap.dropLast.isEmpty
    · rw [if_pos hempty] at hp
      obtain ⟨hx, hrest⟩ : x = lastelt ∧ rest = [] := by
        have := Option.some.inj hp
        exact ⟨(congrArg Prod.fst this).symm, (congrArg Prod.snd this).symm⟩
      subst hx hrest
      exact ⟨hlaste, by simp⟩
    · rw [if_neg hempty] at hp
      have hdne : heap.dropLast ≠ [] := by
        intro hc
        rw [hc] at hempty
        exact hempty rfl
      have hdlen : 0 < heap.dropLast.length := List.length_pos.mpr hdne
      obtain ⟨returnitem, hri⟩ : ∃ c, heap.dropLast.get? 0 = some c := by
        cases hx : heap.dropLast.get? 0 with
        | none => exact absurd (List.get?_eq_none.mp hx) (by omega)
        | some c => exact ⟨c, rfl⟩
      rw [hri] at hp
      simp only [] at hp
      obtain ⟨hx, hrest⟩ :
          x = returnitem ∧
            rest = siftup key (heap.dropLast.set 0 lastelt) 0 := by
        have := Option.some.inj hp
        exact ⟨(congrArg Prod.fst this).symm, (congrArg Prod.snd this).symm⟩
      subst hx hrest
      have hd0 : heap.get? 0 = some x := by
        have hlt : 0 < heap.length - 1 := by
          have := List.length_dropLast heap
          omega
        rw [List.dropLast_eq_take, List.get?_take hlt] at hri
        exact hri
      refine ⟨List.get?_mem hd0, ?_⟩
      intro y hy
      rcases List.mem_or_eq_of_mem_set
        (siftup_mem key (heap.dropLast.set 0 lastelt) 0 y hy) with hy2 | hy2
      · exact List.mem_of_mem_dropLast hy2
      · exact hy2 ▸ hlaste

/-- Pushing a mapped batch onto a heap adds only images of the batch. -/
theorem foldl_heappush_mem {α β : Type} (key : α → ℚ) (f : β → α) :
    ∀ (items : List β) (q0 : List α) (y : α),
      y ∈ items.foldl (fun q e => heappush key q (f e)) q0 →
      y ∈ q0 ∨ ∃ e ∈ items, y = f e := by
  intro items
  induction items with
  | nil => intro q0 y hy; exact Or.inl hy
  | cons a rest ih =>
    intro q0 y hy
    rcases ih (heappush key q0 (f a)) y hy with h2 | h2
    · rcases heappush_mem key q0 (f a) y h2 with h3 | h3
      · exact Or.inl h3
      · exact Or.inr ⟨a, List.mem_cons_self a rest, h3⟩
    · obtain ⟨e, he, hye⟩ := h2
      exact Or.inr ⟨e, List.mem_cons_of_mem a he, hye⟩

/-- The modelled `generate_trip_id` is injective in the counter. -/
theorem gen_tid_inj {k n : ℕ} (h : gen_tid k = gen_tid n) : k = n := by
  rw [gen_tid, gen_tid] at h
  have h2 : ('t' :: List.replicate k 'i') = ('t' :: List.replicate n 'i') := by
    have := congrArg String.data h
    simpa using this
  have h3 := congrArg List.length h2
  simpa using h3

/-- A dict assignment adds at most the assigned pair. -/
theorem dict_set_mem {β : Type} (m : List (String × β)) (k : String) (v : β)
    (p : String × β) (hp : p ∈ dict_set m k v) : p ∈ m ∨ p = (k, v) := by
  rw [dict_set] at hp
  by_cases hk : (m.lookup k).isSome
  · rw [if_pos hk] at hp
    obtain ⟨q, hq, hpq⟩ := List.mem_map.mp hp
    by_cases hq1 : q.1 = k
    · rw [if_pos hq1] at hpq
      exact Or.inr hpq.symm
    · rw [if_neg hq1] at hpq
      exact Or.inl (hpq ▸ hq)
  · rw [if_neg hk] at hp
    rcases List.mem_append.mp hp with h2 | h2
    · exact Or.inl h2
    · exact Or.inr (List.mem_singleton.mp h2)

/-- A fold of dict assignments with a fixed value adds only pairs keyed
by the batch and carrying that value. -/
theorem foldl_dict_set_mem {α β : Type} (f : α → String) (v : β) :
    ∀ (l : List α) (m0 : List (String × β)) (p : String × β),
      p ∈ l.foldl (fun m q => dict_set m (f q) v) m0 →
      p ∈ m0 ∨ ∃ q ∈ l, p = (f q, v) := by
  intro l
  induction l with
  | nil => intro m0 p hp; exact Or.inl hp
  | cons a rest ih =>
    intro m0 p hp
    rcases ih (dict_set m0 (f a) v) p hp with h2 | h2
    · rcases dict_set_mem m0 (f a) v p h2 with h3 | h3
      · exact Or.inl h3
      · exact Or.inr ⟨a, List.mem_cons_self a rest, h3⟩
    · obtain ⟨q, hq, hpq⟩ := h2
      exact Or.inr ⟨q, List.mem_cons_of_mem a hq, hpq⟩

/-- An element not satisfying the predicate survives `eraseP`. -/
theorem mem_eraseP_of_not {α : Type} {l : List α} {x : α} {p : α → Bool}
    (hx : x ∈ l) (hpx : p x = false) : x ∈ l.eraseP p := by
  induction l with
  | nil => exact absurd hx (by simp)
  | cons a t ih =>
    cases hpa : p a with
    | true =>
      rw [List.eraseP_cons_of_pos hpa]
      rcases List.mem_cons.mp hx with h1 | h1
      · rw [h1] at hpx
        rw [hpx] at hpa
        exact absurd hpa (by simp)
      · exact h1
    | false =>
      rw [List.eraseP_cons_of_neg (by simp [hpa])]
      rcases List.mem_cons.mp hx with h1 | h1
      · exact h1 ▸ List.mem_cons_self a _
      · exact List.mem_cons_of_mem a (ih h1)

/-- An element survives a fold of id-keyed erasures unless the batch
names its id. -/
theorem foldl_eraseP_mem (ps : List Req) :
    ∀ (l : List Req) (x : Req), x ∈ l →
      x ∈ ps.foldl (fun acc q => acc.eraseP (fun r => r.rid == q.rid)) l ∨
      ∃ q ∈ ps, q.rid = x.rid := by
  induction ps with
  | nil => intro l x hx; exact Or.inl hx
  | cons a rest ih =>
    intro l x hx
    by_cases hra : x.rid = a.rid
    · exact Or.inr ⟨a, List.mem_cons_self a rest, hra.symm⟩
    · have hx2 : x ∈ l.eraseP (fun r => r.rid == a.rid) :=
        mem_eraseP_of_not hx (by simp [hra])
      rcases ih (l.eraseP (fun r => r.rid == a.rid)) x hx2 with h2 | h2
      · exact Or.inl h2
      · obtain ⟨q, hq, hqx⟩ := h2
        exact Or.inr ⟨q, List.mem_cons_of_mem a hq, hqx⟩

/-- In a list of trips with pairwise distinct ids, the id determines the
trip. -/
theorem tid_unique : ∀ (l : List Trip),
    (l.map Trip.tid).Pairwise (fun a b => a ≠ b) →
    ∀ t ∈ l, ∀ u ∈ l, t.tid = u.tid → t = u := by
  intro l
  induction l with
  | nil => intro _ t ht; exact absurd ht (by simp)
  | cons a rest ih =>
    intro hpw t ht u hu htu
    rw [List.map_cons] at hpw
    have hhead : ∀ b ∈ rest, a.tid ≠ b.tid := by
      intro b hb
      exact (List.pairwise_cons.mp hpw).1 b.tid (List.mem_map_of_mem Trip.tid hb)
    have htail := (List.pairwise_cons.mp hpw).2
    rcases List.mem_cons.mp ht with h1 | h1
    · rcases List.mem_cons.mp hu with h2 | h2
      · rw [h1, h2]
      · exact absurd (h1 ▸ htu) (hhead u h2)
    · rcases List.mem_cons.mp hu with h2 | h2
      · exact absurd (h2 ▸ htu).symm (hhead t h1)
      · exact ih htail t h1 u h2 htu

/-- `_add_to_trip_fcfs` keeps the trip id. -/
theorem add_to_trip_tid (dur : Dur) (t : Trip) (request : Req) :
    (add_to_trip_fcfs dur t request).tid = t.tid := rfl

/-- The passenger list `_add_to_trip_fcfs` produces: the old passengers
plus the new request, each with its cost share re-assigned. -/
theorem add_to_trip_passengers (dur : Dur) (t : Trip) (request : Req) :
    (add_to_trip_fcfs dur t request).passengers =
      (t.passengers ++ [request]).map (fun p =>
        { p with cost_share := some (compute_simple_route_cost dur
            (insert_before_last t.route request.origin) /
          ((t.passengers ++ [request]).length : ℚ)) }) := rfl

/-- `_add_to_trip_fcfs` keeps every rider and adds the new one. -/
theorem add_to_trip_rid (dur : Dur) (t : Trip) (request : Req) :
    (∀ q ∈ t.passengers,
      ∃ q2 ∈ (add_to_trip_fcfs dur t request).passengers, q2.rid = q.rid) ∧
    (∃ q2 ∈ (add_to_trip_fcfs dur t request).passengers,
      q2.rid = request.rid) := by
  rw [add_to_trip_passengers]
  constructor
  · intro q hq
    refine ⟨_, List.mem_map_of_mem _ (List.mem_append_left _ hq), rfl⟩
  · refine ⟨_, List.mem_map_of_mem _
      (List.mem_append_right _ (List.mem_singleton_self request)), rfl⟩

/-- What a successful `match_request` trip-list scan guarantees: trip
ids are untouched positionally, the returned trip is in the updated
list and carries the request, and no rider is lost. -/
theorem mr_scan_spec (dur : Dur) (dist : Loc → Loc → ℚ) (request : Req) :
    ∀ (trips : List Trip) (t' : Trip) (trips' : List Trip),
      mr_scan dur dist request trips = some (t', trips') →
      trips'.map Trip.tid = trips.map Trip.tid ∧
      t' ∈ trips' ∧
      (∃ q ∈ t'.passengers, q.rid = request.rid) ∧
      (∀ rid, in_trips rid trips → in_trips rid trips') := by
  intro trips
  induction trips with
  | nil =>
    intro t' trips' h
    rw [mr_scan] at h
    exact absurd h (by simp)
  | cons t rest ih =>
    intro t' trips' h
    rw [mr_scan] at h
    by_cases hc : 0 < t.capacity_available ∧ can_add_to_trip dist t request
    · rw [if_pos hc] at h
      simp only [Option.some.injEq, Prod.mk.injEq] at h
      obtain ⟨ht', htr⟩ := h
      subst ht' htr
      obtain ⟨hkeep, hnew⟩ := add_to_trip_rid dur t request
      refine ⟨by simp [add_to_trip_tid], List.mem_cons_self _ _, hnew, ?_⟩
      intro rid hrid
      obtain ⟨u, hu, q, hq, hqe⟩ := hrid
      rcases List.mem_cons.mp hu with h2 | h2
      · obtain ⟨q2, hq2, hq2e⟩ := hkeep q (h2 ▸ hq)
        exact ⟨_, List.mem_cons_self _ _, q2, hq2, hq2e.trans hqe⟩
      · exact ⟨u, List.mem_cons_of_mem _ h2, q, hq, hqe⟩
    · rw [if_neg hc] at h
      cases hrec : mr_scan dur dist request rest with
      | none =>
        rw [hrec] at h
        exact absurd h (by simp)
      | some pr =>
        obtain ⟨a, b⟩ := pr
        rw [hrec] at h
        simp only [Option.some.injEq, Prod.mk.injEq] at h
        obtain ⟨ht', htr⟩ := h
        subst ht' htr
        obtain ⟨hmap, hmem, hreq, hmono⟩ := ih a b hrec
        refine ⟨by simp [hmap], List.mem_cons_of_mem _ hmem, hreq, ?_⟩
        intro rid hrid
        obtain ⟨u, hu, q, hq, hqe⟩ := hrid
        rcases List.mem_cons.mp hu with h2 | h2
        · exact ⟨t, List.mem_cons_self _ _, q, h2 ▸ hq, hqe⟩
        · obtain ⟨u2, hu2, q2, hq2, hq2e⟩ := hmono rid ⟨u, h2, q, hq, hqe⟩
          exact ⟨u2, List.mem_cons_of_mem _ hu2, q2, hq2, hq2e⟩

/-- What a successful `FCFSMatcher.match_request` guarantees. -/
theorem fcfs_match_request_spec (dur : Dur) (dist : Loc → Loc → ℚ)
    (tid : String) (request : Req) (drivers : List DriverE) (capacity : ℕ)
    (trips : List Trip) (mtrips : List (String × String)) (trip : Trip)
    (trips' : List Trip) (mtrips' : List (String × String))
    (h : fcfs_match_request dur dist tid request drivers capacity trips
      mtrips = (some trip, trips', mtrips')) :
    trips'.map Trip.tid = trips.map Trip.tid ∧
    (∃ q ∈ trip.passengers, q.rid = request.rid) ∧
    (∀ rid, in_trips rid trips → in_trips rid trips') ∧
    (trip ∈ trips' ∨ (trips' = trips ∧ trip.tid = tid)) := by
  rw [fcfs_match_request] at h
  simp only [] at h
  cases hscan : mr_scan dur dist request trips with
  | some pr =>
    obtain ⟨a, b⟩ := pr
    rw [hscan] at h
    simp only [Prod.mk.injEq, Option.some.injEq] at h
    obtain ⟨h1, h2, h3⟩ := h
    subst h1 h2
    obtain ⟨hmap, hmem, hreq, hmono⟩ := mr_scan_spec dur dist request trips a b hscan
    exact ⟨hmap, hreq, hmono, Or.inl hmem⟩
  | none =>
    rw [hscan] at h
    cases hsd : drivers.mergeSort
        (fun a b => decide (a.available_since ≤ b.available_since)) with
    | nil =>
      rw [hsd] at h
      simp only [Prod.mk.injEq] at h
      exact absurd h.1 (by simp)
    | cons d ds =>
      rw [hsd] at h
      simp only [Prod.mk.injEq, Option.some.injEq] at h
      obtain ⟨h1, h2, h3⟩ := h
      subst h2
      rw [← h1]
      refine ⟨rfl, ⟨_, List.mem_singleton_self _, rfl⟩, fun rid hr => hr,
        Or.inr ⟨rfl, rfl⟩⟩

/-- A failed `FCFSMatcher.match_request` changes no trip. -/
theorem fcfs_match_request_none (dur : Dur) (dist : Loc → Loc → ℚ)
    (tid : String) (request : Req) (drivers : List DriverE) (capacity : ℕ)
    (trips : List Trip) (mtrips : List (String × String))
    (trips' : List Trip) (mtrips' : List (String × String))
    (h : fcfs_match_request dur dist tid request drivers capacity trips
      mtrips = (none, trips', mtrips')) :
    trips' = trips ∧ mtrips' = mtrips := by
  rw [fcfs_match_request] at h
  simp only [] at h
  cases hscan : mr_scan dur dist request trips with
  | some pr =>
    obtain ⟨a, b⟩ := pr
    rw [hscan] at h
    simp only [Prod.mk.injEq] at h
    exact absurd h.1 (by simp)
  | none =>
    rw [hscan] at h
    cases hsd : drivers.mergeSort
        (fun a b => decide (a.available_since ≤ b.available_since)) with
    | nil =>
      rw [hsd] at h
      simp only [Prod.mk.injEq] at h
      exact ⟨h.2.1.symm, h.2.2.symm⟩
    | cons d ds =>
      rw [hsd] at h
      simp only [Prod.mk.injEq] at h
      exact absurd h.1 (by simp)

/-- `_start_trip` preserves the C10 invariant, given that the started
trip's id came from the generator and is new (the caller's
`trip.id not in [t.id for t in self.active_trips]` check). -/
theorem fcfs_start_trip_inv (dur : Dur) (s : FState) (trip : Trip)
    (hinv : fcfs_inv s)
    (htid : ∃ k, k < s.next_trip ∧ trip.tid = gen_tid k)
    (hfresh : trip.tid ∉ s.active_trips.map Trip.tid) :
    fcfs_inv (fcfs_start_trip dur s trip) := by
  obtain ⟨⟨hq1, hst, hqt, hcov⟩, hq2, htids, hpw⟩ := hinv
  obtain ⟨tid0, drv, pass, route, dest, cap, st0, cpi, pc, trc, ic, dr⟩ := trip
  simp only [] at htid hfresh
  rw [fcfs_start_trip]
  simp only []
  have htrip'mem : (⟨tid0, { drv with status := DriverStatus.en_route_pickup },
      pass, route, dest, cap, s.time, cpi, pc, trc, ic, dr⟩ : Trip) ∈
      (s.active_trips ++ [⟨tid0, { drv with status := DriverStatus.en_route_pickup },
        pass, route, dest, cap, s.time, cpi, pc, trc, ic, dr⟩]) ++
        s.completed_trips :=
    List.mem_append_left _ (List.mem_append_right _ (List.mem_singleton_self _))
  have hmono : ∀ rid, in_trips rid (s.active_trips ++ s.completed_trips) →
      in_trips rid ((s.active_trips ++
        [⟨tid0, { drv with status := DriverStatus.en_route_pickup },
          pass, route, dest, cap, s.time, cpi, pc, trc, ic, dr⟩]) ++
        s.completed_trips) := by
    intro rid hr
    obtain ⟨u, hu, q, hq, hqe⟩ := hr
    rcases List.mem_append.mp hu with h2 | h2
    · exact ⟨u, List.mem_append_left _ (List.mem_append_left _ h2), q, hq, hqe⟩
    · exact ⟨u, List.mem_append_right _ h2, q, hq, hqe⟩
  have hpass_trips : ∀ q ∈ pass,
      in_trips q.rid ((s.active_trips ++
        [⟨tid0, { drv with status := DriverStatus.en_route_pickup },
          pass, route, dest, cap, s.time, cpi, pc, trc, ic, dr⟩]) ++
        s.completed_trips) := by
    intro q hq
    exact ⟨_, htrip'mem, q, hq, rfl⟩
  have hst' : ∀ p ∈ pass.foldl
      (fun m q => dict_set m q.rid RequestStatus.matched) s.statuses,
      p.2 ≠ RequestStatus.quit := by
    intro p hp
    rcases foldl_dict_set_mem Req.rid RequestStatus.matched pass
      s.statuses p hp with h2 | h2
    · exact hst p h2
    · obtain ⟨q, _, hpq⟩ := h2
      rw [hpq]
      intro h3
      exact absurd h3 (by simp)
  have hcov' : ∀ p ∈ pass.foldl
      (fun m q => dict_set m q.rid RequestStatus.matched) s.statuses,
      (∃ r ∈ pass.foldl
        (fun l q => l.eraseP (fun r => r.rid == q.rid)) s.active_requests,
        r.rid = p.1) ∨
      in_trips p.1 ((s.active_trips ++
        [⟨tid0, { drv with status := DriverStatus.en_route_pickup },
          pass, route, dest, cap, s.time, cpi, pc, trc, ic, dr⟩]) ++
        s.completed_trips) := by
    intro p hp
    rcases foldl_dict_set_mem Req.rid RequestStatus.matched pass
      s.statuses p hp with h2 | h2
    · rcases hcov p h2 with h3 | h3
      · obtain ⟨r, hr, hre⟩ := h3
        rcases foldl_eraseP_mem pass s.active_requests r hr with h4 | h4
        · exact Or.inl ⟨r, h4, hre⟩
        · obtain ⟨q, hq, hqe⟩ := h4
          exact Or.inr (hre ▸ hqe ▸ hpass_trips q hq)
      · exact Or.inr (hmono p.1 h3)
    · obtain ⟨q, hq, hpq⟩ := h2
      rw [hpq]
      exact Or.inr (hpass_trips q hq)
  have hq2' : ∀ e ∈ s.queue, ∀ tid rid,
      e.data = FData.pickup_complete tid rid →
      in_trips rid ((s.active_trips ++
        [⟨tid0, { drv with status := DriverStatus.en_route_pickup },
          pass, route, dest, cap, s.time, cpi, pc, trc, ic, dr⟩]) ++
        s.completed_trips) := by
    intro e he tid rid hdata
    exact hmono rid (hq2 e he tid rid hdata)
  have htids' : ∀ t ∈ (s.active_trips ++
      [⟨tid0, { drv with status := DriverStatus.en_route_pickup },
        pass, route, dest, cap, s.time, cpi, pc, trc, ic, dr⟩]) ++
      s.completed_trips,
      ∃ k, k < s.next_trip ∧ t.tid = gen_tid k := by
    intro t ht
    rcases List.mem_append.mp ht with h2 | h2
    · rcases List.mem_append.mp h2 with h3 | h3
      · exact htids t (List.mem_append_left _ h3)
      · rw [List.mem_singleton.mp h3]
        exact htid
    · exact htids t (List.mem_append_right _ h2)
  have hpw' : ((s.active_trips ++
      [(⟨tid0, { drv with status := DriverStatus.en_route_pickup },
        pass, route, dest, cap, s.time, cpi, pc, trc, ic, dr⟩ : Trip)]).map
      Trip.tid).Pairwise (fun a b => a ≠ b) := by
    rw [List.map_append]
    refine List.pairwise_append.mpr ⟨hpw, List.pairwise_singleton _ _, ?_⟩
    intro a ha b hb
    rw [List.mem_singleton.mp hb]
    intro hab
    have hab2 : a = tid0 := hab
    exact hfresh (hab2 ▸ ha)
  cases route with
  | nil =>
    exact ⟨⟨hq1, hst', hqt, hcov'⟩, hq2', htids', hpw'⟩
  | cons fp rtl =>
    cases pass with
    | nil =>
      exact ⟨⟨hq1, hst', hqt, hcov'⟩, hq2', htids', hpw'⟩
    | cons p0 ptl =>
      simp only [fcfs_add_event]
      refine ⟨⟨?_, hst', hqt, hcov'⟩, ?_, htids', hpw'⟩
      · intro e he
        rcases heappush_mem FEvent.time _ _ e he with h2 | h2
        · exact hq1 e h2
        · rw [h2]
          rfl
      · intro e he tid rid hdata
        rcases heappush_mem FEvent.time _ _ e he with h2 | h2
        · exact hq2' e h2 tid rid hdata
        · rw [h2] at hdata
          have hr : p0.rid = rid := (FData.pickup_complete.injEq _ _ _ _).mp hdata |>.2
          rw [← hr]
          exact hpass_trips p0 (List.mem_cons_self p0 ptl)

/-- Rider coverage transfers along a rider-preserving trip-list update. -/
theorem in_trips_mono_append {ts ts' us : List Trip}
    (h : ∀ rid, in_trips rid ts → in_trips rid ts') :
    ∀ rid, in_trips rid (ts ++ us) → in_trips rid (ts' ++ us) := by
  intro rid hr
  obtain ⟨u, hu, q, hq, hqe⟩ := hr
  rcases List.mem_append.mp hu with h2 | h2
  · obtain ⟨u2, hu2, q2, hq2, hq2e⟩ := h rid ⟨u, h2, q, hq, hqe⟩
    exact ⟨u2, List.mem_append_left _ hu2, q2, hq2, hq2e⟩
  · exact ⟨u, List.mem_append_right _ h2, q, hq, hqe⟩

/-- Generator provenance of trip ids transfers along an id-preserving
trip-list update. -/
theorem tids_of_map_eq {ts ts' : List Trip} {n : ℕ}
    (hmapeq : ts'.map Trip.tid = ts.map Trip.tid)
    (h : ∀ t ∈ ts, ∃ k, k < n ∧ t.tid = gen_tid k) :
    ∀ t ∈ ts', ∃ k, k < n ∧ t.tid = gen_tid k := by
  intro t ht
  have hmem : t.tid ∈ ts.map Trip.tid :=
    hmapeq ▸ List.mem_map_of_mem Trip.tid ht
  obtain ⟨u, hu, hue⟩ := List.mem_map.mp hmem
  obtain ⟨k, hk, hke⟩ := h u hu
  refine ⟨k, hk, ?_⟩
  rw [← hue]
  exact hke

/-- A freshly generated trip id differs from all ids the generator has
produced before. -/
theorem created_tid_not_in {ts : List Trip} {n : ℕ}
    (htids : ∀ t ∈ ts, ∃ k, k < n ∧ t.tid = gen_tid k) :
    gen_tid n ∉ ts.map Trip.tid := by
  intro hmem
  obtain ⟨u, hu, hue⟩ := List.mem_map.mp hmem
  obtain ⟨k, hk, hke⟩ := htids u hu
  rw [hke] at hue
  exact absurd (gen_tid_inj hue) (by omega)

/-- `_on_request_arrival` preserves the C10 invariant. -/
theorem fcfs_on_request_arrival_inv (dur : Dur) (dist : Loc → Loc → ℚ)
    (capacity : ℕ) (s : FState) (rid : String) (origin destination : Loc)
    (hinv : fcfs_inv s) :
    fcfs_inv (fcfs_on_request_arrival dur dist capacity s rid origin
      destination) := by
  obtain ⟨⟨hq1, hst, hqt, hcov⟩, hq2, htids, hpw⟩ := hinv
  rw [fcfs_on_request_arrival]
  simp only []
  rcases hm : fcfs_match_request dur dist (gen_tid s.next_trip)
      ⟨rid, origin, destination, none⟩ s.available_drivers capacity
      s.active_trips s.matcher_trips with ⟨o, trips', mtrips'⟩
  cases o with
  | none =>
    simp only []
    obtain ⟨htr, hmt⟩ := fcfs_match_request_none dur dist
      (gen_tid s.next_trip) ⟨rid, origin, destination, none⟩
      s.available_drivers capacity s.active_trips s.matcher_trips
      trips' mtrips' hm
    subst htr hmt
    refine ⟨⟨hq1, ?_, hqt, ?_⟩, ?_, ?_, hpw⟩
    · intro p hp
      rcases dict_set_mem s.statuses rid RequestStatus.waiting p hp with h2 | h2
      · exact hst p h2
      · rw [h2]
        intro h3
        exact absurd h3 (by simp)
    · intro p hp
      rcases dict_set_mem s.statuses rid RequestStatus.waiting p hp with h2 | h2
      · rcases hcov p h2 with h3 | h3
        · obtain ⟨r, hr, hre⟩ := h3
          exact Or.inl ⟨r, List.mem_append_left _ hr, hre⟩
        · exact Or.inr h3
      · rw [h2]
        exact Or.inl ⟨⟨rid, origin, destination, none⟩,
          List.mem_append_right _ (List.mem_singleton_self _), rfl⟩
    · intro e he tid2 rid2 hdata
      exact hq2 e he tid2 rid2 hdata
    · intro t ht
      obtain ⟨k, hk, hke⟩ := htids t ht
      exact ⟨k, Nat.lt_succ_of_lt hk, hke⟩
  | some trip =>
    simp only []
    obtain ⟨hmapeq, hreq, hmono, hloc⟩ := fcfs_match_request_spec dur dist
      (gen_tid s.next_trip) ⟨rid, origin, destination, none⟩
      s.available_drivers capacity s.active_trips s.matcher_trips
      trip trips' mtrips' hm
    have hmono2 := @in_trips_mono_append _ _ s.completed_trips hmono
    have hst1 : ∀ p ∈ dict_set s.statuses rid RequestStatus.waiting,
        p.2 ≠ RequestStatus.quit := by
      intro p hp
      rcases dict_set_mem s.statuses rid RequestStatus.waiting p hp with h2 | h2
      · exact hst p h2
      · rw [h2]
        intro h3
        exact absurd h3 (by simp)
    have hcov1 : ∀ p ∈ dict_set s.statuses rid RequestStatus.waiting,
        (∃ r ∈ s.active_requests ++ [(⟨rid, origin, destination, none⟩ : Req)],
          r.rid = p.1) ∨
        in_trips p.1 (trips' ++ s.completed_trips) := by
      intro p hp
      rcases dict_set_mem s.statuses rid RequestStatus.waiting p hp with h2 | h2
      · rcases hcov p h2 with h3 | h3
        · obtain ⟨r, hr, hre⟩ := h3
          exact Or.inl ⟨r, List.mem_append_left _ hr, hre⟩
        · exact Or.inr (hmono2 p.1 h3)
      · rw [h2]
        exact Or.inl ⟨⟨rid, origin, destination, none⟩,
          List.mem_append_right _ (List.mem_singleton_self _), rfl⟩
    have hq2' : ∀ e ∈ s.queue, ∀ tid2 rid2,
        e.data = FData.pickup_complete tid2 rid2 →
        in_trips rid2 (trips' ++ s.completed_trips) := by
      intro e he tid2 rid2 hdata
      exact hmono2 rid2 (hq2 e he tid2 rid2 hdata)
    have htids1 : ∀ t ∈ trips' ++ s.completed_trips,
        ∃ k, k < s.next_trip + 1 ∧ t.tid = gen_tid k := by
      intro t ht
      rcases List.mem_append.mp ht with h2 | h2
      · obtain ⟨k, hk, hke⟩ := tids_of_map_eq hmapeq
          (fun u hu => htids u (List.mem_append_left _ hu)) t h2
        exact ⟨k, by omega, hke⟩
      · obtain ⟨k, hk, hke⟩ := htids t (List.mem_append_right _ h2)
        exact ⟨k, by omega, hke⟩
    have hpw1 : (trips'.map Trip.tid).Pairwise (fun a b => a ≠ b) := by
      rw [hmapeq]
      exact hpw
    by_cases hc : (trips'.map Trip.tid).contains trip.tid
    · rw [if_pos hc]
      have htrip_in : trip ∈ trips' := by
        rcases hloc with h2 | h2
        · exact h2
        · exfalso
          obtain ⟨h3, h4⟩ := h2
          have hmem : trip.tid ∈ trips'.map Trip.tid := by simpa using hc
          rw [h3, h4] at hmem
          exact created_tid_not_in
            (fun u hu => htids u (List.mem_append_left _ hu)) hmem
      refine ⟨⟨hq1, hst1, hqt, ?_⟩, hq2', htids1, hpw1⟩
      intro p hp
      rcases hcov1 p hp with h3 | h3
      · obtain ⟨r, hr, hre⟩ := h3
        by_cases hrr : r.rid = rid
        · obtain ⟨q, hq, hqe⟩ := hreq
          refine Or.inr ⟨trip, List.mem_append_left _ htrip_in, q, hq, ?_⟩
          rw [hqe, ← hre, hrr]
        · refine Or.inl ⟨r, ?_, hre⟩
          exact mem_eraseP_of_not hr (by simp [hrr])
      · exact Or.inr h3
    · rw [if_neg hc]
      have htid' : ∃ k, k < s.next_trip + 1 ∧ trip.tid = gen_tid k := by
        rcases hloc with h2 | h2
        · obtain ⟨k, hk, hke⟩ := htids1 trip (List.mem_append_left _ h2)
          exact ⟨k, hk, hke⟩
        · exact ⟨s.next_trip, by omega, h2.2⟩
      have hfresh' : trip.tid ∉ trips'.map Trip.tid := by simpa using hc
      exact fcfs_start_trip_inv dur
        { s with
          active_requests :=
            s.active_requests ++ [⟨rid, origin, destination, none⟩]
          statuses := dict_set s.statuses rid RequestStatus.waiting
          next_trip := s.next_trip + 1
          active_trips := trips'
          matcher_trips := mtrips' }
        trip ⟨⟨hq1, hst1, hqt, hcov1⟩, hq2', htids1, hpw1⟩ htid' hfresh'

/-- `_on_driver_arrival` preserves the C10 invariant. -/
theorem fcfs_on_driver_arrival_inv (dur : Dur) (dist : Loc → Loc → ℚ)
    (capacity : ℕ) (s : FState) (did : String) (type_id : ℤ) (location : Loc)
    (hinv : fcfs_inv s) :
    fcfs_inv (fcfs_on_driver_arrival dur dist capacity s did type_id
      location) := by
  obtain ⟨⟨hq1, hst, hqt, hcov⟩, hq2, htids, hpw⟩ := hinv
  rw [fcfs_on_driver_arrival]
  simp only []
  cases har : s.active_requests with
  | nil =>
    rw [har] at hcov
    exact ⟨⟨hq1, hst, hqt, hcov⟩, hq2, htids, hpw⟩
  | cons request tl =>
    rw [har] at hcov
    simp only []
    rcases hm : fcfs_match_request dur dist (gen_tid s.next_trip) request
        [⟨did, type_id, location, DriverStatus.available, s.time⟩] capacity
        s.active_trips s.matcher_trips with ⟨o, trips', mtrips'⟩
    cases o with
    | none =>
      simp only []
      obtain ⟨htr, hmt⟩ := fcfs_match_request_none dur dist
        (gen_tid s.next_trip) request
        [⟨did, type_id, location, DriverStatus.available, s.time⟩] capacity
        s.active_trips s.matcher_trips trips' mtrips' hm
      subst htr hmt
      refine ⟨⟨hq1, hst, hqt, hcov⟩, hq2, ?_, hpw⟩
      intro t ht
      obtain ⟨k, hk, hke⟩ := htids t ht
      exact ⟨k, Nat.lt_succ_of_lt hk, hke⟩
    | some trip =>
      simp only []
      obtain ⟨hmapeq, hreq, hmono, hloc⟩ := fcfs_match_request_spec dur dist
        (gen_tid s.next_trip) request
        [⟨did, type_id, location, DriverStatus.available, s.time⟩] capacity
        s.active_trips s.matcher_trips trip trips' mtrips' hm
      have hmono2 := @in_trips_mono_append _ _ s.completed_trips hmono
      have hcov1 : ∀ p ∈ s.statuses,
          (∃ r ∈ request :: tl, r.rid = p.1) ∨
          in_trips p.1 (trips' ++ s.completed_trips) := by
        intro p hp
        rcases hcov p hp with h3 | h3
        · exact Or.inl h3
        · exact Or.inr (hmono2 p.1 h3)
      have hq2' : ∀ e ∈ s.queue, ∀ tid2 rid2,
          e.data = FData.pickup_complete tid2 rid2 →
          in_trips rid2 (trips' ++ s.completed_trips) := by
        intro e he tid2 rid2 hdata
        exact hmono2 rid2 (hq2 e he tid2 rid2 hdata)
      have htids1 : ∀ t ∈ trips' ++ s.completed_trips,
          ∃ k, k < s.next_trip + 1 ∧ t.tid = gen_tid k := by
        intro t ht
        rcases List.mem_append.mp ht with h2 | h2
        · obtain ⟨k, hk, hke⟩ := tids_of_map_eq hmapeq
            (fun u hu => htids u (List.mem_append_left _ hu)) t h2
          exact ⟨k, by omega, hke⟩
        · obtain ⟨k, hk, hke⟩ := htids t (List.mem_append_right _ h2)
          exact ⟨k, by omega, hke⟩
      have hpw1 : (trips'.map Trip.tid).Pairwise (fun a b => a ≠ b) := by
        rw [hmapeq]
        exact hpw
      by_cases hc : (trips'.map Trip.tid).contains trip.tid
      · rw [if_pos hc]
        exact ⟨⟨hq1, hst, hqt, hcov1⟩, hq2', htids1, hpw1⟩
      · rw [if_neg hc]
        have htid' : ∃ k, k < s.next_trip + 1 ∧ trip.tid = gen_tid k := by
          rcases hloc with h2 | h2
          · exact htids1 trip (List.mem_append_left _ h2)
          · exact ⟨s.next_trip, by omega, h2.2⟩
        have hfresh' : trip.tid ∉ trips'.map Trip.tid := by simpa using hc
        exact fcfs_start_trip_inv dur
          { s with
            available_drivers := s.available_drivers ++
              [⟨did, type_id, location, DriverStatus.available, s.time⟩]
            active_requests := request :: tl
            active_trips := trips'
            matcher_trips := mtrips'
            next_trip := s.next_trip + 1 }
          trip ⟨⟨hq1, hst, hqt, hcov1⟩, hq2', htids1, hpw1⟩ htid' hfresh'

/-- `_on_pickup_complete` preserves the C10 invariant, given that the
event's rider is already on some trip (true of every pending pickup
event). -/
theorem fcfs_on_pickup_complete_inv (dur : Dur) (s : FState)
    (tid rid : String) (hinv : fcfs_inv s)
    (hrid : in_trips rid (s.active_trips ++ s.completed_trips)) :
    fcfs_inv (fcfs_on_pickup_complete dur s tid rid) := by
  obtain ⟨⟨hq1, hst, hqt, hcov⟩, hq2, htids, hpw⟩ := hinv
  rw [fcfs_on_pickup_complete]
  cases hfind : s.active_trips.find? (fun t => t.tid == tid) with
  | none => exact ⟨⟨hq1, hst, hqt, hcov⟩, hq2, htids, hpw⟩
  | some trip =>
    simp only []
    have h0 := List.find?_some hfind
    have htideq : trip.tid = tid := eq_of_beq h0
    have htripmem : trip ∈ s.active_trips := List.mem_of_find?_eq_some hfind
    have hmapeq : ((s.active_trips.map (fun t =>
        if t.tid == tid then trip.complete_pickup rid else t)).map Trip.tid) =
        s.active_trips.map Trip.tid := by
      rw [List.map_map]
      apply List.map_congr_left
      intro t ht
      by_cases h2 : t.tid == tid
      · have h3 : t.tid = tid := eq_of_beq h2
        simp only [Function.comp_apply, if_pos h2]
        show trip.tid = t.tid
        rw [h3, htideq]
      · simp only [Function.comp_apply, if_neg h2]
    have hcmem : trip.complete_pickup rid ∈ s.active_trips.map (fun t =>
        if t.tid == tid then trip.complete_pickup rid else t) := by
      have h5 := List.mem_map_of_mem (fun t =>
        if t.tid == tid then trip.complete_pickup rid else t) htripmem
      simp only [] at h5
      rw [if_pos h0] at h5
      exact h5
    have hmono : ∀ rid2, in_trips rid2 (s.active_trips ++ s.completed_trips) →
        in_trips rid2 ((s.active_trips.map (fun t =>
          if t.tid == tid then trip.complete_pickup rid else t)) ++
          s.completed_trips) := by
      intro rid2 hr
      obtain ⟨u, hu, q, hq, hqe⟩ := hr
      rcases List.mem_append.mp hu with h2 | h2
      · by_cases h3 : u.tid == tid
        · have h4 : u = trip := tid_unique s.active_trips hpw u h2 trip
            htripmem (by rw [eq_of_beq h3, htideq])
          refine ⟨trip.complete_pickup rid, List.mem_append_left _ hcmem,
            q, ?_, hqe⟩
          show q ∈ trip.passengers
          rw [← h4]
          exact hq
        · have h5 := List.mem_map_of_mem (fun t =>
            if t.tid == tid then trip.complete_pickup rid else t) h2
          simp only [] at h5
          rw [if_neg h3] at h5
          exact ⟨u, List.mem_append_left _ h5, q, hq, hqe⟩
      · exact ⟨u, List.mem_append_right _ h2, q, hq, hqe⟩
    have hst1 : ∀ p ∈ dict_set s.statuses rid RequestStatus.in_transit,
        p.2 ≠ RequestStatus.quit := by
      intro p hp
      rcases dict_set_mem s.statuses rid RequestStatus.in_transit p hp with h2 | h2
      · exact hst p h2
      · rw [h2]
        intro h3
        exact absurd h3 (by simp)
    have hcov1 : ∀ p ∈ dict_set s.statuses rid RequestStatus.in_transit,
        (∃ r ∈ s.active_requests, r.rid = p.1) ∨
        in_trips p.1 ((s.active_trips.map (fun t =>
          if t.tid == tid then trip.complete_pickup rid else t)) ++
          s.completed_trips) := by
      intro p hp
      rcases dict_set_mem s.statuses rid RequestStatus.in_transit p hp with h2 | h2
      · rcases hcov p h2 with h3 | h3
        · exact Or.inl h3
        · exact Or.inr (hmono p.1 h3)
      · rw [h2]
        exact Or.inr (hmono rid hrid)
    have hq2m : ∀ e ∈ s.queue, ∀ tid2 rid2,
        e.data = FData.pickup_complete tid2 rid2 →
        in_trips rid2 ((s.active_trips.map (fun t =>
          if t.tid == tid then trip.complete_pickup rid else t)) ++
          s.completed_trips) := by
      intro e he tid2 rid2 hdata
      exact hmono rid2 (hq2 e he tid2 rid2 hdata)
    have htids1 : ∀ t ∈ (s.active_trips.map (fun t =>
        if t.tid == tid then trip.complete_pickup rid else t)) ++
        s.completed_trips, ∃ k, k < s.next_trip ∧ t.tid = gen_tid k := by
      intro t ht
      rcases List.mem_append.mp ht with h2 | h2
      · exact tids_of_map_eq hmapeq
          (fun u hu => htids u (List.mem_append_left _ hu)) t h2
      · exact htids t (List.mem_append_right _ h2)
    have hpw1 : (((s.active_trips.map (fun t =>
        if t.tid == tid then trip.complete_pickup rid else t)).map
        Trip.tid)).Pairwise (fun a b => a ≠ b) := by
      rw [hmapeq]
      exact hpw
    by_cases hdone : (trip.complete_pickup rid).all_pickups_complete
    · rw [if_pos hdone]
      simp only [fcfs_add_event]
      refine ⟨⟨?_, hst1, hqt, hcov1⟩, ?_, htids1, hpw1⟩
      · intro e he
        rcases heappush_mem FEvent.time _ _ e he with h2 | h2
        · exact hq1 e h2
        · rw [h2]
          rfl
      · intro e he tid2 rid2 hdata
        rcases heappush_mem FEvent.time _ _ e he with h2 | h2
        · exact hq2m e h2 tid2 rid2 hdata
        · rw [h2] at hdata
          exact absurd hdata (by simp)
    · rw [if_neg hdone]
      cases hnp : (trip.complete_pickup rid).route.get?
          (trip.complete_pickup rid).current_position_index with
      | none =>
        exact ⟨⟨hq1, hst1, hqt, hcov1⟩, hq2m, htids1, hpw1⟩
      | some np =>
        cases hnr : (trip.complete_pickup rid).passengers.get?
            (trip.complete_pickup rid).current_position_index with
        | none =>
          exact ⟨⟨hq1, hst1, hqt, hcov1⟩, hq2m, htids1, hpw1⟩
        | some nr =>
          simp only [fcfs_add_event]
          refine ⟨⟨?_, hst1, hqt, hcov1⟩, ?_, htids1, hpw1⟩
          · intro e he
            rcases heappush_mem FEvent.time _ _ e he with h2 | h2
            · exact hq1 e h2
            · rw [h2]
              rfl
          · intro e he tid2 rid2 hdata
            rcases heappush_mem FEvent.time _ _ e he with h2 | h2
            · exact hq2m e h2 tid2 rid2 hdata
            · rw [h2] at hdata
              have hr2 : nr.rid = rid2 :=
                (FData.pickup_complete.injEq _ _ _ _).mp hdata |>.2
              rw [← hr2]
              exact ⟨trip.complete_pickup rid, List.mem_append_left _ hcmem,
                nr, List.get?_mem hnr, rfl⟩

/-- `_on_trip_complete` preserves the C10 invariant. -/
theorem fcfs_on_trip_complete_inv (s : FState) (tid : String)
    (hinv : fcfs_inv s) :
    fcfs_inv (fcfs_on_trip_complete s tid) := by
  obtain ⟨⟨hq1, hst, hqt, hcov⟩, hq2, htids, hpw⟩ := hinv
  rw [fcfs_on_trip_complete]
  cases hfind : s.active_trips.find? (fun t => t.tid == tid) with
  | none => exact ⟨⟨hq1, hst, hqt, hcov⟩, hq2, htids, hpw⟩
  | some trip =>
    simp only []
    have h0 := List.find?_some hfind
    have htideq : trip.tid = tid := eq_of_beq h0
    have htripmem : trip ∈ s.active_trips := List.mem_of_find?_eq_some hfind
    have htripc : ({ trip with driver := { trip.driver with
        status := DriverStatus.available
        location := trip.destination
        available_since := s.time } } : Trip) ∈ s.completed_trips ++
        [{ trip with driver := { trip.driver with
          status := DriverStatus.available
          location := trip.destination
          available_since := s.time } }] :=
      List.mem_append_right _ (List.mem_singleton_self _)
    have hmono : ∀ rid2, in_trips rid2 (s.active_trips ++ s.completed_trips) →
        in_trips rid2 (s.active_trips.eraseP (fun t => t.tid == tid) ++
          (s.completed_trips ++ [{ trip with driver := { trip.driver with
            status := DriverStatus.available
            location := trip.destination
            available_since := s.time } }])) := by
      intro rid2 hr
      obtain ⟨u, hu, q, hq, hqe⟩ := hr
      rcases List.mem_append.mp hu with h2 | h2
      · by_cases h3 : u.tid == tid
        · have h4 : u = trip := tid_unique s.active_trips hpw u h2 trip
            htripmem (by rw [eq_of_beq h3, htideq])
          refine ⟨_, List.mem_append_right _ htripc, q, ?_, hqe⟩
          show q ∈ trip.passengers
          rw [← h4]
          exact hq
        · exact ⟨u, List.mem_append_left _ (mem_eraseP_of_not h2 (by simpa using h3)),
            q, hq, hqe⟩
      · exact ⟨u, List.mem_append_right _ (List.mem_append_left _ h2), q, hq, hqe⟩
    refine ⟨⟨hq1, ?_, hqt, ?_⟩, ?_, ?_, ?_⟩
    · intro p hp
      rcases foldl_dict_set_mem Req.rid RequestStatus.completed trip.passengers
        s.statuses p hp with h2 | h2
      · exact hst p h2
      · obtain ⟨q, _, hpq⟩ := h2
        rw [hpq]
        intro h3
        exact absurd h3 (by simp)
    · intro p hp
      rcases foldl_dict_set_mem Req.rid RequestStatus.completed trip.passengers
        s.statuses p hp with h2 | h2
      · rcases hcov p h2 with h3 | h3
        · exact Or.inl h3
        · exact Or.inr (hmono p.1 h3)
      · obtain ⟨q, hq, hpq⟩ := h2
        rw [hpq]
        exact Or.inr ⟨_, List.mem_append_right _ htripc, q, hq, rfl⟩
    · intro e he tid2 rid2 hdata
      exact hmono rid2 (hq2 e he tid2 rid2 hdata)
    · intro t ht
      rcases List.mem_append.mp ht with h2 | h2
      · exact htids t (List.mem_append_left _
          ((List.eraseP_sublist s.active_trips).subset h2))
      · rcases List.mem_append.mp h2 with h3 | h3
        · exact htids t (List.mem_append_right _ h3)
        · rw [List.mem_singleton.mp h3]
          obtain ⟨k, hk, hke⟩ := htids trip (List.mem_append_left _ htripmem)
          exact ⟨k, hk, hke⟩
    · exact List.Pairwise.sublist
        (List.Sublist.map Trip.tid (List.eraseP_sublist s.active_trips)) hpw

/-- `_handle_event` preserves the C10 invariant for every event payload
whose pickup rider (if any) is already on some trip. -/
theorem fcfs_handle_event_inv (dur : Dur) (dist : Loc → Loc → ℚ)
    (capacity : ℕ) (s : FState) (d : FData) (hinv : fcfs_inv s)
    (hd : ∀ tid rid, d = FData.pickup_complete tid rid →
      in_trips rid (s.active_trips ++ s.completed_trips)) :
    fcfs_inv (fcfs_handle_event dur dist capacity s d) := by
  cases d with
  | request_arrival rid origin destination =>
    exact fcfs_on_request_arrival_inv dur dist capacity s rid origin
      destination hinv
  | driver_arrival did type_id location =>
    exact fcfs_on_driver_arrival_inv dur dist capacity s did type_id
      location hinv
  | request_quit r => exact hinv
  | threshold_reached r => exact hinv
  | pickup_complete tid rid =>
    exact fcfs_on_pickup_complete_inv dur s tid rid hinv (hd tid rid rfl)
  | trip_complete tid => exact fcfs_on_trip_complete_inv s tid hinv

/-- The FCFS run loop preserves the C10 invariant. -/
theorem fcfs_run_inv (dur : Dur) (dist : Loc → Loc → ℚ) (capacity : ℕ)
    (duration : ℚ) :
    ∀ (fuel : ℕ) (s : FState), fcfs_inv s →
      fcfs_inv (fcfs_run dur dist capacity duration fuel s) := by
  intro fuel
  induction fuel with
  | zero =>
    intro s h
    rw [fcfs_run]
    exact h
  | succ fuel ih =>
    intro s h
    rw [fcfs_run]
    by_cases hlt : s.time < duration
    · rw [if_pos hlt]
      cases hp : heappop FEvent.time s.queue with
      | none => exact h
      | some pr =>
        obtain ⟨e, rest⟩ := pr
        simp only []
        obtain ⟨hem, hsub⟩ := heappop_mem FEvent.time s.queue e rest hp
        obtain ⟨⟨hq1, hst, hqt, hcov⟩, hq2, htids, hpw⟩ := h
        refine ih _ (fcfs_handle_event_inv dur dist capacity
          { s with time := e.time, queue := rest } e.data
          ⟨⟨fun e2 he2 => hq1 e2 (hsub e2 he2), hst, hqt, hcov⟩,
            fun e2 he2 => hq2 e2 (hsub e2 he2), htids, hpw⟩ ?_)
        intro tid rid hdata
        exact hq2 e hem tid rid hdata
    · rw [if_neg hlt]
      exact h

/-- The initial FCFS state (pre-generated events queued) satisfies the
C10 invariant. -/
theorem fcfs_init_inv (init_drivers : List DriverE)
    (req_events : List (ℚ × String × Loc × Loc))
    (drv_events : List (ℚ × String × ℤ × Loc)) :
    fcfs_inv (fcfs_init init_drivers req_events drv_events) := by
  have hshape : ∀ e ∈ fcfs_schedule_from_events req_events drv_events,
      (∃ a : ℚ × String × Loc × Loc,
        e = ⟨a.1, FData.request_arrival a.2.1 a.2.2.1 a.2.2.2⟩) ∨
      (∃ a : ℚ × String × ℤ × Loc,
        e = ⟨a.1, FData.driver_arrival a.2.1 a.2.2.1 a.2.2.2⟩) := by
    intro e he
    rw [fcfs_schedule_from_events] at he
    rcases foldl_heappush_mem FEvent.time
        (fun ev : ℚ × String × ℤ × Loc =>
          (⟨ev.1, FData.driver_arrival ev.2.1 ev.2.2.1 ev.2.2.2⟩ : FEvent))
        drv_events _ e he with h2 | h2
    · rcases foldl_heappush_mem FEvent.time
          (fun ev : ℚ × String × Loc × Loc =>
            (⟨ev.1, FData.request_arrival ev.2.1 ev.2.2.1 ev.2.2.2⟩ : FEvent))
          req_events [] e h2 with h3 | h3
      · exact absurd h3 (by simp)
      · obtain ⟨a, _, hea⟩ := h3
        exact Or.inl ⟨a, hea⟩
    · obtain ⟨a, _, hea⟩ := h2
      exact Or.inr ⟨a, hea⟩
  refine ⟨⟨?_, ?_, rfl, ?_⟩, ?_, ?_, ?_⟩
  · intro e he
    rcases hshape e he with ⟨a, hea⟩ | ⟨a, hea⟩ <;> rw [hea] <;> rfl
  · intro p hp
    exact absurd hp (List.not_mem_nil p)
  · intro p hp
    exact absurd hp (List.not_mem_nil p)
  · intro e he tid rid hdata
    rcases hshape e he with ⟨a, hea⟩ | ⟨a, hea⟩ <;> rw [hea] at hdata <;>
      exact absurd hdata (by simp)
  · intro t ht
    rcases List.mem_append.mp ht with h2 | h2
    · exact absurd h2 (List.not_mem_nil t)
    · exact absurd h2 (List.not_mem_nil t)
  · exact List.Pairwise.nil

/-- C10: pre-generated events are all request/driver arrivals, the four
FCFS handlers schedule only arrival, pickup-complete and trip-complete
events and never set the quit status or touch the quit counter, and the
active set only shrinks by matching: after any number of steps of the
FCFS run loop, no `REQUEST_QUIT` or `THRESHOLD_REACHED` event is pending,
no request has status `QUIT`, `total_quits` is 0, and every request that
ever arrived is still in the active set or on some (active or completed)
trip — an unmatched request stays in the active set indefinitely. -/
theorem fcfs_never_quits (dur : Dur) (dist : Loc → Loc → ℚ) (capacity : ℕ)
    (duration : ℚ) (fuel : ℕ) (init_drivers : List DriverE)
    (req_events : List (ℚ × String × Loc × Loc))
    (drv_events : List (ℚ × String × ℤ × Loc)) :
    fcfs_invariant (fcfs_run dur dist capacity duration fuel
      (fcfs_init init_drivers req_events drv_events)) :=
  (fcfs_run_inv dur dist capacity duration fuel
    (fcfs_init init_drivers req_events drv_events)
    (fcfs_init_inv init_drivers req_events drv_events)).1

end RideShare
